import Mathlib

/-!
Verification development for the hexmake build engine.

The definitions below are a shallow embedding of the Rust sources:
  - src/ast/hex_path.rs        (path validation, `is_output`)
  - src/ast/hexmake_file.rs    (rules and rule files)
  - src/file_system/fake.rs    (the in-repo reference semantics of the
                                VirtualFileSystem trait: a flat map from
                                path to file contents plus a logical clock)
  - src/cache/build_hash.rs    (the fingerprinter)
  - src/cache/build_cache.rs   (retrieve / insert / garbage collection)
  - src/graph/task.rs          (task state)
  - src/graph/planner.rs       (build planning)
  - src/main.rs                (target listing)

Modelling conventions:
  - Bytes are `Nat`s; file writes normalise every byte modulo 256, the way a
    real byte store truncates to octets.
  - Strings are treated at the level of their character sequences: the byte
    encoding of a string is the list of its character code points, and the
    inverse decoding of a stored byte list succeeds exactly for ASCII data
    (a non-ASCII inputmap makes the Rust code abort in `String::from_utf8`
    followed by `unwrap`; the model surfaces that as a distinguished
    `invalidUtf8` outcome).
  - The SHA-256 digest is idealised as a collision-free function: the model
    digest is the upper-case hexadecimal rendering of the framed byte stream
    that the Rust code feeds to the hash context.  Every claim proved here
    uses the digest only through equality propagation or through this
    collision-freeness, which is exactly the spec's stated assumption
    ("any collision-resistant 256-bit hash suffices").
  - Rust's stable `sort`/`sort_by_key` is modelled by insertion sort, which
    is also stable; no theorem below depends on the order of entries whose
    sort keys are equal.
  - Fallible filesystem steps return `Option`/explicit result values, and
    every stateful cache operation threads the filesystem state explicitly,
    returning it in both the success and the error case.
-/

namespace Hexmake

/-! ## Bytes and the framed hash stream (src/cache/build_hash.rs) -/

/-- A byte string, one `Nat` per byte. -/
abbrev Bytes := List Nat

/-- Little-endian encoding of a 64-bit integer, as in `hash_u64`
(`value.to_le_bytes()`). -/
def u64le (n : Nat) : Bytes :=
  [n % 256, n / 256 % 256, n / 256 ^ 2 % 256, n / 256 ^ 3 % 256,
   n / 256 ^ 4 % 256, n / 256 ^ 5 % 256, n / 256 ^ 6 % 256, n / 256 ^ 7 % 256]

/-- The bytes of a string: one byte per character code point (see the
modelling conventions above). -/
def strBytes (s : String) : Bytes :=
  s.data.map Char.toNat

/-- Mirror of `hash_bytes`: append a length prefix and then the bytes to the
accumulated hash stream. -/
def hashBytesAcc (acc : Bytes) (v : Bytes) : Bytes :=
  acc ++ u64le v.length ++ v

/-- Mirror of `hash_string`. -/
def hashStringAcc (acc : Bytes) (s : String) : Bytes :=
  hashBytesAcc acc (strBytes s)

/-- Mirror of `hash_usize` / `hash_u64`: append a bare 8-byte integer. -/
def hashU64Acc (acc : Bytes) (n : Nat) : Bytes :=
  acc ++ u64le n

/-- Upper-case hexadecimal digit table, as produced by `format!("{:02X}")`. -/
def hexDigit (n : Nat) : Char :=
  "0123456789ABCDEF".toList.getD n 'X'

/-- Two-character upper-case hexadecimal rendering of one byte. -/
def hexByte (b : Nat) : List Char :=
  [hexDigit (b / 16), hexDigit (b % 16)]

/-- The idealised digest: the hex rendering of the whole framed stream
(`hex_string_for_digest` composed with a collision-free stand-in for
SHA-256). -/
def digest (stream : Bytes) : String :=
  ⟨stream.flatMap hexByte⟩

/-! ## Character-level string helpers

The Rust code uses byte-level string primitives (`starts_with`, `split`);
the model works on the character lists underlying Lean strings so that every
operation is structurally recursive and executable by the kernel. -/

/-- Split a character list at every occurrence of a separator, keeping empty
segments, exactly like Rust's `str::split` with a one-character pattern. -/
def splitCh (sep : Char) : List Char → List (List Char)
  | [] => [[]]
  | c :: rest =>
    match splitCh sep rest with
    | [] => [[]]
    | seg :: segs =>
      if c = sep then [] :: seg :: segs else (c :: seg) :: segs

/-- Mirror of Rust `str::split("\n")` as used on inputmap contents. -/
def splitNl (s : String) : List String :=
  (splitCh '\n' s.data).map List.asString

/-- Mirror of Rust `str::starts_with` (a character-list prefix test). -/
def strStartsWith (s pre : String) : Bool :=
  pre.data.isPrefixOf s.data

/-! ## The filesystem model (src/file_system/fake.rs) -/

/-- One stored file: contents plus a modification time from the logical
clock. -/
structure FsFile where
  contents : Bytes
  modtime : Nat
deriving Repr, DecidableEq

/-- The filesystem state: a flat map from path to file, plus the logical
clock (`State` in fake.rs). -/
structure Fs where
  files : List (String × FsFile)
  clock : Nat
deriving Repr, DecidableEq

/-- Association-list insert that replaces an existing binding in place, the
way a map insert does. -/
def insertAssoc (l : List (String × FsFile)) (k : String) (v : FsFile) :
    List (String × FsFile) :=
  match l with
  | [] => [(k, v)]
  | (k', v') :: rest =>
    if k' = k then (k, v) :: rest else (k', v') :: insertAssoc rest k v

/-- Look up the file stored at a path. -/
def Fs.lookup (fs : Fs) (p : String) : Option FsFile :=
  fs.files.lookup p

/-- Mirror of the fake `write`: store the (byte-normalised) contents with the
current clock as modtime and advance the clock. -/
def Fs.write (fs : Fs) (p : String) (contents : Bytes) : Fs :=
  { files := insertAssoc fs.files p ⟨contents.map (· % 256), fs.clock⟩
    clock := fs.clock + 1 }

/-- Mirror of the fake `remove_file`: drop the entry; removing an absent path
succeeds. -/
def Fs.removeFile (fs : Fs) (p : String) : Fs :=
  { files := fs.files.filter fun e => e.1 ≠ p
    clock := fs.clock }

/-- Mirror of the fake `is_file`. -/
def Fs.isFile (fs : Fs) (p : String) : Bool :=
  (fs.lookup p).isSome

/-- Mirror of the fake `exists` (which delegates to `is_file`). -/
def Fs.existsFile (fs : Fs) (p : String) : Bool :=
  fs.isFile p

/-- Mirror of the fake `read`. -/
def Fs.read (fs : Fs) (p : String) : Option Bytes :=
  (fs.lookup p).map FsFile.contents

/-- Mirror of the fake `file_size`. -/
def Fs.fileSize (fs : Fs) (p : String) : Option Nat :=
  (fs.lookup p).map fun f => f.contents.length

/-- Mirror of the fake `modtime`. -/
def Fs.modtimeOf (fs : Fs) (p : String) : Option Nat :=
  (fs.lookup p).map FsFile.modtime

/-- Mirror of the fake `list_dir`: every stored path strictly below the given
directory. -/
def Fs.listDir (fs : Fs) (p : String) : List String :=
  (fs.files.map Prod.fst).filter fun q => strStartsWith q (p ++ "/")

/-- Mirror of the fake `tree_walk`: a stored file is its own walk; otherwise
all stored paths below the directory. -/
def Fs.treeWalk (fs : Fs) (p : String) : List String :=
  if fs.isFile p then [p]
  else (fs.files.map Prod.fst).filter fun q => strStartsWith q (p ++ "/")

/-- Mirror of the fake `copy` (read the source, then write the
destination). -/
def Fs.copy (fs : Fs) (src dst : String) : Option Fs :=
  (fs.read src).map fun contents => fs.write dst contents

/-- The empty filesystem. -/
def Fs.empty : Fs := { files := [], clock := 0 }

/-- Wellformedness of a filesystem state: distinct keys (it models a map)
and byte-sized contents of machine-representable length (a Rust `Vec<u8>` is
indexed by `usize`).  Every state reachable through the operations above from
an empty store satisfies this. -/
def Fs.WF (fs : Fs) : Prop :=
  (fs.files.map Prod.fst).Nodup ∧
    ∀ e ∈ fs.files, (∀ b ∈ e.2.contents, b < 256) ∧ e.2.contents.length < 2 ^ 64

/-! ## Rules and paths (src/ast) -/

/-- Mirror of `HexRule`. -/
structure HexRule where
  name : String
  outputs : List String
  inputs : List String
  commands : List String
deriving Repr, DecidableEq

/-- Mirror of `HexmakeFile`. -/
structure HexmakeFile where
  environ : List String
  rules : List HexRule
deriving Repr, DecidableEq

/-- Mirror of `HexPath::is_output`. -/
def isOutput (p : String) : Bool :=
  strStartsWith p "out/"

/-- Mirror of `HexPath::try_from`: a raw string is a valid path when it is
non-empty, does not start or end with a slash, contains no double slash, and
has no `.` or `..` segment.  (The three slash conditions are together exactly
"no empty segment", so the whole check is: non-empty, and every
slash-separated segment is neither empty nor `.` nor `..`.) -/
def hexPathValid (p : String) : Bool :=
  !p.data.isEmpty &&
    (splitCh '/' p.data).all fun seg =>
      !seg.isEmpty && seg ≠ ['.'] && seg ≠ ['.', '.']

/-- An environment projection: names and values, in key-sorted order as
iterated from the `BTreeMap`. -/
abbrev Env := List (String × String)

/-! ## The fingerprinter (src/cache/build_hash.rs) -/

/-- Mirror of `hash_rule`: lengths and length-prefixed outputs, inputs, and
commands. -/
def hashRuleAcc (acc : Bytes) (rule : HexRule) : Bytes :=
  let acc := rule.outputs.foldl hashStringAcc (hashU64Acc acc rule.outputs.length)
  let acc := rule.inputs.foldl hashStringAcc (hashU64Acc acc rule.inputs.length)
  rule.commands.foldl hashStringAcc (hashU64Acc acc rule.commands.length)

/-- Mirror of `hash_env`. -/
def hashEnvAcc (acc : Bytes) (env : Env) : Bytes :=
  env.foldl (fun a nv => hashStringAcc (hashStringAcc a nv.1) nv.2)
    (hashU64Acc acc env.length)

/-- Mirror of `hash_tree`: error when the tree does not exist, else hash every
walk entry as a length-prefixed path followed by a file tag and contents or a
directory tag. -/
def hashTreeAcc (fs : Fs) (path : String) (acc : Bytes) : Option Bytes :=
  if fs.existsFile path then
    some <| (fs.treeWalk path).foldl
      (fun a entry =>
        let a := hashStringAcc a entry
        if fs.isFile entry then
          hashBytesAcc (hashU64Acc a 0) ((fs.read entry).getD [])
        else
          hashU64Acc a 1)
      acc
  else
    none

/-- Mirror of `hash_trees`: the number of trees, then each tree in order. -/
def hashTreesAcc (fs : Fs) (paths : List String) (acc : Bytes) : Option Bytes :=
  paths.foldlM (fun a p => hashTreeAcc fs p a) (hashU64Acc acc paths.length)

/-- Mirror of `BuildHash::hash`: rule, environment, then input trees; `none`
models the `io::Error` case (a missing input tree). -/
def buildHash (env : Env) (rule : HexRule) (fs : Fs) : Option String :=
  (hashTreesAcc fs rule.inputs (hashEnvAcc (hashRuleAcc [] rule) env)).map digest

/-- Mirror of `BuildHash::hash_tree` (hashing a single tree by itself). -/
def treeHash (fs : Fs) (path : String) : Option String :=
  (hashTreeAcc fs path []).map digest

/-! ## The cache (src/cache/build_cache.rs) -/

/-- Cache root, as constructed in `BuildCache::new`. -/
def cacheRoot : String := ".hex/cache"

/-- The inputmaps directory. -/
def inputmapsDir : String := ".hex/cache/inputmaps"

/-- The outputs (blob) directory. -/
def outputsDir : String := ".hex/cache/outputs"

/-- Mirror of `HexPath::child`: textual path concatenation with a slash. -/
def childPath (p c : String) : String := p ++ "/" ++ c

/-- Decode stored bytes back to a string.  ASCII data decodes to itself; any
other byte makes the Rust code abort in `String::from_utf8(..).unwrap()`,
which the model reports as `none`. -/
def asciiDecode (bs : Bytes) : Option String :=
  if bs.all (· < 128) then some ⟨bs.map Char.ofNat⟩ else none

/-- Result of a cache retrieval: a hit/miss answer, an I/O error, or the
abort on a non-UTF-8 inputmap. -/
inductive RetRes where
  | ok (hit : Bool)
  | ioError
  | invalidUtf8
deriving Repr, DecidableEq

/-- The body of the retrieval loop in `retrieve_outputs`: for each
(output path, cached hash) pair, remove any existing file at the output path
and then copy the cached blob onto it. -/
def retrieveLoop (fs : Fs) : List (String × String) → RetRes × Fs
  | [] => (.ok true, fs)
  | (outputPath, outputHash) :: rest =>
    let cachedPath := childPath outputsDir outputHash
    let fs := fs.removeFile outputPath
    match fs.read cachedPath with
    | none => (.ioError, fs)
    | some contents => retrieveLoop (fs.write outputPath contents) rest

/-- Mirror of `BuildCache::retrieve_outputs`. -/
def retrieveOutputs (env : Env) (rule : HexRule) (fs : Fs) : RetRes × Fs :=
  match buildHash env rule fs with
  | none => (.ioError, fs)
  | some ruleHash =>
    let inputmapPath := childPath inputmapsDir ruleHash
    if fs.existsFile inputmapPath then
      match asciiDecode ((fs.read inputmapPath).getD []) with
      | none => (.invalidUtf8, fs)
      | some inputmap =>
        retrieveLoop fs (rule.outputs.zip (splitNl inputmap))
    else
      (.ok false, fs)

/-- The body of the insertion loop in `insert_outputs`: hash each output
tree, copy the output into the blob store, and accumulate the inputmap text.
On an error the state reached so far is returned with `none`. -/
def insertLoop (fs : Fs) (acc : String) : List String → Option String × Fs
  | [] => (some acc, fs)
  | outputPath :: rest =>
    match treeHash fs outputPath with
    | none => (none, fs)
    | some outputHash =>
      let cachedPath := childPath outputsDir outputHash
      match fs.read outputPath with
      | none => (none, fs)
      | some contents =>
        insertLoop (fs.write cachedPath contents) (acc ++ outputHash ++ "\n") rest

/-- Mirror of `BuildCache::insert_outputs`: run the loop, then compute the
rule hash and write the inputmap file last.  The `Bool` says whether the
whole operation succeeded. -/
def insertOutputs (env : Env) (rule : HexRule) (fs : Fs) : Bool × Fs :=
  match insertLoop fs "" rule.outputs with
  | (none, fs) => (false, fs)
  | (some inputmap, fs) =>
    match buildHash env rule fs with
    | none => (false, fs)
    | some ruleHash =>
      (true, fs.write (childPath inputmapsDir ruleHash) (strBytes inputmap))

/-- GC trigger threshold (`MAX_SIZE`, 200 MiB). -/
def MAX_SIZE : Nat := 200 * 1024 * 1024

/-- GC stop threshold (`TARGET_SIZE`, 100 MiB). -/
def TARGET_SIZE : Nat := 100 * 1024 * 1024

/-- The deletion walk of `maybe_gc`: over the modtime-sorted file list, keep
entries once the running total is at or below the target, delete (and
subtract) otherwise.  Returns the kept paths and the updated state. -/
def gcDeleteOldest : List (String × Nat × Nat) → Nat → Fs → List String × Fs
  | [], _, fs => ([], fs)
  | (p, size, _) :: rest, total, fs =>
    if total ≤ TARGET_SIZE then
      let (keep, fs') := gcDeleteOldest rest total fs
      (p :: keep, fs')
    else
      gcDeleteOldest rest (total - size) (fs.removeFile p)

/-- One inputmap's parsed references: the non-empty lines, each resolved to a
blob path under `outputs/`. -/
def inputmapRefs (inputmap : String) : List String :=
  ((splitNl inputmap).filter (· ≠ "")).map (childPath outputsDir)

/-- The loop of `cleanup_orphaned_inputmaps` over a fixed list of inputmap
paths: delete inputmaps referencing a missing output, collect the referenced
outputs of the valid ones. -/
def cleanupInputmapsLoop (existing : List String) :
    List String → Fs → List String → Option (List String) × Fs
  | [], fs, referenced => (some referenced, fs)
  | imp :: rest, fs, referenced =>
    if fs.isFile imp then
      match asciiDecode ((fs.read imp).getD []) with
      | none => (none, fs)
      | some inputmap =>
        let refs := inputmapRefs inputmap
        if refs.all (existing.contains ·) then
          cleanupInputmapsLoop existing rest fs (referenced ++ refs)
        else
          cleanupInputmapsLoop existing rest (fs.removeFile imp) referenced
    else
      cleanupInputmapsLoop existing rest fs referenced

/-- Mirror of `cleanup_orphaned_inputmaps`. -/
def cleanupOrphanedInputmaps (fs : Fs) (existing : List String) :
    Option (List String) × Fs :=
  cleanupInputmapsLoop existing (fs.listDir inputmapsDir) fs []

/-- Mirror of `cleanup_orphaned_outputs`: delete every surviving output that
no valid inputmap references. -/
def cleanupOrphanedOutputs (fs : Fs) (existing referenced : List String) : Fs :=
  existing.foldl
    (fun fs p => if referenced.contains p then fs else fs.removeFile p) fs

/-- Result of `maybe_gc`: success, or the abort on a non-UTF-8 inputmap. -/
inductive GcRes where
  | ok
  | invalidUtf8
deriving Repr, DecidableEq

/-- The scan at the top of `maybe_gc`: every file under `outputs/` with its
size and modtime. -/
def gcScan (fs : Fs) : List (String × Nat × Nat) :=
  (fs.listDir outputsDir).filterMap fun p =>
    if fs.isFile p then
      some (p, (fs.fileSize p).getD 0, (fs.modtimeOf p).getD 0)
    else
      none

/-- Mirror of `BuildCache::maybe_gc`. -/
def maybeGc (fs : Fs) : GcRes × Fs :=
  let outputFiles := gcScan fs
  let totalSize := (outputFiles.map fun e => e.2.1).sum
  if totalSize > MAX_SIZE then
    let sorted := outputFiles.insertionSort fun a b => a.2.2 ≤ b.2.2
    let (remaining, fs1) := gcDeleteOldest sorted totalSize fs
    match cleanupOrphanedInputmaps fs1 remaining with
    | (none, fs2) => (.invalidUtf8, fs2)
    | (some referenced, fs2) =>
      (.ok, cleanupOrphanedOutputs fs2 remaining referenced)
  else
    (.ok, fs)

/-! ## Tasks (src/graph/task.rs) -/

/-- Mirror of `Task`.  Edges are recorded by rule name (the Rust code stores
shared references but compares tasks only through `rule_name`). -/
structure Task where
  rule : HexRule
  dependsOn : List String
  usedBy : List String
  unbuiltDependencies : Nat
  isBuilt : Bool
deriving Repr, DecidableEq

/-- Mirror of `Task::new`. -/
def Task.new (rule : HexRule) : Task :=
  { rule := rule, dependsOn := [], usedBy := [], unbuiltDependencies := 0
    isBuilt := false }

/-- Mirror of `Task::depends_on_rule`. -/
def Task.dependsOnRule (t : Task) (ruleName : String) : Bool :=
  t.dependsOn.contains ruleName

/-- Mirror of `Task::ready_to_run` (the source checks only the dependency
counter). -/
def Task.readyToRun (t : Task) : Bool :=
  t.unbuiltDependencies == 0

/-! ## The planner (src/graph/planner.rs) -/

/-- The mutable planner state: the precomputed rule tables and the map of
tasks created so far.  `taskForRule` is kept in insertion order. -/
structure PlannerSt where
  ruleMap : List (String × HexRule)
  ruleByOutput : List (String × String)
  taskForRule : List (String × Task)
deriving Repr, DecidableEq

/-- Map insert for the planner's precomputed tables (a later insert of the
same key overwrites, as in `BTreeMap::insert`). -/
def insertTable (l : List (String × String)) (k v : String) :
    List (String × String) :=
  match l with
  | [] => [(k, v)]
  | (k', v') :: rest =>
    if k' = k then (k, v) :: rest else (k', v') :: insertTable rest k v

/-- Map insert for the rule table. -/
def insertRuleTable (l : List (String × HexRule)) (k : String) (v : HexRule) :
    List (String × HexRule) :=
  match l with
  | [] => [(k, v)]
  | (k', v') :: rest =>
    if k' = k then (k, v) :: rest else (k', v') :: insertRuleTable rest k v

/-- Mirror of `Planner::new`: build `rule_map` and `rule_by_output`. -/
def PlannerSt.new (hexFile : HexmakeFile) : PlannerSt :=
  let tables :=
    hexFile.rules.foldl
      (fun (acc : List (String × HexRule) × List (String × String)) rule =>
        (insertRuleTable acc.1 rule.name rule,
         rule.outputs.foldl (fun m output => insertTable m output rule.name) acc.2))
      ([], [])
  { ruleMap := tables.1, ruleByOutput := tables.2, taskForRule := [] }

/-- Update the task stored for a name (used to append a `used_by` edge). -/
def updateTask (l : List (String × Task)) (k : String) (f : Task → Task) :
    List (String × Task) :=
  l.map fun e => if e.1 = k then (e.1, f e.2) else e

/-- Mirror of `Task::add_dependency`, acting on the local (not yet inserted)
`from` task and on the task map that holds the `to` task: skip when the
dependency is already recorded; otherwise push the edge in both directions
and bump the counter. -/
def addDependency (fromTask : Task) (toName : String)
    (tasks : List (String × Task)) : Task × List (String × Task) :=
  if fromTask.dependsOnRule toName then
    (fromTask, tasks)
  else
    ({ fromTask with
        dependsOn := fromTask.dependsOn ++ [toName]
        unbuiltDependencies := fromTask.unbuiltDependencies + 1 },
     updateTask tasks toName fun t =>
       { t with usedBy := t.usedBy ++ [fromTask.rule.name] })

/-- Result of planning one target: the rule name and updated state, a
diagnostic, a Rust panic (`unwrap` on an invalid path, or indexing a missing
task), or fuel exhaustion of the model's bounded recursion. -/
inductive PlanRes where
  | ok (ruleName : String) (st : PlannerSt)
  | diag (msg : String)
  | abort
  | fuelOut
deriving Repr, DecidableEq

/-- The loop over `rule.inputs` inside `plan_one_target`, parametrised by
the function that plans one target (the recursion of the Rust code enters
`plan_one_target` again; here that callee is tied one fuel level down in
`planOneTarget` so that the whole recursion is structural on fuel): plan the
producing rule of each output-typed input and add the dependency edge. -/
def planInputsF (pot : PlannerSt → String → List String → PlanRes) :
    PlannerSt → Task → List String → List String → Sum (Task × PlannerSt) PlanRes
  | st, task, [], _ => .inl (task, st)
  | st, task, input :: rest, targetsInProgress =>
    if isOutput input then
      match pot st input targetsInProgress with
      | .ok inputRuleName st =>
        if (st.taskForRule.lookup inputRuleName).isSome then
          let r := addDependency task inputRuleName st.taskForRule
          planInputsF pot { st with taskForRule := r.2 } r.1 rest
            targetsInProgress
        else
          .inr .abort
      | .diag msg => .inr (.diag msg)
      | .abort => .inr .abort
      | .fuelOut => .inr .fuelOut
    else
      planInputsF pot st task rest targetsInProgress

/-- Mirror of `Planner::plan_one_target`.  The recursion of the Rust code is
bounded here by explicit fuel; `plan_build` always supplies enough fuel
because every recursion level pushes a distinct known rule name onto
`targets_in_progress`. -/
def planOneTarget : Nat → PlannerSt → String → List String → PlanRes
  | 0, _, _, _ => .fuelOut
  | fuel + 1, st, target, targetsInProgress =>
    if hexPathValid target then
      match
        (if isOutput target then
          match st.ruleByOutput.lookup target with
          | some ruleName => Sum.inl ruleName
          | none => Sum.inr ("No rule exists to build `" ++ target ++ "`")
        else
          Sum.inl target : Sum String String)
      with
      | .inr msg => .diag msg
      | .inl ruleName =>
        if targetsInProgress.contains ruleName then
          .diag ("Rule cycle involving rule `" ++ ruleName ++ "`")
        else
          let targetsInProgress := ruleName :: targetsInProgress
          if (st.taskForRule.lookup ruleName).isSome then
            .ok ruleName st
          else
            match st.ruleMap.lookup ruleName with
            | none => .diag ("No rule exists named `" ++ ruleName ++ "`")
            | some rule =>
              match planInputsF (planOneTarget fuel) st (Task.new rule)
                  rule.inputs targetsInProgress with
              | .inr res => res
              | .inl (task, st) =>
                .ok ruleName
                  { st with taskForRule := st.taskForRule ++ [(ruleName, task)] }
    else
      .abort

/-- The inputs loop at matching fuel. -/
def planInputs (fuel : Nat) (st : PlannerSt) (task : Task)
    (inputs : List String) (targetsInProgress : List String) :
    Sum (Task × PlannerSt) PlanRes :=
  planInputsF (planOneTarget fuel) st task inputs targetsInProgress

/-- Mirror of `BuildPlan`. -/
structure BuildPlan where
  targetRules : List String
  tasks : List (String × Task)
deriving Repr, DecidableEq

/-- Result of `plan_build`. -/
inductive BuildRes where
  | plan (p : BuildPlan)
  | diag (msg : String)
  | abort
  | fuelOut
deriving Repr, DecidableEq

/-- The loop of `Planner::plan` over the target list. -/
def planTargets (fuel : Nat) (st : PlannerSt) (targetRules : List String) :
    List String → BuildRes
  | [] => .plan { targetRules := targetRules, tasks := st.taskForRule }
  | target :: rest =>
    match planOneTarget fuel st target [] with
    | .ok ruleName st => planTargets fuel st (targetRules ++ [ruleName]) rest
    | .diag msg => .diag msg
    | .abort => .abort
    | .fuelOut => .fuelOut

/-- Mirror of `plan_build`.  The fuel bound is one more than the number of
rules: the recursion of `plan_one_target` pushes a distinct known rule name
onto `targets_in_progress` at every level. -/
def planBuild (hexFile : HexmakeFile) (targets : List String) : BuildRes :=
  planTargets (hexFile.rules.length + 1) (PlannerSt.new hexFile) [] targets

/-! ## Target listing (src/main.rs) -/

/-- Mirror of `list_targets`: every rule name and every output path, sorted
(and printed one per line, duplicates retained).  The sort relation is
lexicographic string order, phrased on the character lists so that it is
executable by the kernel; `strLeList_iff` below identifies it with `≤` on
strings. -/
def listTargets (hexFile : HexmakeFile) : List String :=
  (hexFile.rules.flatMap fun rule => rule.name :: rule.outputs).insertionSort
    fun a b => ¬ b.data < a.data

/-! ## Planner invariants (for the plan-graph properties) -/

/-- The dependency relation of a task map: `a` depends on `b`. -/
def taskDep (tasks : List (String × Task)) (a b : String) : Prop :=
  ∃ t, tasks.lookup a = some t ∧ b ∈ t.dependsOn

/-- Position of a key in a key list (the length of the list if absent). -/
def keyIdx : List String → String → Nat
  | [], _ => 0
  | k :: rest, n => if k = n then 0 else keyIdx rest n + 1

/-- The backward edges contributed by a task still under construction. -/
def pendEdges (t : Task) : List (String × String) :=
  t.dependsOn.map fun d => (t.rule.name, d)

/-- Per-entry wellformedness of a task map entry: the task is keyed by its
rule name, its counter equals its dependency count, its dependency list has
no duplicates, and it is unbuilt. -/
def TaskEntryOK (e : String × Task) : Prop :=
  e.2.rule.name = e.1 ∧
  e.2.unbuiltDependencies = e.2.dependsOn.length ∧
  e.2.dependsOn.Nodup ∧ e.2.isBuilt = false

/-- Every dependency edge points to an entry inserted strictly earlier. -/
def RankOK (tasks : List (String × Task)) : Prop :=
  ∀ n t d, tasks.lookup n = some t → d ∈ t.dependsOn →
    d ∈ tasks.map Prod.fst ∧
    keyIdx (tasks.map Prod.fst) d < keyIdx (tasks.map Prod.fst) n

/-- Every dependency edge is mirrored by a reverse `used_by` edge. -/
def FwdOK (tasks : List (String × Task)) : Prop :=
  ∀ n t d, tasks.lookup n = some t → d ∈ t.dependsOn →
    ∃ td, tasks.lookup d = some td ∧ n ∈ td.usedBy

/-- Every `used_by` edge is mirrored by a dependency edge, except for the
listed extra edges owed to tasks still under construction. -/
def BwdOK (tasks : List (String × Task)) (extra : List (String × String)) :
    Prop :=
  ∀ n t u, tasks.lookup n = some t → u ∈ t.usedBy →
    (∃ tu, tasks.lookup u = some tu ∧ n ∈ tu.dependsOn) ∨ (u, n) ∈ extra

/-- The planner's task-map invariant. -/
def TasksInv (tasks : List (String × Task)) (extra : List (String × String)) :
    Prop :=
  (tasks.map Prod.fst).Nodup ∧
  (∀ e ∈ tasks, TaskEntryOK e) ∧
  RankOK tasks ∧ FwdOK tasks ∧ BwdOK tasks extra

/-- Local wellformedness of a task under construction: consistent counter,
duplicate-free dependencies, unbuilt, no incoming edges yet, not yet in the
map, and every dependency already mirrored in the map. -/
def PendOK (tasks : List (String × Task)) (task : Task) : Prop :=
  task.unbuiltDependencies = task.dependsOn.length ∧
  task.dependsOn.Nodup ∧
  task.isBuilt = false ∧
  task.usedBy = [] ∧
  task.rule.name ∉ tasks.map Prod.fst ∧
  (∀ d ∈ task.dependsOn, ∃ td, tasks.lookup d = some td ∧
    task.rule.name ∈ td.usedBy)

/-- Task-map evolution over a planner call: existing entries keep their rule,
dependencies, counter, and built flag, and only gain `used_by` edges. -/
def TasksEvolve (old new : List (String × Task)) : Prop :=
  ∀ n t, old.lookup n = some t → ∃ t2, new.lookup n = some t2 ∧
    t2.rule = t.rule ∧ t2.dependsOn = t.dependsOn ∧
    t2.unbuiltDependencies = t.unbuiltDependencies ∧ t2.isBuilt = t.isBuilt ∧
    (∀ u ∈ t.usedBy, u ∈ t2.usedBy)

/-- The precomputed rule table keys each rule by its name. -/
def RuleMapOK (st : PlannerSt) : Prop :=
  ∀ e ∈ st.ruleMap, e.2.name = e.1

/-- All rule inputs in the rule table are valid path shapes. -/
def RulesValid (st : PlannerSt) : Prop :=
  ∀ e ∈ st.ruleMap, ∀ i ∈ e.2.inputs, hexPathValid i = true

/-- The number of known rules not yet on the in-progress stack: the measure
showing `plan_build` always supplies enough fuel. -/
def freeRules (st : PlannerSt) (tip : List String) : Nat :=
  ((st.ruleMap.map Prod.fst).filter fun n => !(tip.contains n)).length

/-- Extract the plan from a successful result. -/
def planOf (r : BuildRes) : BuildPlan :=
  match r with
  | .plan p => p
  | _ => { targetRules := [], tasks := [] }

/-- A two-rule fixture: `foo` links `out/foo` from `out/foo.o`, which is
compiled from the source file `foo.c`. -/
def fileC5w : HexmakeFile :=
  { environ := [], rules := [
    { name := "foo", outputs := ["out/foo"], inputs := ["out/foo.o"],
      commands := ["cc -o out/foo out/foo.o"] },
    { name := "foo.o", outputs := ["out/foo.o"], inputs := ["foo.c"],
      commands := ["cc -c -o out/foo.o foo.c"] }] }

/-! ## Basic map lemmas -/

/-- Looking a key up ignores entries whose key predicate also holds for every
entry carrying that key: restricting an association list to a key predicate
satisfied by `p` does not change the lookup of `p`. -/
theorem lookup_filter_key (l : List (String × FsFile)) (f : String → Bool)
    (p : String) (hp : f p = true) :
    (l.filter fun e => f e.1).lookup p = l.lookup p := by
  induction l with
  | nil => rfl
  | cons e rest ih =>
    by_cases hk : p = e.1
    · subst hk
      simp [List.filter, hp, List.lookup]
    · have hb : (p == e.1) = false := by
        simp [hk]
      cases hf : f e.1 <;> simp [List.filter, hf, List.lookup, hb, ih]

/-- Two filesystems agreeing on their restriction to a key predicate agree on
every lookup of a key satisfying it. -/
theorem Fs.lookup_eq_of_filter_eq {fs fs' : Fs} {f : String → Bool}
    (h : fs.files.filter (fun e => f e.1) = fs'.files.filter (fun e => f e.1))
    {p : String} (hp : f p = true) : fs.lookup p = fs'.lookup p := by
  have h1 := lookup_filter_key fs.files f p hp
  have h2 := lookup_filter_key fs'.files f p hp
  unfold Fs.lookup
  rw [← h1, ← h2, h]

/-- Keys of a key-filtered association list. -/
theorem map_fst_filter_key (l : List (String × FsFile)) (f : String → Bool) :
    ((l.filter fun e => f e.1).map Prod.fst) = (l.map Prod.fst).filter f := by
  induction l with
  | nil => rfl
  | cons e rest ih =>
    cases hf : f e.1 <;> simp [List.filter, hf, ih]

/-- A filter by a stronger predicate can be interposed. -/
theorem filter_absorb (l : List String) (q f : String → Bool)
    (h : ∀ x, q x = true → f x = true) :
    (l.filter f).filter q = l.filter q := by
  rw [List.filter_filter]
  apply List.filter_congr
  intro x _
  cases hq : q x
  · simp
  · simp [h x hq]

/-! ## C1: the fingerprint depends only on the input trees -/

/-- A path is relevant to the fingerprint of a rule when it is one of the
rule's declared inputs or lies underneath one of them. -/
def inputRelevant (rule : HexRule) (p : String) : Bool :=
  rule.inputs.any fun i => p == i || strStartsWith p (i ++ "/")

theorem mem_inputRelevant {rule : HexRule} {i : String} (hi : i ∈ rule.inputs) :
    inputRelevant rule i = true := by
  simp only [inputRelevant, List.any_eq_true]
  exact ⟨i, hi, by simp⟩

theorem prefix_inputRelevant {rule : HexRule} {i p : String}
    (hi : i ∈ rule.inputs) (hp : strStartsWith p (i ++ "/") = true) :
    inputRelevant rule p = true := by
  simp only [inputRelevant, List.any_eq_true]
  exact ⟨i, hi, by simp [hp]⟩

/-- The restriction of a filesystem to the paths relevant to a rule's
inputs. -/
def inputView (rule : HexRule) (fs : Fs) : List (String × FsFile) :=
  fs.files.filter fun e => inputRelevant rule e.1

theorem treeWalk_congr {rule : HexRule} {fs fs' : Fs}
    (h : inputView rule fs = inputView rule fs') {i : String}
    (hi : i ∈ rule.inputs) : fs.treeWalk i = fs'.treeWalk i := by
  have hlook : fs.lookup i = fs'.lookup i :=
    Fs.lookup_eq_of_filter_eq h (mem_inputRelevant hi)
  have hfile : fs.isFile i = fs'.isFile i := by
    simp [Fs.isFile, hlook]
  have hview : ∀ m : Fs,
      ((m.files.map Prod.fst).filter fun q => strStartsWith q (i ++ "/")) =
      (((m.files.filter fun e => inputRelevant rule e.1).map Prod.fst).filter
        fun q => strStartsWith q (i ++ "/")) := by
    intro m
    rw [map_fst_filter_key]
    exact (filter_absorb _ _ _ fun x hx => prefix_inputRelevant hi hx).symm
  have hkeys :
      ((fs.files.map Prod.fst).filter fun q => strStartsWith q (i ++ "/")) =
      ((fs'.files.map Prod.fst).filter fun q => strStartsWith q (i ++ "/")) := by
    rw [hview fs, hview fs']
    unfold inputView at h
    rw [h]
  unfold Fs.treeWalk
  rw [hfile, hkeys]

theorem mem_treeWalk_relevant {rule : HexRule} {fs : Fs} {i p : String}
    (hi : i ∈ rule.inputs) (hp : p ∈ fs.treeWalk i) :
    inputRelevant rule p = true := by
  unfold Fs.treeWalk at hp
  by_cases hf : fs.isFile i = true
  · rw [if_pos hf] at hp
    simp at hp
    subst hp
    exact mem_inputRelevant hi
  · rw [if_neg hf] at hp
    have := List.of_mem_filter hp
    exact prefix_inputRelevant hi this

theorem hashTreeAcc_congr {rule : HexRule} {fs fs' : Fs}
    (h : inputView rule fs = inputView rule fs') {i : String}
    (hi : i ∈ rule.inputs) (acc : Bytes) :
    hashTreeAcc fs i acc = hashTreeAcc fs' i acc := by
  have hlook : fs.lookup i = fs'.lookup i :=
    Fs.lookup_eq_of_filter_eq h (mem_inputRelevant hi)
  have hex : fs.existsFile i = fs'.existsFile i := by
    simp [Fs.existsFile, Fs.isFile, hlook]
  have hwalk := treeWalk_congr h hi
  unfold hashTreeAcc
  rw [hex, hwalk]
  by_cases he : fs'.existsFile i = true
  · rw [if_pos he, if_pos he]
    congr 1
    apply List.foldl_ext
    intro a p hp
    rw [← hwalk] at hp
    have hrel := mem_treeWalk_relevant hi hp
    have hpl : fs.lookup p = fs'.lookup p :=
      Fs.lookup_eq_of_filter_eq h hrel
    simp [Fs.isFile, Fs.read, hpl]
  · rw [if_neg he, if_neg he]

theorem hashTreesAcc_sub_congr {rule : HexRule} {fs fs' : Fs}
    (h : inputView rule fs = inputView rule fs') :
    ∀ (l : List String), (∀ i ∈ l, i ∈ rule.inputs) → ∀ acc : Bytes,
      l.foldlM (fun a p => hashTreeAcc fs p a) acc =
      l.foldlM (fun a p => hashTreeAcc fs' p a) acc := by
  intro l
  induction l with
  | nil => intro _ acc; rfl
  | cons x rest ih =>
    intro hsub acc
    have hx := hashTreeAcc_congr h (hsub x (by simp)) acc
    simp only [List.foldlM]
    rw [hx]
    cases hres : hashTreeAcc fs' x acc with
    | none => rfl
    | some a =>
      simp only [Option.bind, bind]
      exact ih (fun i hi => hsub i (by simp [hi])) a

/-- Shared congruence core for the fingerprinter: the rule hash is a function
of the rule, the environment projection, and the restriction of the
filesystem to the rule's input trees. -/
theorem buildHash_congr (env : Env) (rule : HexRule) (fs fs' : Fs)
    (h : inputView rule fs = inputView rule fs') :
    buildHash env rule fs = buildHash env rule fs' := by
  unfold buildHash hashTreesAcc
  rw [hashTreesAcc_sub_congr h rule.inputs (fun _ hi => hi)]

/-- C1.  For every rule, environment projection, and filesystem state:
`BuildHash::hash` is a pure function, so two calls with identical rule,
identical env projection, and identical input-tree byte contents return equal
fingerprints; and changing only files outside the rule's input trees (in
particular, the contents of files at the rule's output paths, as long as the
input trees stay identical) leaves the fingerprint unchanged.  Stated as:
whenever two filesystem states agree on the restriction to the rule's input
trees, the rule hash is the same. -/
theorem rule_hash_pure_and_output_independent (env : Env) (rule : HexRule)
    (fs fs' : Fs) (h : inputView rule fs = inputView rule fs') :
    buildHash env rule fs = buildHash env rule fs' :=
  buildHash_congr env rule fs fs' h

/-- Concrete witness for C1: the same rule and environment hashed before and
after overwriting the contents of the rule's output file give definitionally
comparable states whose input views coincide, hence equal fingerprints. -/
def fsC1 : Fs :=
  (Fs.empty.write "t.txt" (strBytes "test")).write "out/t.txt" (strBytes "test")

/-- The same filesystem with the output file's contents changed. -/
def fsC1' : Fs := fsC1.write "out/t.txt" (strBytes "changed")

/-- The rule used by the C1 witness. -/
def ruleC1 : HexRule :=
  { name := "test", outputs := ["out/t.txt"], inputs := ["t.txt"]
    commands := ["cp t.txt out/t.txt"] }

theorem rule_hash_pure_and_output_independent_witness :
    inputView ruleC1 fsC1 = inputView ruleC1 fsC1' ∧
      buildHash [("ENV1", "env1")] ruleC1 fsC1 =
        buildHash [("ENV1", "env1")] ruleC1 fsC1' :=
  ⟨by decide,
   rule_hash_pure_and_output_independent [("ENV1", "env1")] ruleC1 fsC1 fsC1'
     (by decide)⟩

/-! ## C7: ready_to_run ignores is_built -/

/-- A task with no unbuilt dependencies that has already been built. -/
def builtTask : Task :=
  { rule := { name := "done", outputs := [], inputs := [], commands := [] }
    dependsOn := [], usedBy := [], unbuiltDependencies := 0, isBuilt := true }

/-- C7 counterexample: `ready_to_run` as implemented returns `true` for a
task with zero unbuilt dependencies that is already built, so the claimed
equivalence `ready_to_run ⇔ unbuilt_dependencies == 0 ∧ ¬is_built` fails. -/
theorem ready_to_run_counterexample :
    ¬ (builtTask.readyToRun = true ↔
        (builtTask.unbuiltDependencies = 0 ∧ builtTask.isBuilt = false)) := by
  decide

/-- C7 amended.  `ready_to_run` returns true if and only if the task's
`unbuilt_dependencies` counter is zero; the source does not consult
`is_built`, so a task with zero unbuilt dependencies that has already been
built is still reported ready to run. -/
theorem ready_to_run_iff_counter_zero (t : Task) :
    t.readyToRun = true ↔ t.unbuiltDependencies = 0 := by
  simp [Task.readyToRun]

/-! ## C8: the target listing is sorted but keeps duplicates -/

/-- A rules file in which one string is both a rule name and that rule's
output path. -/
def fileC8 : HexmakeFile :=
  { environ := []
    rules := [{ name := "out/a", outputs := ["out/a"], inputs := []
                commands := ["gen out/a"] }] }

/-- C8 counterexample: a string that is both a rule's name and one of its
output paths appears twice in the listing, not once — `list_targets` sorts
but never deduplicates. -/
theorem list_targets_counterexample :
    (listTargets fileC8).count "out/a" = 2 := by
  decide

/-- The kernel-executable sort relation used in `listTargets` is string
order. -/
theorem strLeList_iff (a b : String) : (¬ b.data < a.data) ↔ a ≤ b := by
  rw [String.le_iff_toList_le]
  exact not_lt

/-- C8 amended.  The `--list-targets` listing contains every rule name and
every output path in sorted order, but duplicates are retained: the listing
is exactly a sorted permutation of the concatenation of all rule names and
output paths, so a string that is both a rule name and an output path is
printed twice. -/
theorem list_targets_sorted_all_targets (f : HexmakeFile) :
    (listTargets f).Sorted (· ≤ ·) ∧
      (listTargets f).Perm (f.rules.flatMap fun r => r.name :: r.outputs) ∧
      ∀ r ∈ f.rules, r.name ∈ listTargets f ∧ ∀ o ∈ r.outputs, o ∈ listTargets f := by
  haveI htotal : IsTotal String fun a b : String => ¬ b.data < a.data :=
    ⟨fun a b => by
      rcases le_total a b with h | h
      · exact Or.inl ((strLeList_iff a b).mpr h)
      · exact Or.inr ((strLeList_iff b a).mpr h)⟩
  haveI htrans : IsTrans String fun a b : String => ¬ b.data < a.data :=
    ⟨fun a b c ha hb =>
      (strLeList_iff a c).mpr
        (le_trans ((strLeList_iff a b).mp ha) ((strLeList_iff b c).mp hb))⟩
  have hsorted := List.sorted_insertionSort (fun a b : String => ¬ b.data < a.data)
    (f.rules.flatMap fun r => r.name :: r.outputs)
  have hperm := List.perm_insertionSort (fun a b : String => ¬ b.data < a.data)
    (f.rules.flatMap fun r => r.name :: r.outputs)
  refine ⟨hsorted.imp fun h => (strLeList_iff _ _).mp h, hperm, ?_⟩
  intro r hr
  constructor
  · rw [listTargets, hperm.mem_iff]
    exact List.mem_flatMap.mpr ⟨r, hr, by simp⟩
  · intro o ho
    rw [listTargets, hperm.mem_iff]
    exact List.mem_flatMap.mpr ⟨r, hr, by simp [ho]⟩

/-- A rule for the C8 witness. -/
def ruleC8w : HexRule :=
  { name := "foo", outputs := ["out/foo"], inputs := [], commands := [] }

/-- A two-rule file for the C8 witness. -/
def fileC8w : HexmakeFile :=
  { environ := []
    rules := [ruleC8w,
              { name := "bar", outputs := ["out/bar"], inputs := []
                commands := [] }] }

/-- Concrete discharge of C8's amended statement on a two-rule file. -/
theorem list_targets_sorted_all_targets_witness :
    ruleC8w.name ∈ listTargets fileC8w :=
  ((list_targets_sorted_all_targets fileC8w).2.2 ruleC8w (by decide)).1

/-! ## C9: a cache miss leaves the filesystem untouched -/

/-- C9.  When the inputmap file for the rule's hash does not exist, the
retrieval returns a miss and the filesystem state is returned exactly as it
was: no write, copy, or remove happens. -/
theorem retrieve_miss_frame (env : Env) (rule : HexRule) (fs : Fs) (h : String)
    (h1 : buildHash env rule fs = some h)
    (h2 : fs.lookup (childPath inputmapsDir h) = none) :
    retrieveOutputs env rule fs = (.ok false, fs) := by
  unfold retrieveOutputs
  rw [h1]
  simp [Fs.existsFile, Fs.isFile, h2]

/-- The rule used by the C9 witness (no inputs, so its hash is defined on the
empty filesystem). -/
def ruleC9 : HexRule :=
  { name := "r9", outputs := ["out/x"], inputs := [], commands := ["touch out/x"] }

theorem retrieve_miss_frame_witness :
    retrieveOutputs [] ruleC9 Fs.empty = (.ok false, Fs.empty) :=
  retrieve_miss_frame [] ruleC9 Fs.empty
    ((buildHash [] ruleC9 Fs.empty).getD "") (by decide) (by decide)

/-! ## C10: the inputmap is only written after all copies succeed -/

/-- Writing one path leaves the lookup of any other path unchanged. -/
theorem lookup_insertAssoc_ne (l : List (String × FsFile)) (q : String)
    (v : FsFile) (p : String) (h : p ≠ q) :
    (insertAssoc l q v).lookup p = l.lookup p := by
  induction l with
  | nil =>
    have hpq : (p == q) = false := by simp [h]
    simp [insertAssoc, List.lookup, hpq]
  | cons e rest ih =>
    by_cases hk : e.1 = q
    · simp only [insertAssoc, if_pos hk]
      have h1 : (p == q) = false := by simp [h]
      have h2 : (p == e.1) = false := by simp [hk ▸ h]
      simp [List.lookup, h1, h2]
    · simp only [insertAssoc, if_neg hk]
      cases hpe : (p == e.1) <;> simp [List.lookup, hpe, ih]

/-- Frame rule for `write` at a different path. -/
theorem Fs.lookup_write_ne (fs : Fs) (q : String) (v : Bytes) {p : String}
    (h : p ≠ q) : (fs.write q v).lookup p = fs.lookup p :=
  lookup_insertAssoc_ne fs.files q _ p h

/-- A path under `inputmaps/` is never a blob path under `outputs/`. -/
theorem inputmap_path_ne_blob_path (h p : String)
    (hp : strStartsWith p (inputmapsDir ++ "/") = true) :
    p ≠ childPath outputsDir h := by
  intro heq
  subst heq
  unfold strStartsWith at hp
  have hpre := List.isPrefixOf_iff_prefix.mp hp
  obtain ⟨t, ht⟩ := hpre
  have hdata : (childPath outputsDir h).data = (outputsDir ++ "/").data ++ h.data := by
    simp only [childPath, String.data_append]
  rw [hdata] at ht
  have h19 : ((inputmapsDir ++ "/").data ++ t).take 19 =
      (inputmapsDir ++ "/").data.take 19 :=
    List.take_append_of_le_length (by decide)
  have h19' : ((outputsDir ++ "/").data ++ h.data).take 19 = (outputsDir ++ "/").data := by
    have : (outputsDir ++ "/").data.length = 19 := by decide
    rw [← this]
    exact List.take_left _ _
  rw [ht, h19'] at h19
  revert h19
  decide

/-- The insertion loop of `insert_outputs` writes only blob paths: every path
under `inputmaps/` keeps its previous contents, whether the loop succeeds or
stops at an error. -/
theorem insertLoop_preserves_inputmaps {p : String}
    (hp : strStartsWith p (inputmapsDir ++ "/") = true) :
    ∀ (outs : List String) (fs : Fs) (acc : String),
      ((insertLoop fs acc outs).2).lookup p = fs.lookup p := by
  intro outs
  induction outs with
  | nil => intro fs acc; rfl
  | cons o rest ih =>
    intro fs acc
    unfold insertLoop
    cases hth : treeHash fs o with
    | none => rfl
    | some oh =>
      cases hrd : fs.read o with
      | none => rfl
      | some c =>
        simp only []
        rw [ih]
        exact Fs.lookup_write_ne fs _ _ (inputmap_path_ne_blob_path oh p hp)

/-- C10.  If any tree-hash or copy step of `insert_outputs` fails, the
operation reports the error and no file under `inputmaps/` is created or
modified: the inputmap write happens only as the final step, after every
output blob copy was attempted. -/
theorem insert_error_inputmap_untouched (env : Env) (rule : HexRule)
    (fs fs' : Fs) (herr : insertOutputs env rule fs = (false, fs'))
    (p : String) (hp : strStartsWith p (inputmapsDir ++ "/") = true) :
    fs'.lookup p = fs.lookup p := by
  unfold insertOutputs at herr
  cases hloop : insertLoop fs "" rule.outputs with
  | mk res fs1 =>
    have hpres : fs1.lookup p = fs.lookup p := by
      have := insertLoop_preserves_inputmaps hp rule.outputs fs ""
      rw [hloop] at this
      exact this
    rw [hloop] at herr
    cases res with
    | none =>
      simp only [] at herr
      cases herr
      exact hpres
    | some im =>
      cases hbh : buildHash env rule fs1 with
      | none =>
        simp only [hbh] at herr
        cases herr
        exact hpres
      | some rh =>
        simp only [hbh] at herr
        cases herr

/-- The rule used by the C10 witness: its output file is absent, so the very
first tree-hash step fails. -/
def ruleC10 : HexRule :=
  { name := "r10", outputs := ["out/missing"], inputs := []
    commands := ["produce out/missing"] }

theorem insert_error_inputmap_untouched_witness :
    insertOutputs [] ruleC10 Fs.empty = (false, Fs.empty) ∧
      strStartsWith ".hex/cache/inputmaps/AB" (inputmapsDir ++ "/") = true ∧
      Fs.empty.lookup ".hex/cache/inputmaps/AB" =
        Fs.empty.lookup ".hex/cache/inputmaps/AB" :=
  ⟨by decide, by decide,
   insert_error_inputmap_untouched [] ruleC10 Fs.empty Fs.empty (by decide)
     ".hex/cache/inputmaps/AB" (by decide)⟩

/-! ## C4: a short inputmap is silently truncated, not treated as corrupt -/

/-- The rule used for the C4 failing input: two outputs, no inputs (so its
fingerprint does not depend on the filesystem). -/
def ruleC4 : HexRule :=
  { name := "r4", outputs := ["out/a", "out/b"], inputs := []
    commands := ["build both"] }

/-- The fingerprint of `ruleC4` under the empty environment. -/
def hashC4 : String := (buildHash [] ruleC4 Fs.empty).getD ""

/-- The C4 failing cache state: the inputmap for `ruleC4` holds a single hash
line (fewer lines than the rule has outputs) and the referenced blob
exists. -/
def fsC4 : Fs :=
  (Fs.empty.write (childPath outputsDir "B1") (strBytes "payload")).write
    (childPath inputmapsDir hashC4) (strBytes "B1")

/-! ## Byte encoding and digest injectivity

The collision-free idealisation of the digest is backed by actual
injectivity of the model digest on byte streams. -/

/-- Normalising already-byte-sized data is the identity. -/
theorem map_mod_id {c : Bytes} (h : ∀ b ∈ c, b < 256) : c.map (· % 256) = c := by
  induction c with
  | nil => rfl
  | cons b rest ih =>
    have hb := h b (by simp)
    simp only [List.map_cons]
    rw [Nat.mod_eq_of_lt hb, ih fun x hx => h x (by simp [hx])]

/-- Every character the digest can emit is a printable ASCII character. -/
theorem hexDigit_toNat_lt (n : Nat) : (hexDigit n).toNat < 128 := by
  unfold hexDigit
  rcases Nat.lt_or_ge n 16 with h | h
  · interval_cases n <;> decide
  · rw [List.getD_eq_default]
    · decide
    · simpa using h

/-- The digest alphabet does not contain the newline separator. -/
theorem hexDigit_ne_newline (n : Nat) : hexDigit n ≠ '\n' := by
  unfold hexDigit
  rcases Nat.lt_or_ge n 16 with h | h
  · interval_cases n <;> decide
  · rw [List.getD_eq_default]
    · decide
    · simpa using h

/-- The digit table is injective below 16. -/
theorem hexDigit_inj {a b : Nat} (ha : a < 16) (hb : b < 16)
    (h : hexDigit a = hexDigit b) : a = b := by
  have hd : ∀ a < 16, ∀ b < 16, hexDigit a = hexDigit b → a = b := by decide
  exact hd a ha b hb h

/-- The two-character rendering is injective on bytes. -/
theorem hexByte_inj {a b : Nat} (ha : a < 256) (hb : b < 256)
    (h : hexByte a = hexByte b) : a = b := by
  unfold hexByte at h
  simp only [List.cons.injEq, and_true] at h
  have h1 := hexDigit_inj (Nat.div_lt_of_lt_mul (by omega))
    (Nat.div_lt_of_lt_mul (by omega)) h.1
  have h2 := hexDigit_inj (Nat.mod_lt a (by omega)) (Nat.mod_lt b (by omega)) h.2
  omega

/-- Byte-wise hex rendering is injective on byte lists. -/
theorem flatMap_hexByte_inj :
    ∀ {xs ys : Bytes}, (∀ b ∈ xs, b < 256) → (∀ b ∈ ys, b < 256) →
      xs.flatMap hexByte = ys.flatMap hexByte → xs = ys := by
  intro xs
  induction xs with
  | nil =>
    intro ys _ hy h
    cases ys with
    | nil => rfl
    | cons y ys => simp [hexByte] at h
  | cons x xs ih =>
    intro ys hx hy h
    cases ys with
    | nil => simp [hexByte] at h
    | cons y ys =>
      simp only [List.flatMap_cons, hexByte, List.cons_append, List.nil_append,
        List.cons.injEq] at h
      obtain ⟨h1, h2, h3⟩ := h
      have hxb := hx x (by simp)
      have hyb := hy y (by simp)
      have hxy : x = y := by
        apply hexByte_inj hxb hyb
        unfold hexByte
        rw [h1, h2]
      have htail : xs = ys :=
        ih (fun b hb => hx b (List.mem_cons_of_mem _ hb))
          (fun b hb => hy b (List.mem_cons_of_mem _ hb))
          (by simpa [hexByte] using h3)
      rw [hxy, htail]

/-- The model digest is injective on byte streams: the collision-freeness
assumption made concrete. -/
theorem digest_inj {xs ys : Bytes} (hx : ∀ b ∈ xs, b < 256)
    (hy : ∀ b ∈ ys, b < 256) (h : digest xs = digest ys) : xs = ys :=
  flatMap_hexByte_inj hx hy (congrArg String.data h)

/-- Digest strings are ASCII and newline-free. -/
theorem digest_data_ascii {xs : Bytes} :
    ∀ c ∈ (digest xs).data, c.toNat < 128 ∧ c ≠ '\n' := by
  intro c hc
  simp only [digest, List.mem_flatMap] at hc
  obtain ⟨b, _, hb⟩ := hc
  simp only [hexByte, List.mem_cons, List.not_mem_nil, or_false] at hb
  rcases hb with h | h <;>
    exact h ▸ ⟨hexDigit_toNat_lt _, hexDigit_ne_newline _⟩

/-- Bytes of the 64-bit encoding. -/
theorem u64le_lt (n : Nat) : ∀ b ∈ u64le n, b < 256 := by
  intro b hb
  simp only [u64le, List.mem_cons, List.not_mem_nil, or_false] at hb
  rcases hb with h | h | h | h | h | h | h | h <;> subst h <;>
    exact Nat.mod_lt _ (by omega)

theorem u64le_length (n : Nat) : (u64le n).length = 8 := rfl

/-- The encoding is injective on 64-bit values. -/
theorem u64le_inj {n m : Nat} (hn : n < 2 ^ 64) (hm : m < 2 ^ 64)
    (h : u64le n = u64le m) : n = m := by
  simp only [u64le, List.cons.injEq, and_true] at h
  norm_num at hn hm
  omega

/-- String-to-bytes is injective (character code points determine the
string). -/
theorem strBytes_inj {a b : String} (h : strBytes a = strBytes b) : a = b := by
  apply String.ext
  have hinj : Function.Injective Char.toNat := by
    intro x y hxy
    have hx := Char.ofNat_toNat x
    rw [hxy, Char.ofNat_toNat] at hx
    exact hx.symm
  exact List.map_injective_iff.mpr hinj h

theorem strBytes_length (s : String) : (strBytes s).length = s.data.length := by
  simp [strBytes]

/-- Characters below 256 give bytes below 256. -/
theorem strBytes_lt {s : String} (h : ∀ c ∈ s.data, c.toNat < 256) :
    ∀ b ∈ strBytes s, b < 256 := by
  intro b hb
  simp only [strBytes, List.mem_map] at hb
  obtain ⟨c, hc, rfl⟩ := hb
  exact h c hc

/-! ## Workspace/cache path separation

The cache lives under the hidden directory `.hex/`.  A rule whose input and
output paths do not start with a dot can never alias the cache's own files,
which is what makes the insert/retrieve round trip work. -/

/-- A path that is non-empty and does not start with `.` (so it can be
neither the cache root nor anything below it). -/
def headNotDot (p : String) : Bool :=
  match p.data with
  | [] => false
  | c :: _ => decide (c ≠ '.')

/-- Modelling-level wellformedness of a path string: visible (no leading
dot), single-byte characters, and machine-representable length. -/
def pathOk (p : String) : Bool :=
  headNotDot p && p.data.all (fun c => decide (c.toNat < 256)) &&
    decide (p.data.length < 2 ^ 64)

/-- The framed byte stream `hash_tree` produces for a single file. -/
def fileStream (p : String) (c : Bytes) : Bytes :=
  hashBytesAcc (hashU64Acc (hashStringAcc [] p) 0) c

/-- The content hash of a single file, as computed by
`BuildHash::hash_tree`. -/
def fileHash (p : String) (c : Bytes) : String :=
  digest (fileStream p c)

/-- Lookup after a write at the same path. -/
theorem lookup_insertAssoc_self (l : List (String × FsFile)) (k : String)
    (v : FsFile) : (insertAssoc l k v).lookup k = some v := by
  induction l with
  | nil => simp [insertAssoc, List.lookup]
  | cons e rest ih =>
    by_cases hk : e.1 = k
    · simp [insertAssoc, hk, List.lookup]
    · have h2 : (k == e.1) = false := by
        have : ¬ k = e.1 := fun hke => hk hke.symm
        simp [this]
      simp [insertAssoc, hk, List.lookup, h2, ih]

/-- Reading back a fresh write. -/
theorem Fs.lookup_write_self (fs : Fs) (p : String) (v : Bytes) :
    (fs.write p v).lookup p = some ⟨v.map (· % 256), fs.clock⟩ :=
  lookup_insertAssoc_self fs.files p _

/-- Removing one path leaves the lookup of any other path unchanged. -/
theorem Fs.lookup_removeFile_ne (fs : Fs) (q : String) {p : String}
    (h : p ≠ q) : (fs.removeFile q).lookup p = fs.lookup p :=
  lookup_filter_key fs.files (fun k => decide (k ≠ q)) p (by simp [h])

/-- Reading back a fresh write, at the read level. -/
theorem Fs.read_write_self (fs : Fs) (p : String) (v : Bytes) :
    (fs.write p v).read p = some (v.map (· % 256)) := by
  unfold Fs.read
  rw [Fs.lookup_write_self]
  rfl

/-- Reading another path after a write, at the read level. -/
theorem Fs.read_write_ne (fs : Fs) (q : String) (v : Bytes) {p : String}
    (h : p ≠ q) : (fs.write q v).read p = fs.read p := by
  unfold Fs.read
  rw [Fs.lookup_write_ne _ _ _ h]

/-- Reading another path after a remove, at the read level. -/
theorem Fs.read_removeFile_ne (fs : Fs) (q : String) {p : String}
    (h : p ≠ q) : (fs.removeFile q).read p = fs.read p := by
  unfold Fs.read
  rw [Fs.lookup_removeFile_ne _ _ h]

/-- A successful lookup names an entry of the store. -/
theorem lookup_mem {l : List (String × FsFile)} {p : String} {f : FsFile}
    (h : l.lookup p = some f) : (p, f) ∈ l := by
  induction l with
  | nil => simp [List.lookup] at h
  | cons e rest ih =>
    rw [List.lookup] at h
    cases hpe : (p == e.1) with
    | true =>
      rw [hpe] at h
      cases h
      have : p = e.1 := by simpa using hpe
      subst this
      exact List.mem_cons_self _ _
    | false =>
      rw [hpe] at h
      exact List.mem_cons_of_mem _ (ih h)

/-- Prefixes transfer the head character. -/
theorem startsWith_head {q pre : String} {c : Char} {t : List Char}
    (h : strStartsWith q pre = true) (hpre : pre.data = c :: t) :
    ∃ u, q.data = c :: u := by
  unfold strStartsWith at h
  obtain ⟨r, hr⟩ := List.isPrefixOf_iff_prefix.mp h
  rw [hpre] at hr
  exact ⟨t ++ r, by rw [← hr]; rfl⟩

/-- Everything below a visible path is visible. -/
theorem headNotDot_of_under {p q : String} (hp : headNotDot p = true)
    (hq : strStartsWith q (p ++ "/") = true) : headNotDot q = true := by
  unfold headNotDot at hp
  cases hd : p.data with
  | nil => rw [hd] at hp; exact absurd hp (by simp)
  | cons c t =>
    rw [hd] at hp
    have hpd : (p ++ "/").data = c :: (t ++ "/".data) := by
      rw [String.data_append, hd]; rfl
    obtain ⟨u, hu⟩ := startsWith_head hq hpd
    unfold headNotDot
    rw [hu]
    exact hp

/-- Everything below `.hex/` is hidden. -/
theorem cachePath_hidden {q : String} (h : strStartsWith q ".hex/" = true) :
    headNotDot q = false := by
  obtain ⟨u, hu⟩ := startsWith_head h (show (".hex/").data = '.' :: "hex/".data from rfl)
  unfold headNotDot
  rw [hu]
  simp

/-- A `child` path starts with its parent directory. -/
theorem startsWith_childPath (d c : String) :
    strStartsWith (childPath d c) (d ++ "/") = true := by
  unfold strStartsWith childPath
  apply List.isPrefixOf_iff_prefix.mpr
  rw [String.data_append]
  exact List.prefix_append _ _

/-- Blob paths are hidden. -/
theorem blob_hidden (h : String) : headNotDot (childPath outputsDir h) = false := by
  apply cachePath_hidden
  unfold strStartsWith
  apply List.isPrefixOf_iff_prefix.mpr
  have hd : (childPath outputsDir h).data = (outputsDir ++ "/").data ++ h.data := by
    unfold childPath
    rw [String.data_append]
  rw [hd]
  exact (show (".hex/").data <+: (outputsDir ++ "/").data by decide).trans
    (List.prefix_append _ _)

/-- Inputmap paths are hidden. -/
theorem inputmap_hidden (h : String) :
    headNotDot (childPath inputmapsDir h) = false := by
  apply cachePath_hidden
  unfold strStartsWith
  apply List.isPrefixOf_iff_prefix.mpr
  have hd : (childPath inputmapsDir h).data = (inputmapsDir ++ "/").data ++ h.data := by
    unfold childPath
    rw [String.data_append]
  rw [hd]
  exact (show (".hex/").data <+: (inputmapsDir ++ "/").data by decide).trans
    (List.prefix_append _ _)

/-- A visible path is never a hidden path. -/
theorem ne_of_visible_hidden {q r : String} (hq : headNotDot q = true)
    (hr : headNotDot r = false) : q ≠ r := by
  intro h
  rw [h, hr] at hq
  exact absurd hq (by simp)

/-- A hidden path is never relevant to the input trees of a rule whose
inputs are all visible. -/
theorem inputRelevant_of_hidden {rule : HexRule}
    (hin : ∀ i ∈ rule.inputs, headNotDot i = true) {q : String}
    (hq : headNotDot q = false) : inputRelevant rule q = false := by
  rw [Bool.eq_false_iff]
  intro hrel
  simp only [inputRelevant, List.any_eq_true] at hrel
  obtain ⟨i, hi, hcase⟩ := hrel
  rcases Bool.or_eq_true_iff.mp hcase with hc | hc
  · have : q = i := by simpa using hc
    rw [this, hin i hi] at hq
    exact absurd hq (by simp)
  · rw [headNotDot_of_under (hin i hi) hc] at hq
    exact absurd hq (by simp)

/-- Inserting an entry that the key filter rejects leaves the filtered list
unchanged. -/
theorem filter_insertAssoc_neg (l : List (String × FsFile)) (k : String)
    (v : FsFile) (f : String → Bool) (hk : f k = false) :
    ((insertAssoc l k v).filter fun e => f e.1) = l.filter fun e => f e.1 := by
  induction l with
  | nil => simp [insertAssoc, List.filter, hk]
  | cons e rest ih =>
    by_cases hke : e.1 = k
    · subst hke
      simp [insertAssoc, List.filter, hk]
    · cases hf : f e.1 <;>
        simp [insertAssoc, hke, List.filter, hf, ih]

/-- Writing a hidden path does not change the input view of a rule with
visible inputs. -/
theorem inputView_write_hidden {rule : HexRule}
    (hin : ∀ i ∈ rule.inputs, headNotDot i = true) (fs : Fs) {k : String}
    (hk : headNotDot k = false) (v : Bytes) :
    inputView rule (fs.write k v) = inputView rule fs :=
  filter_insertAssoc_neg fs.files k _ _ (inputRelevant_of_hidden hin hk)

/-- `hash_tree` on a stored file produces the file's content hash. -/
theorem treeHash_file {fs : Fs} {p : String} {f : FsFile}
    (h : fs.lookup p = some f) : treeHash fs p = some (fileHash p f.contents) := by
  have hf : fs.isFile p = true := by simp [Fs.isFile, h]
  unfold treeHash hashTreeAcc
  rw [show fs.existsFile p = true from hf]
  simp only [if_pos]
  unfold Fs.treeWalk
  rw [hf]
  simp [List.foldl, hf, Fs.read, h, fileHash, fileStream]

/-! ## C2: the cache round-trips the produced bytes -/

/-- The content hash `insert_outputs` computes for one output of the rule,
expressed against the pre-insert state. -/
def hashOfOut (s0 : Fs) (p : String) : String :=
  fileHash p ((s0.read p).getD [])

/-- The blob path `insert_outputs` copies one output to. -/
def blobPathOf (s0 : Fs) (p : String) : String :=
  childPath outputsDir (hashOfOut s0 p)

/-- The inputmap text `insert_outputs` accumulates for a list of outputs. -/
def imOf (s0 : Fs) : List String → String
  | [] => ""
  | p :: rest => hashOfOut s0 p ++ "\n" ++ imOf s0 rest

theorem pathOk_head {p : String} (h : pathOk p = true) : headNotDot p = true := by
  unfold pathOk at h
  simp only [Bool.and_eq_true] at h
  exact h.1.1

theorem pathOk_chars {p : String} (h : pathOk p = true) :
    ∀ c ∈ p.data, c.toNat < 256 := by
  unfold pathOk at h
  simp only [Bool.and_eq_true] at h
  intro c hc
  simpa using List.all_eq_true.mp h.1.2 c hc

theorem pathOk_len {p : String} (h : pathOk p = true) :
    p.data.length < 2 ^ 64 := by
  unfold pathOk at h
  simp only [Bool.and_eq_true] at h
  simpa using h.2

/-- All bytes of a single-file hash stream are bytes. -/
theorem fileStream_lt {p : String} {c : Bytes}
    (hp : ∀ ch ∈ p.data, ch.toNat < 256) (hc : ∀ b ∈ c, b < 256) :
    ∀ b ∈ fileStream p c, b < 256 := by
  intro b hb
  unfold fileStream hashBytesAcc hashU64Acc hashStringAcc hashBytesAcc at hb
  simp only [List.nil_append, List.append_assoc, List.mem_append] at hb
  rcases hb with h | h | h | h | h
  · exact u64le_lt _ b h
  · exact strBytes_lt hp b h
  · exact u64le_lt _ b h
  · exact u64le_lt _ b h
  · exact hc b h

/-- Taking the first eight bytes of a stream that starts with a 64-bit
encoding recovers the encoding. -/
theorem take8_u64le_append (n : Nat) (l : Bytes) :
    (u64le n ++ l).take 8 = u64le n := by
  rw [show (8 : Nat) = (u64le n).length from (u64le_length n).symm, List.take_left]

/-- Taking a prefix of known length from an append. -/
theorem take_own_append {α : Type} (a b : List α) : (a ++ b).take a.length = a :=
  List.take_left a b

/-- The single-file hash stream determines the path and the contents
(within machine bounds). -/
theorem fileStream_inj {p p' : String} {c c' : Bytes}
    (hlp : p.data.length < 2 ^ 64) (hlp' : p'.data.length < 2 ^ 64)
    (hlc : c.length < 2 ^ 64) (hlc' : c'.length < 2 ^ 64)
    (h : fileStream p c = fileStream p' c') : p = p' ∧ c = c' := by
  unfold fileStream hashBytesAcc hashU64Acc hashStringAcc hashBytesAcc at h
  simp only [List.nil_append, List.append_assoc] at h
  have hLp : (strBytes p).length = (strBytes p').length := by
    apply u64le_inj (by rwa [strBytes_length]) (by rwa [strBytes_length])
    have := congrArg (List.take 8) h
    rwa [take8_u64le_append, take8_u64le_append] at this
  rw [hLp] at h
  have h2 := List.append_cancel_left h
  have hsb : strBytes p = strBytes p' := by
    have := congrArg (List.take (strBytes p).length) h2
    rwa [take_own_append, hLp, take_own_append] at this
  have hp : p = p' := strBytes_inj hsb
  rw [hsb] at h2
  have h3 := List.append_cancel_left h2
  have h4 := List.append_cancel_left h3
  have hLc : c.length = c'.length := by
    apply u64le_inj hlc hlc'
    have := congrArg (List.take 8) h4
    rwa [take8_u64le_append, take8_u64le_append] at this
  rw [hLc] at h4
  exact ⟨hp, List.append_cancel_left h4⟩

/-- Contents stored in a wellformed filesystem are byte-bounded. -/
theorem Fs.WF.bounds {s0 : Fs} (hwf : s0.WF) {p : String} {f : FsFile}
    (h : s0.lookup p = some f) :
    (∀ b ∈ f.contents, b < 256) ∧ f.contents.length < 2 ^ 64 :=
  hwf.2 _ (lookup_mem h)

/-- Two outputs of the rule that share a blob path have the same cached
contents (the collision-freeness argument). -/
theorem blobPath_collision {s0 : Fs} (hwf : s0.WF) {x p : String}
    (hx : pathOk x = true) (hp : pathOk p = true)
    {fx fp : FsFile} (hlx : s0.lookup x = some fx) (hlp : s0.lookup p = some fp)
    (h : blobPathOf s0 x = blobPathOf s0 p) :
    (s0.read x).getD [] = (s0.read p).getD [] := by
  have hcx : (s0.read x).getD [] = fx.contents := by simp [Fs.read, hlx]
  have hcp : (s0.read p).getD [] = fp.contents := by simp [Fs.read, hlp]
  have hhash : hashOfOut s0 x = hashOfOut s0 p := by
    unfold blobPathOf childPath at h
    have hd := congrArg String.data h
    rw [String.data_append, String.data_append, String.data_append,
      String.data_append] at hd
    exact String.ext (List.append_cancel_left hd)
  have hbx := hwf.bounds hlx
  have hbp := hwf.bounds hlp
  unfold hashOfOut fileHash at hhash
  have hstream := digest_inj
    (fileStream_lt (pathOk_chars hx) (hcx ▸ hbx.1))
    (fileStream_lt (pathOk_chars hp) (hcp ▸ hbp.1)) hhash
  exact (fileStream_inj (pathOk_len hx) (pathOk_len hp)
    (hcx ▸ hbx.2) (hcp ▸ hbp.2) hstream).2

/-- Unfolding run of the insert loop: under the separation hypotheses it
succeeds, writes exactly the blob store entries for the processed outputs,
accumulates the inputmap text, and leaves every visible path and the rule's
input view untouched. -/
theorem insertLoop_run (rule : HexRule) (s0 : Fs) (hwf : s0.WF)
    (hin : ∀ i ∈ rule.inputs, headNotDot i = true)
    (hout : ∀ p ∈ rule.outputs, pathOk p = true)
    (hpres : ∀ p ∈ rule.outputs, (s0.lookup p).isSome = true) :
    ∀ (outs : List String), (∀ p ∈ outs, p ∈ rule.outputs) →
    ∀ (s : Fs) (acc : String) (P : List String), (∀ p ∈ P, p ∈ rule.outputs) →
      (∀ q, headNotDot q = true → s.lookup q = s0.lookup q) →
      inputView rule s = inputView rule s0 →
      (∀ p ∈ P, s.read (blobPathOf s0 p) = some ((s0.read p).getD [])) →
      ∃ s', insertLoop s acc outs = (some (acc ++ imOf s0 outs), s') ∧
        (∀ q, headNotDot q = true → s'.lookup q = s0.lookup q) ∧
        inputView rule s' = inputView rule s0 ∧
        ∀ p ∈ P ++ outs, s'.read (blobPathOf s0 p) = some ((s0.read p).getD []) := by
  intro outs
  induction outs with
  | nil =>
    intro _ s acc P hP hinv hview hblobs
    refine ⟨s, ?_, hinv, hview, ?_⟩
    · show (some acc, s) = (some (acc ++ imOf s0 []), s)
      rw [show imOf s0 [] = "" from rfl]
      rw [show acc ++ "" = acc from by
        apply String.ext; rw [String.data_append]; simp]
    · simpa using hblobs
  | cons p rest ih =>
    intro houts s acc P hP hinv hview hblobs
    have hpmem : p ∈ rule.outputs := houts p (by simp)
    have hpok := hout p hpmem
    have hphead := pathOk_head hpok
    obtain ⟨f, hf⟩ := Option.isSome_iff_exists.mp (hpres p hpmem)
    have hlk : s.lookup p = some f := by rw [hinv p hphead]; exact hf
    have hth : treeHash s p = some (fileHash p f.contents) := treeHash_file hlk
    have hrd : s.read p = some f.contents := by simp [Fs.read, hlk]
    have hcontents : (s0.read p).getD [] = f.contents := by simp [Fs.read, hf]
    have hhashOf : hashOfOut s0 p = fileHash p f.contents := by
      unfold hashOfOut
      rw [hcontents]
    have hbounds := hwf.bounds hf
    -- the state after copying this output's blob
    set s2 := s.write (childPath outputsDir (fileHash p f.contents)) f.contents
      with hs2
    have hbhid : headNotDot (childPath outputsDir (fileHash p f.contents)) = false :=
      blob_hidden _
    have hinv2 : ∀ q, headNotDot q = true → s2.lookup q = s0.lookup q := by
      intro q hq
      rw [hs2, Fs.lookup_write_ne _ _ _ (ne_of_visible_hidden hq hbhid)]
      exact hinv q hq
    have hview2 : inputView rule s2 = inputView rule s0 := by
      rw [hs2, inputView_write_hidden hin s hbhid]
      exact hview
    have hwp : blobPathOf s0 p = childPath outputsDir (fileHash p f.contents) := by
      unfold blobPathOf
      rw [hhashOf]
    have hblobs2 : ∀ x ∈ P ++ [p],
        s2.read (blobPathOf s0 x) = some ((s0.read x).getD []) := by
      intro x hx
      by_cases heq : blobPathOf s0 x = childPath outputsDir (fileHash p f.contents)
      · have hxmem : x ∈ rule.outputs := by
          rcases List.mem_append.mp hx with hxP | hxp
          · exact hP x hxP
          · simp at hxp; rw [hxp]; exact hpmem
        obtain ⟨fx, hfx⟩ := Option.isSome_iff_exists.mp (hpres x hxmem)
        have hcoll : (s0.read x).getD [] = (s0.read p).getD [] :=
          blobPath_collision hwf (hout x hxmem) hpok hfx hf (heq.trans hwp.symm)
        rw [heq, hs2, Fs.read_write_self, map_mod_id hbounds.1, hcoll, hcontents]
      · rw [hs2, Fs.read_write_ne _ _ _ heq]
        rcases List.mem_append.mp hx with hxP | hxp
        · exact hblobs x hxP
        · exfalso
          simp only [List.mem_singleton] at hxp
          rw [hxp] at heq
          exact heq hwp
    have hstep := ih (fun q hq => houts q (List.mem_cons_of_mem _ hq)) s2
      (acc ++ fileHash p f.contents ++ "\n") (P ++ [p])
      (fun x hx => by
        rcases List.mem_append.mp hx with hxP | hxp
        · exact hP x hxP
        · simp only [List.mem_singleton] at hxp; rw [hxp]; exact hpmem)
      hinv2 hview2 hblobs2
    obtain ⟨s', hrun, hinv', hview', hblobs'⟩ := hstep
    refine ⟨s', ?_, hinv', hview', ?_⟩
    · show insertLoop s acc (p :: rest) = (some (acc ++ imOf s0 (p :: rest)), s')
      simp only [insertLoop, hth, hrd]
      rw [← hs2, hrun]
      have hacc : acc ++ fileHash p f.contents ++ "\n" ++ imOf s0 rest =
          acc ++ imOf s0 (p :: rest) := by
        show acc ++ fileHash p f.contents ++ "\n" ++ imOf s0 rest =
          acc ++ (hashOfOut s0 p ++ "\n" ++ imOf s0 rest)
        rw [hhashOf, String.append_assoc, String.append_assoc,
          String.append_assoc]
      rw [hacc]
    · intro x hx
      apply hblobs'
      rw [List.append_assoc]
      simpa using hx

/-- The split never produces an empty list of segments. -/
theorem splitCh_ne_nil (sep : Char) (l : List Char) : splitCh sep l ≠ [] := by
  induction l with
  | nil => simp [splitCh]
  | cons c rest ih =>
    unfold splitCh
    cases h : splitCh sep rest with
    | nil => exact absurd h ih
    | cons seg segs => by_cases hc : c = sep <;> simp [hc]

/-- Splitting at the first separator after a separator-free prefix. -/
theorem splitCh_append_sep (sep : Char) (l₁ l₂ : List Char) (h : sep ∉ l₁) :
    splitCh sep (l₁ ++ sep :: l₂) = l₁ :: splitCh sep l₂ := by
  induction l₁ with
  | nil =>
    show splitCh sep (sep :: l₂) = [] :: splitCh sep l₂
    rw [splitCh]
    cases hs : splitCh sep l₂ with
    | nil => exact absurd hs (splitCh_ne_nil sep l₂)
    | cons seg segs => simp
  | cons c l₁ ih =>
    have hc : c ≠ sep := fun hcs => h (hcs ▸ List.mem_cons_self c l₁)
    show splitCh sep (c :: (l₁ ++ sep :: l₂)) = (c :: l₁) :: splitCh sep l₂
    rw [splitCh, ih fun hm => h (List.mem_cons_of_mem _ hm)]
    simp [hc]

/-- Rust `split("\n")` on a newline-terminated segment. -/
theorem splitNl_append (H R : String) (h : '\n' ∉ H.data) :
    splitNl (H ++ "\n" ++ R) = H :: splitNl R := by
  unfold splitNl
  have hd : (H ++ "\n" ++ R).data = H.data ++ '\n' :: R.data := by
    rw [String.data_append, String.data_append]
    simp [List.append_assoc]
  rw [hd, splitCh_append_sep _ _ _ h]
  rfl

/-- The inputmap text accumulated by the insert loop is ASCII. -/
theorem imOf_chars (s0 : Fs) : ∀ outs : List String,
    ∀ c ∈ (imOf s0 outs).data, c.toNat < 128 := by
  intro outs
  induction outs with
  | nil => intro c hc; simp [imOf] at hc
  | cons p rest ih =>
    intro c hc
    unfold imOf at hc
    rw [String.data_append, String.data_append] at hc
    rcases List.mem_append.mp hc with hc2 | hc2
    · rcases List.mem_append.mp hc2 with hc3 | hc3
      · exact (digest_data_ascii c hc3).1
      · have hcn : c = '\n' := by simpa using hc3
        rw [hcn]
        decide
    · exact ih c hc2

/-- Splitting the accumulated inputmap recovers the hash lines (plus the
final empty segment after the trailing newline). -/
theorem splitNl_imOf (s0 : Fs) : ∀ outs : List String,
    splitNl (imOf s0 outs) = outs.map (hashOfOut s0) ++ [""] := by
  intro outs
  induction outs with
  | nil => rfl
  | cons p rest ih =>
    show splitNl (hashOfOut s0 p ++ "\n" ++ imOf s0 rest) = _
    have hnl : '\n' ∉ (hashOfOut s0 p).data := fun hm =>
      (digest_data_ascii _ hm).2 rfl
    rw [splitNl_append _ _ hnl, ih]
    rfl

/-- Decoding the stored bytes of an ASCII string gives the string back. -/
theorem asciiDecode_strBytes {s : String} (h : ∀ c ∈ s.data, c.toNat < 128) :
    asciiDecode (strBytes s) = some s := by
  unfold asciiDecode strBytes
  rw [if_pos]
  · congr 1
    apply String.ext
    show (s.data.map Char.toNat).map Char.ofNat = s.data
    rw [List.map_map]
    conv_rhs => rw [← List.map_id s.data]
    exact List.map_congr_left fun c _ => Char.ofNat_toNat c
  · rw [List.all_eq_true]
    intro b hb
    obtain ⟨c, hc, rfl⟩ := List.mem_map.mp hb
    simpa using h c hc

/-- Zipping a list with its own image (plus a trailing extra) pairs each
element with its image. -/
theorem zip_map_append {α β : Type} (l : List α) (f : α → β) (t : List β) :
    l.zip (l.map f ++ t) = l.map fun x => (x, f x) := by
  induction l with
  | nil => rfl
  | cons x l ih =>
    simp only [List.map_cons, List.cons_append, List.zip_cons_cons, ih]

/-- Unfolding run of the retrieve loop on the pairs the inputmap produces:
it succeeds and restores the pre-insert contents of every output. -/
theorem retrieveLoop_run (rule : HexRule) (s0 : Fs) (hwf : s0.WF)
    (hout : ∀ p ∈ rule.outputs, pathOk p = true)
    (hpres : ∀ p ∈ rule.outputs, (s0.lookup p).isSome = true) :
    ∀ (outs : List String), (∀ p ∈ outs, p ∈ rule.outputs) →
    ∀ (t : Fs) (done : List String),
      (∀ p ∈ rule.outputs, t.read (blobPathOf s0 p) = some ((s0.read p).getD [])) →
      (∀ p ∈ done, t.read p = some ((s0.read p).getD [])) →
      ∃ t', retrieveLoop t (outs.map fun p => (p, hashOfOut s0 p)) = (.ok true, t') ∧
        ∀ p ∈ done ++ outs, t'.read p = some ((s0.read p).getD []) := by
  intro outs
  induction outs with
  | nil =>
    intro _ t done hblobs hdone
    exact ⟨t, rfl, by simpa using hdone⟩
  | cons p rest ih =>
    intro houts t done hblobs hdone
    have hpmem : p ∈ rule.outputs := houts p (by simp)
    have hphead := pathOk_head (hout p hpmem)
    have hbne : blobPathOf s0 p ≠ p :=
      (ne_of_visible_hidden hphead (blob_hidden _)).symm
    obtain ⟨f, hf⟩ := Option.isSome_iff_exists.mp (hpres p hpmem)
    have hbounds := hwf.bounds hf
    have hcontents : (s0.read p).getD [] = f.contents := by simp [Fs.read, hf]
    have hrdblob : (t.removeFile p).read (blobPathOf s0 p) =
        some ((s0.read p).getD []) := by
      rw [Fs.read_removeFile_ne _ _ hbne]
      exact hblobs p hpmem
    -- the state after restoring this output
    have hstep :
        retrieveLoop t ((p :: rest).map fun x => (x, hashOfOut s0 x)) =
        retrieveLoop ((t.removeFile p).write p ((s0.read p).getD []))
          (rest.map fun x => (x, hashOfOut s0 x)) := by
      simp only [List.map_cons, retrieveLoop]
      rw [show childPath outputsDir (hashOfOut s0 p) = blobPathOf s0 p from rfl,
        hrdblob]
    have hblobs2 : ∀ x ∈ rule.outputs,
        ((t.removeFile p).write p ((s0.read p).getD [])).read (blobPathOf s0 x) =
        some ((s0.read x).getD []) := by
      intro x hx
      have hxne : blobPathOf s0 x ≠ p :=
        (ne_of_visible_hidden (pathOk_head (hout p hpmem)) (blob_hidden _)).symm
      rw [Fs.read_write_ne _ _ _ hxne, Fs.read_removeFile_ne _ _ hxne]
      exact hblobs x hx
    have hdone2 : ∀ x ∈ done ++ [p],
        ((t.removeFile p).write p ((s0.read p).getD [])).read x =
        some ((s0.read x).getD []) := by
      intro x hx
      by_cases hxp : x = p
      · rw [hxp, Fs.read_write_self, hcontents, map_mod_id hbounds.1]
      · rw [Fs.read_write_ne _ _ _ hxp, Fs.read_removeFile_ne _ _ hxp]
        rcases List.mem_append.mp hx with hxd | hxs
        · exact hdone x hxd
        · exact absurd (by simpa using hxs) hxp
    obtain ⟨t', hrun, hreads⟩ := ih (fun x hx => houts x (List.mem_cons_of_mem _ hx))
      ((t.removeFile p).write p ((s0.read p).getD [])) (done ++ [p]) hblobs2 hdone2
    refine ⟨t', hstep.trans hrun, ?_⟩
    intro x hx
    apply hreads
    rw [List.append_assoc]
    simpa using hx

/-- C2.  For a rule whose outputs are files present on the filesystem (and
whose input and output paths are ordinary workspace paths: visible,
single-byte characters, machine-bounded length — so they cannot alias the
cache's own `.hex/cache` files), a successful `insert_outputs` followed by
`retrieve_outputs` is a hit that restores, at every output path, bytes
identical to the file that was there when `insert_outputs` ran. -/
theorem insert_retrieve_roundtrip (env : Env) (rule : HexRule) (s0 : Fs)
    (hwf : s0.WF)
    (hin : ∀ i ∈ rule.inputs, headNotDot i = true)
    (hout : ∀ p ∈ rule.outputs, pathOk p = true)
    (hpres : ∀ p ∈ rule.outputs, (s0.lookup p).isSome = true)
    (hhash : (buildHash env rule s0).isSome = true) :
    ∃ s1 s2, insertOutputs env rule s0 = (true, s1) ∧
      retrieveOutputs env rule s1 = (.ok true, s2) ∧
      ∀ p ∈ rule.outputs, s2.read p = s0.read p := by
  obtain ⟨sA, hloop, hinvA, hviewA, hblobsA⟩ :=
    insertLoop_run rule s0 hwf hin hout hpres rule.outputs (fun _ h => h)
      s0 "" [] (by simp) (fun _ _ => rfl) rfl (by simp)
  have hempty : "" ++ imOf s0 rule.outputs = imOf s0 rule.outputs := by
    apply String.ext
    rw [String.data_append]
    rfl
  rw [hempty] at hloop
  obtain ⟨H, hH⟩ := Option.isSome_iff_exists.mp hhash
  have hHA : buildHash env rule sA = some H := by
    rw [buildHash_congr env rule sA s0 hviewA]
    exact hH
  have hins : insertOutputs env rule s0 =
      (true, sA.write (childPath inputmapsDir H) (strBytes (imOf s0 rule.outputs))) := by
    simp only [insertOutputs, hloop, hHA]
  have him_chars := imOf_chars s0 rule.outputs
  have him_bytes : ∀ b ∈ strBytes (imOf s0 rule.outputs), b < 256 :=
    strBytes_lt fun c hc => Nat.lt_trans (him_chars c hc) (by norm_num)
  have hview1 : inputView rule
      (sA.write (childPath inputmapsDir H) (strBytes (imOf s0 rule.outputs))) =
      inputView rule s0 := by
    rw [inputView_write_hidden hin sA (inputmap_hidden H)]
    exact hviewA
  have hH1 : buildHash env rule
      (sA.write (childPath inputmapsDir H) (strBytes (imOf s0 rule.outputs))) =
      some H := by
    rw [buildHash_congr env rule _ s0 hview1]
    exact hH
  have hread_im :
      (sA.write (childPath inputmapsDir H) (strBytes (imOf s0 rule.outputs))).read
        (childPath inputmapsDir H) = some (strBytes (imOf s0 rule.outputs)) := by
    rw [Fs.read_write_self, map_mod_id him_bytes]
  have hex1 :
      (sA.write (childPath inputmapsDir H) (strBytes (imOf s0 rule.outputs))).existsFile
        (childPath inputmapsDir H) = true := by
    unfold Fs.existsFile Fs.isFile
    rw [Fs.lookup_write_self]
    rfl
  have hblobs1 : ∀ p ∈ rule.outputs,
      (sA.write (childPath inputmapsDir H) (strBytes (imOf s0 rule.outputs))).read
        (blobPathOf s0 p) = some ((s0.read p).getD []) := by
    intro p hp
    have hne : blobPathOf s0 p ≠ childPath inputmapsDir H :=
      (inputmap_path_ne_blob_path (hashOfOut s0 p) (childPath inputmapsDir H)
        (startsWith_childPath _ _)).symm
    rw [Fs.read_write_ne _ _ _ hne]
    exact hblobsA p (by simpa using hp)
  obtain ⟨t', hrloop, hreads⟩ := retrieveLoop_run rule s0 hwf hout hpres
    rule.outputs (fun _ h => h)
    (sA.write (childPath inputmapsDir H) (strBytes (imOf s0 rule.outputs))) []
    hblobs1 (by simp)
  have hret : retrieveOutputs env rule
      (sA.write (childPath inputmapsDir H) (strBytes (imOf s0 rule.outputs))) =
      (.ok true, t') := by
    simp only [retrieveOutputs, hH1, hex1, if_true, hread_im, Option.getD_some,
      asciiDecode_strBytes him_chars]
    rw [splitNl_imOf, zip_map_append, hrloop]
  refine ⟨_, t', hins, hret, ?_⟩
  intro p hp
  obtain ⟨f, hf⟩ := Option.isSome_iff_exists.mp (hpres p hp)
  rw [hreads p (by simpa using hp)]
  simp [Fs.read, hf]

/-- The rule used by the C2 witness. -/
def ruleC2 : HexRule :=
  { name := "r2", outputs := ["out/a"], inputs := ["src.txt"]
    commands := ["cp src.txt out/a"] }

/-- The pre-insert filesystem of the C2 witness: the source input and the
just-built output. -/
def fsC2 : Fs :=
  (Fs.empty.write "src.txt" (strBytes "hello")).write "out/a" (strBytes "bytes")

set_option maxRecDepth 100000 in
theorem insert_retrieve_roundtrip_witness :
    ∃ s1 s2, insertOutputs [] ruleC2 fsC2 = (true, s1) ∧
      retrieveOutputs [] ruleC2 s1 = (.ok true, s2) ∧
      ∀ p ∈ ruleC2.outputs, s2.read p = fsC2.read p :=
  insert_retrieve_roundtrip [] ruleC2 fsC2 (by unfold Fs.WF; decide) (by decide)
    (by decide) (by decide) (by decide)

/-! ## C3: garbage collection -/

/-- The total size of the files under `outputs/`, exactly as `maybe_gc`
computes it. -/
def outputsTotalSize (fs : Fs) : Nat :=
  ((gcScan fs).map fun e => e.2.1).sum

/-- The blob paths referenced by an inputmap file (empty decode treated as
no references; `maybe_gc` aborts before using a non-decodable inputmap, so
this only matters on success paths). -/
def refsOfFile (fs : Fs) (imp : String) : List String :=
  inputmapRefs ((asciiDecode ((fs.read imp).getD [])).getD "")

/-- Removing a path really removes it. -/
theorem Fs.lookup_removeFile_self (fs : Fs) (p : String) :
    (fs.removeFile p).lookup p = none := by
  show (fs.files.filter fun e => e.1 ≠ p).lookup p = none
  induction fs.files with
  | nil => rfl
  | cons e rest ih =>
    by_cases he : e.1 = p
    · have hstep : ((e :: rest).filter fun e => (e.1 ≠ p : Bool)) =
          rest.filter fun e => (e.1 ≠ p : Bool) := by
        simp [List.filter_cons, he]
      rw [hstep]
      exact ih
    · have hpe : (p == e.1) = false := by
        have h2 : ¬ p = e.1 := fun h => he h.symm
        simp [h2]
      have hstep : ((e :: rest).filter fun e => (e.1 ≠ p : Bool)) =
          e :: rest.filter fun e => (e.1 ≠ p : Bool) := by
        simp [List.filter_cons, he]
      rw [hstep, List.lookup, hpe]
      exact ih

/-- A key that occurs in the store can be looked up. -/
theorem lookup_isSome_of_mem_fst :
    ∀ (l : List (String × FsFile)) (q : String),
      q ∈ l.map Prod.fst → (l.lookup q).isSome = true := by
  intro l
  induction l with
  | nil => intro q h; simp at h
  | cons e rest ih =>
    intro q h
    rw [List.lookup]
    cases hqe : (q == e.1) with
    | true => rfl
    | false =>
      apply ih
      obtain ⟨x, hx, hfst⟩ := List.mem_map.mp h
      rcases List.mem_cons.mp hx with hx1 | hx1
      · exfalso
        rw [hx1] at hfst
        rw [← hfst] at hqe
        simp at hqe
      · exact List.mem_map.mpr ⟨x, hx1, hfst⟩

/-- Presence is membership of the key list. -/
theorem lookup_isSome_iff_mem {fs : Fs} {q : String} :
    (fs.lookup q).isSome = true ↔ q ∈ fs.files.map Prod.fst := by
  constructor
  · intro h
    obtain ⟨f, hf⟩ := Option.isSome_iff_exists.mp h
    exact List.mem_map.mpr ⟨(q, f), lookup_mem hf, rfl⟩
  · intro h
    exact lookup_isSome_of_mem_fst fs.files q h

/-- Membership of a directory listing. -/
theorem mem_listDir_iff {fs : Fs} {d q : String} :
    q ∈ fs.listDir d ↔
      (fs.lookup q).isSome = true ∧ strStartsWith q (d ++ "/") = true := by
  unfold Fs.listDir
  rw [List.mem_filter, lookup_isSome_iff_mem]

/-- The scan of `maybe_gc` lists exactly the files under `outputs/` with
their sizes and modtimes. -/
theorem gcScan_eq (fs : Fs) :
    gcScan fs = (fs.listDir outputsDir).map fun p =>
      (p, (fs.fileSize p).getD 0, (fs.modtimeOf p).getD 0) := by
  unfold gcScan
  have h : ∀ l : List String, (∀ p ∈ l, fs.isFile p = true) →
      (l.filterMap fun p =>
        if fs.isFile p then some (p, (fs.fileSize p).getD 0, (fs.modtimeOf p).getD 0)
        else none) =
      l.map fun p => (p, (fs.fileSize p).getD 0, (fs.modtimeOf p).getD 0) := by
    intro l
    induction l with
    | nil => intro _; rfl
    | cons p rest ih =>
      intro hl
      rw [List.filterMap_cons, if_pos (hl p (by simp)), List.map_cons,
        ih fun x hx => hl x (List.mem_cons_of_mem _ hx)]
  apply h
  intro p hp
  exact (mem_listDir_iff.mp hp).1

/-- Every scanned entry records its file's stored size. -/
theorem gcScan_entry (fs : Fs) :
    ∀ e ∈ gcScan fs, ∃ f : FsFile, fs.lookup e.1 = some f ∧
      e.2.1 = f.contents.length := by
  intro e he
  rw [gcScan_eq] at he
  obtain ⟨p, hp, rfl⟩ := List.mem_map.mp he
  obtain ⟨f, hf⟩ := Option.isSome_iff_exists.mp (mem_listDir_iff.mp hp).1
  exact ⟨f, hf, by simp [Fs.fileSize, hf]⟩

/-- Scanned paths lie under `outputs/`. -/
theorem gcScan_under (fs : Fs) :
    ∀ e ∈ gcScan fs, strStartsWith e.1 (outputsDir ++ "/") = true := by
  intro e he
  rw [gcScan_eq] at he
  obtain ⟨p, hp, rfl⟩ := List.mem_map.mp he
  exact (mem_listDir_iff.mp hp).2

/-- Directory listings of a wellformed store have no duplicates. -/
theorem listDir_nodup {fs : Fs} (hwf : fs.WF) (d : String) :
    (fs.listDir d).Nodup :=
  List.Nodup.filter _ hwf.1

/-- Scanned paths of a wellformed store have no duplicates. -/
theorem gcScan_fst_nodup {fs : Fs} (hwf : fs.WF) :
    ((gcScan fs).map fun e => e.1).Nodup := by
  rw [gcScan_eq, List.map_map]
  have : ((fun e : String × Nat × Nat => e.1) ∘ fun p =>
      (p, (fs.fileSize p).getD 0, (fs.modtimeOf p).getD 0)) = id := rfl
  rw [this, List.map_id]
  exact listDir_nodup hwf outputsDir

/-- Specification of the deletion walk of `maybe_gc`: it touches only the
scanned paths, kept paths keep their contents, deleted paths are gone, and
the kept paths' total size is at or below the target. -/
theorem gcDel_spec :
    ∀ (l : List (String × Nat × Nat)) (total : Nat) (fs : Fs),
      ((l.map fun e => e.2.1).sum ≤ total) →
      (∀ e ∈ l, ∃ f : FsFile, fs.lookup e.1 = some f ∧ e.2.1 = f.contents.length) →
      ((l.map fun e => e.1).Nodup) →
      (∀ q, q ∉ l.map (fun e => e.1) →
        (gcDeleteOldest l total fs).2.lookup q = fs.lookup q) ∧
      (∀ q ∈ (gcDeleteOldest l total fs).1,
        (gcDeleteOldest l total fs).2.lookup q = fs.lookup q) ∧
      (∀ q ∈ l.map (fun e => e.1), q ∉ (gcDeleteOldest l total fs).1 →
        (gcDeleteOldest l total fs).2.lookup q = none) ∧
      (∀ q ∈ (gcDeleteOldest l total fs).1, q ∈ l.map (fun e => e.1)) ∧
      (gcDeleteOldest l total fs).1.Nodup ∧
      (((gcDeleteOldest l total fs).1.map fun q => (fs.fileSize q).getD 0).sum ≤
        (l.map fun e => e.2.1).sum) ∧
      (((gcDeleteOldest l total fs).1.map fun q => (fs.fileSize q).getD 0).sum ≤
        TARGET_SIZE) := by
  intro l
  induction l with
  | nil =>
    intro total fs _ _ _
    refine ⟨fun q _ => rfl, ?_, ?_, ?_, ?_, ?_, ?_⟩ <;> simp [gcDeleteOldest, TARGET_SIZE]
  | cons e r ih =>
    intro total fs hsum hentries hnd
    have hefst : e.1 ∉ r.map fun x => x.1 := by
      have := hnd
      simp only [List.map_cons, List.nodup_cons] at this
      exact this.1
    have hndr : (r.map fun x => x.1).Nodup := by
      have := hnd
      simp only [List.map_cons, List.nodup_cons] at this
      exact this.2
    obtain ⟨fe, hfe, hsz⟩ := hentries e (by simp)
    have hsizee : (fs.fileSize e.1).getD 0 = e.2.1 := by
      simp [Fs.fileSize, hfe, hsz]
    by_cases htot : total ≤ TARGET_SIZE
    · -- keep branch: nothing more is deleted at this step
      have hrec := ih total fs
        (by
          have : (r.map fun x => x.2.1).sum ≤ ((e :: r).map fun x => x.2.1).sum := by
            simp
          omega)
        (fun x hx => hentries x (List.mem_cons_of_mem _ hx)) hndr
      obtain ⟨hframe, hkeep, hdel, hsub, hndk, hsumle, hsumT⟩ := hrec
      have hunf : gcDeleteOldest (e :: r) total fs =
          (e.1 :: (gcDeleteOldest r total fs).1, (gcDeleteOldest r total fs).2) := by
        simp [gcDeleteOldest, htot]
      rw [hunf]
      refine ⟨?_, ?_, ?_, ?_, ?_, ?_, ?_⟩
      · intro q hq
        simp only [List.map_cons, List.mem_cons, not_or] at hq
        exact hframe q hq.2
      · intro q hq
        rcases List.mem_cons.mp hq with hq1 | hq1
        · rw [hq1]
          exact hframe e.1 hefst
        · exact hkeep q hq1
      · intro q hq hqk
        simp only [List.map_cons, List.mem_cons] at hq
        rcases hq with hq1 | hq1
        · exact absurd (hq1 ▸ List.mem_cons_self _ _) hqk
        · exact hdel q hq1 fun hk => hqk (List.mem_cons_of_mem _ hk)
      · intro q hq
        rcases List.mem_cons.mp hq with hq1 | hq1
        · simp [hq1]
        · exact List.mem_cons_of_mem _ (hsub q hq1)
      · exact List.nodup_cons.mpr ⟨fun hmem => hefst (hsub _ hmem), hndk⟩
      · simp only [List.map_cons, List.sum_cons, hsizee]
        have := hsumle
        omega
      · -- everything kept fits: the kept sum is bounded by the running total
        simp only [List.map_cons, List.sum_cons, hsizee]
        have hle : ((gcDeleteOldest r total fs).1.map fun q =>
            (fs.fileSize q).getD 0).sum ≤ (r.map fun x => x.2.1).sum := hsumle
        have hsum' : e.2.1 + (r.map fun x => x.2.1).sum ≤ total := by
          simpa using hsum
        omega
    · -- delete branch
      have hfs' : ∀ x ∈ r, ∃ f : FsFile,
          (fs.removeFile e.1).lookup x.1 = some f ∧ x.2.1 = f.contents.length := by
        intro x hx
        obtain ⟨f, hf, hs⟩ := hentries x (List.mem_cons_of_mem _ hx)
        refine ⟨f, ?_, hs⟩
        rw [Fs.lookup_removeFile_ne _ _ (fun hxe => hefst (by
          rw [← hxe]
          exact List.mem_map.mpr ⟨x, hx, rfl⟩))]
        exact hf
      have hrec := ih (total - e.2.1) (fs.removeFile e.1)
        (by
          have : e.2.1 + (r.map fun x => x.2.1).sum ≤ total := by simpa using hsum
          omega)
        hfs' hndr
      obtain ⟨hframe, hkeep, hdel, hsub, hndk, hsumle, hsumT⟩ := hrec
      have hunf : gcDeleteOldest (e :: r) total fs =
          gcDeleteOldest r (total - e.2.1) (fs.removeFile e.1) := by
        simp [gcDeleteOldest, htot]
      rw [hunf]
      have hsz_eq : ∀ q ∈ (gcDeleteOldest r (total - e.2.1) (fs.removeFile e.1)).1,
          ((fs.removeFile e.1).fileSize q).getD 0 = (fs.fileSize q).getD 0 := by
        intro q hq
        have hqr := hsub q hq
        have hqe : q ≠ e.1 := fun hqe => hefst (hqe ▸ hqr)
        unfold Fs.fileSize
        rw [Fs.lookup_removeFile_ne _ _ hqe]
      refine ⟨?_, ?_, ?_, ?_, hndk, ?_, ?_⟩
      · intro q hq
        simp only [List.map_cons, List.mem_cons, not_or] at hq
        rw [hframe q hq.2]
        exact Fs.lookup_removeFile_ne _ _ hq.1
      · intro q hq
        have hqr := hsub q hq
        have hqe : q ≠ e.1 := fun hqe => hefst (hqe ▸ hqr)
        rw [hkeep q hq]
        exact Fs.lookup_removeFile_ne _ _ hqe
      · intro q hq hqk
        simp only [List.map_cons, List.mem_cons] at hq
        rcases hq with hq1 | hq1
        · rw [hq1, hframe e.1 hefst]
          exact Fs.lookup_removeFile_self fs e.1
        · exact hdel q hq1 hqk
      · intro q hq
        exact List.mem_cons_of_mem _ (hsub q hq)
      · rw [List.map_congr_left hsz_eq] at hsumle
        have : (r.map fun x => x.2.1).sum ≤ ((e :: r).map fun x => x.2.1).sum := by
          simp
        omega
      · rw [List.map_congr_left hsz_eq] at hsumT
        exact hsumT

/-- The references an inputmap file yields depend only on the file's stored
entry. -/
theorem refsOfFile_congr {fs fs' : Fs} {imp : String}
    (h : fs'.lookup imp = fs.lookup imp) :
    refsOfFile fs' imp = refsOfFile fs imp := by
  unfold refsOfFile Fs.read
  rw [h]

/-- Specification of the orphaned-inputmap sweep: it touches only the listed
inputmap paths; a present inputmap survives (unchanged) exactly when all its
references are in the surviving output set, and is deleted otherwise; the
returned reference collection consists of the accumulator plus the
references of the surviving inputmaps. -/
theorem cleanupLoop_spec (existing : List String) :
    ∀ (imps : List String) (fs : Fs) (acc : List String), imps.Nodup →
      ∀ res fs2, cleanupInputmapsLoop existing imps fs acc = (some res, fs2) →
      (∀ q, q ∉ imps → fs2.lookup q = fs.lookup q) ∧
      (∀ imp ∈ imps, (fs.lookup imp).isSome = true →
        ((refsOfFile fs imp).all (existing.contains ·) = true →
          fs2.lookup imp = fs.lookup imp) ∧
        ((refsOfFile fs imp).all (existing.contains ·) = false →
          fs2.lookup imp = none)) ∧
      (∀ imp ∈ imps, (fs.lookup imp).isSome = false →
        fs2.lookup imp = fs.lookup imp) ∧
      (∀ r ∈ res, r ∈ acc ∨ ∃ imp ∈ imps, (fs.lookup imp).isSome = true ∧
        (refsOfFile fs imp).all (existing.contains ·) = true ∧
        r ∈ refsOfFile fs imp) ∧
      (∀ imp ∈ imps, (fs.lookup imp).isSome = true →
        (refsOfFile fs imp).all (existing.contains ·) = true →
        ∀ r ∈ refsOfFile fs imp, r ∈ res) ∧
      (∀ r ∈ acc, r ∈ res) := by
  intro imps
  induction imps with
  | nil =>
    intro fs acc _ res fs2 hrun
    have h1 : res = acc ∧ fs2 = fs := by
      cases hrun
      exact ⟨rfl, rfl⟩
    obtain ⟨rfl, rfl⟩ := h1
    exact ⟨fun _ _ => rfl, by simp, by simp, fun r hr => Or.inl hr, by simp,
      fun r hr => hr⟩
  | cons imp rest ih =>
    intro fs acc hnd res fs2 hrun
    have himpr : imp ∉ rest := (List.nodup_cons.mp hnd).1
    have hndr : rest.Nodup := (List.nodup_cons.mp hnd).2
    by_cases hfile : fs.isFile imp = true
    · have hsome : (fs.lookup imp).isSome = true := hfile
      cases hdec : asciiDecode ((fs.read imp).getD []) with
      | none =>
        exfalso
        unfold cleanupInputmapsLoop at hrun
        rw [if_pos hfile, hdec] at hrun
        cases hrun
      | some im =>
        have hrefs : refsOfFile fs imp = inputmapRefs im := by
          unfold refsOfFile
          rw [hdec]
          rfl
        cases hall : (inputmapRefs im).all (existing.contains ·) with
        | true =>
          have hrun' : cleanupInputmapsLoop existing rest fs
              (acc ++ inputmapRefs im) = (some res, fs2) := by
            unfold cleanupInputmapsLoop at hrun
            rw [if_pos hfile, hdec] at hrun
            have hrun2 : (if ((inputmapRefs im).all fun x => existing.contains x) = true
                then cleanupInputmapsLoop existing rest fs (acc ++ inputmapRefs im)
                else cleanupInputmapsLoop existing rest (fs.removeFile imp) acc) =
                (some res, fs2) := hrun
            rw [if_pos hall] at hrun2
            exact hrun2
          obtain ⟨F, K, A, M1, M2, M3⟩ := ih fs (acc ++ inputmapRefs im) hndr
            res fs2 hrun'
          refine ⟨?_, ?_, ?_, ?_, ?_, ?_⟩
          · intro q hq
            exact F q fun hqr => hq (List.mem_cons_of_mem _ hqr)
          · intro x hx hxs
            rcases List.mem_cons.mp hx with hx1 | hx1
            · rw [hx1, hrefs, hall]
              exact ⟨fun _ => F imp himpr, fun hfalse => by cases hfalse⟩
            · exact K x hx1 hxs
          · intro x hx hxs
            rcases List.mem_cons.mp hx with hx1 | hx1
            · rw [hx1] at hxs
              rw [hsome] at hxs
              cases hxs
            · exact A x hx1 hxs
          · intro r hr
            rcases M1 r hr with hracc | hrimp
            · rcases List.mem_append.mp hracc with h | h
              · exact Or.inl h
              · refine Or.inr ⟨imp, List.mem_cons_self _ _, hsome, ?_, ?_⟩
                · rw [hrefs]
                  exact hall
                · rw [hrefs]
                  exact h
            · obtain ⟨x, hx, hxp⟩ := hrimp
              exact Or.inr ⟨x, List.mem_cons_of_mem _ hx, hxp⟩
          · intro x hx hxs hxall r hr
            rcases List.mem_cons.mp hx with hx1 | hx1
            · apply M3
              apply List.mem_append.mpr
              right
              rw [hx1, hrefs] at hr
              exact hr
            · exact M2 x hx1 hxs hxall r hr
          · intro r hr
            exact M3 r (List.mem_append.mpr (Or.inl hr))
        | false =>
          have hrun' : cleanupInputmapsLoop existing rest (fs.removeFile imp)
              acc = (some res, fs2) := by
            unfold cleanupInputmapsLoop at hrun
            rw [if_pos hfile, hdec] at hrun
            have hrun2 : (if ((inputmapRefs im).all fun x => existing.contains x) = true
                then cleanupInputmapsLoop existing rest fs (acc ++ inputmapRefs im)
                else cleanupInputmapsLoop existing rest (fs.removeFile imp) acc) =
                (some res, fs2) := hrun
            rw [if_neg (by rw [hall]; exact Bool.false_ne_true)] at hrun2
            exact hrun2
          obtain ⟨F, K, A, M1, M2, M3⟩ := ih (fs.removeFile imp) acc hndr
            res fs2 hrun'
          have hlift : ∀ x ∈ rest, (fs.removeFile imp).lookup x = fs.lookup x := by
            intro x hx
            exact Fs.lookup_removeFile_ne _ _ fun hxe => himpr (hxe ▸ hx)
          have hrlift : ∀ x ∈ rest,
              refsOfFile (fs.removeFile imp) x = refsOfFile fs x := by
            intro x hx
            exact refsOfFile_congr (hlift x hx)
          refine ⟨?_, ?_, ?_, ?_, ?_, ?_⟩
          · intro q hq
            have hq1 : q ≠ imp := fun h => hq (h ▸ List.mem_cons_self _ _)
            have hq2 : q ∉ rest := fun h => hq (List.mem_cons_of_mem _ h)
            rw [F q hq2]
            exact Fs.lookup_removeFile_ne _ _ hq1
          · intro x hx hxs
            rcases List.mem_cons.mp hx with hx1 | hx1
            · rw [hx1, hrefs, hall]
              refine ⟨fun htrue => ?_, fun _ => ?_⟩
              · cases htrue
              · rw [F imp himpr]
                exact Fs.lookup_removeFile_self fs imp
            · have hxs' : ((fs.removeFile imp).lookup x).isSome = true := by
                rw [hlift x hx1]
                exact hxs
              have hK := K x hx1 hxs'
              rw [hrlift x hx1, hlift x hx1] at hK
              exact hK
          · intro x hx hxs
            rcases List.mem_cons.mp hx with hx1 | hx1
            · rw [hx1] at hxs
              rw [hsome] at hxs
              cases hxs
            · have hxs' : ((fs.removeFile imp).lookup x).isSome = false := by
                rw [hlift x hx1]
                exact hxs
              have hA := A x hx1 hxs'
              rw [hlift x hx1] at hA
              exact hA
          · intro r hr
            rcases M1 r hr with hracc | hrimp
            · exact Or.inl hracc
            · obtain ⟨x, hx, hxs, hxall, hxr⟩ := hrimp
              refine Or.inr ⟨x, List.mem_cons_of_mem _ hx, ?_, ?_, ?_⟩
              · rw [← hlift x hx]
                exact hxs
              · rw [← hrlift x hx]
                exact hxall
              · rw [← hrlift x hx]
                exact hxr
          · intro x hx hxs hxall r hr
            rcases List.mem_cons.mp hx with hx1 | hx1
            · rw [hx1, hrefs, hall] at hxall
              cases hxall
            · apply M2 x hx1
              · rw [hlift x hx1]
                exact hxs
              · rw [hrlift x hx1]
                exact hxall
              · rw [hrlift x hx1]
                exact hr
          · exact M3
    · have hsome : (fs.lookup imp).isSome = false := by
        rw [Bool.eq_false_iff]
        exact fun h => hfile h
      have hrun' : cleanupInputmapsLoop existing rest fs acc = (some res, fs2) := by
        unfold cleanupInputmapsLoop at hrun
        rw [if_neg hfile] at hrun
        exact hrun
      obtain ⟨F, K, A, M1, M2, M3⟩ := ih fs acc hndr res fs2 hrun'
      refine ⟨?_, ?_, ?_, ?_, ?_, M3⟩
      · intro q hq
        exact F q fun hqr => hq (List.mem_cons_of_mem _ hqr)
      · intro x hx hxs
        rcases List.mem_cons.mp hx with hx1 | hx1
        · rw [hx1] at hxs
          rw [hsome] at hxs
          cases hxs
        · exact K x hx1 hxs
      · intro x hx hxs
        rcases List.mem_cons.mp hx with hx1 | hx1
        · rw [hx1]
          exact F imp himpr
        · exact A x hx1 hxs
      · intro r hr
        rcases M1 r hr with h | h
        · exact Or.inl h
        · obtain ⟨x, hx, hxp⟩ := h
          exact Or.inr ⟨x, List.mem_cons_of_mem _ hx, hxp⟩
      · intro x hx hxs hxall r hr
        rcases List.mem_cons.mp hx with hx1 | hx1
        · rw [hx1, hsome] at hxs
          cases hxs
        · exact M2 x hx1 hxs hxall r hr

/-- Specification of the orphaned-output sweep: paths outside the surviving
set are untouched; a surviving path is kept exactly when it is referenced. -/
theorem cleanupOutputs_spec (referenced : List String) :
    ∀ (ex : List String) (fs : Fs),
      (∀ q, q ∉ ex → (cleanupOrphanedOutputs fs ex referenced).lookup q =
        fs.lookup q) ∧
      (∀ q ∈ ex, (cleanupOrphanedOutputs fs ex referenced).lookup q =
        if q ∈ referenced then fs.lookup q else none) := by
  intro ex
  induction ex with
  | nil => exact fun fs => ⟨fun _ _ => rfl, by simp⟩
  | cons e ex ih =>
    intro fs
    have hunf : cleanupOrphanedOutputs fs (e :: ex) referenced =
        cleanupOrphanedOutputs
          (if referenced.contains e then fs else fs.removeFile e) ex referenced := by
      unfold cleanupOrphanedOutputs
      rw [List.foldl_cons]
    by_cases hc : e ∈ referenced
    · have hcb : referenced.contains e = true := List.elem_iff.mpr hc
      rw [hunf, if_pos hcb]
      obtain ⟨F, K⟩ := ih fs
      constructor
      · intro q hq
        exact F q fun h => hq (List.mem_cons_of_mem _ h)
      · intro q hq
        rcases List.mem_cons.mp hq with hq1 | hq1
        · by_cases hqex : q ∈ ex
          · exact K q hqex
          · rw [F q hqex, hq1, if_pos hc]
        · exact K q hq1
    · have hcb : ¬ referenced.contains e = true :=
        fun h => hc (List.elem_iff.mp h)
      rw [hunf, if_neg hcb]
      obtain ⟨F, K⟩ := ih (fs.removeFile e)
      constructor
      · intro q hq
        have hq1 : q ≠ e := fun h => hq (h ▸ List.mem_cons_self _ _)
        have hq2 : q ∉ ex := fun h => hq (List.mem_cons_of_mem _ h)
        rw [F q hq2]
        exact Fs.lookup_removeFile_ne _ _ hq1
      · intro q hq
        rcases List.mem_cons.mp hq with hq1 | hq1
        · by_cases hqex : q ∈ ex
          · have hK := K q hqex
            by_cases hqr : q ∈ referenced
            · rw [if_pos hqr] at hK
              rw [if_pos hqr, hK]
              exact Fs.lookup_removeFile_ne _ _ fun h => hc (h ▸ hq1 ▸ hqr)
            · rw [if_neg hqr] at hK
              rw [if_neg hqr]
              exact hK
          · rw [F q hqex, hq1, if_neg hc]
            exact Fs.lookup_removeFile_self fs e
        · have hK := K q hq1
          by_cases hqr : q ∈ referenced
          · rw [if_pos hqr] at hK
            rw [if_pos hqr, hK]
            by_cases hqe : q = e
            · rw [hqe] at hqr
              exact absurd hqr hc
            · exact Fs.lookup_removeFile_ne _ _ hqe
          · rw [if_neg hqr] at hK
            rw [if_neg hqr]
            exact hK

/-- The deletion walk only removes entries. -/
theorem gcDel_files_sublist :
    ∀ (l : List (String × Nat × Nat)) (total : Nat) (fs : Fs),
      (gcDeleteOldest l total fs).2.files.Sublist fs.files := by
  intro l
  induction l with
  | nil => intro total fs; exact List.Sublist.refl _
  | cons e r ih =>
    intro total fs
    by_cases htot : total ≤ TARGET_SIZE
    · have hunf : (gcDeleteOldest (e :: r) total fs).2 =
          (gcDeleteOldest r total fs).2 := by
        simp [gcDeleteOldest, htot]
      rw [hunf]
      exact ih total fs
    · have hunf : (gcDeleteOldest (e :: r) total fs).2 =
          (gcDeleteOldest r (total - e.2.1) (fs.removeFile e.1)).2 := by
        simp [gcDeleteOldest, htot]
      rw [hunf]
      exact (ih _ _).trans (List.filter_sublist _)

/-- The inputmap sweep only removes entries. -/
theorem cleanupLoop_files_sublist (existing : List String) :
    ∀ (imps : List String) (fs : Fs) (acc : List String),
      (cleanupInputmapsLoop existing imps fs acc).2.files.Sublist fs.files := by
  intro imps
  induction imps with
  | nil => intro fs acc; exact List.Sublist.refl _
  | cons imp rest ih =>
    intro fs acc
    by_cases hfile : fs.isFile imp = true
    · cases hdec : asciiDecode ((fs.read imp).getD []) with
      | none =>
        have hunf : cleanupInputmapsLoop existing (imp :: rest) fs acc = (none, fs) := by
          rw [cleanupInputmapsLoop]
          rw [if_pos hfile, hdec]
        rw [hunf]
      | some im =>
        have hunf : cleanupInputmapsLoop existing (imp :: rest) fs acc =
            (if ((inputmapRefs im).all fun x => existing.contains x) = true
              then cleanupInputmapsLoop existing rest fs (acc ++ inputmapRefs im)
              else cleanupInputmapsLoop existing rest (fs.removeFile imp) acc) := by
          rw [cleanupInputmapsLoop]
          rw [if_pos hfile, hdec]
        rw [hunf]
        by_cases hall : ((inputmapRefs im).all fun x => existing.contains x) = true
        · rw [if_pos hall]
          exact ih fs _
        · rw [if_neg hall]
          exact (ih _ _).trans (List.filter_sublist _)
    · have hunf : cleanupInputmapsLoop existing (imp :: rest) fs acc =
          cleanupInputmapsLoop existing rest fs acc := by
        rw [cleanupInputmapsLoop]
        rw [if_neg hfile]
      rw [hunf]
      exact ih fs acc

/-- The orphaned-output sweep only removes entries. -/
theorem cleanupOutputs_files_sublist (referenced : List String) :
    ∀ (ex : List String) (fs : Fs),
      (cleanupOrphanedOutputs fs ex referenced).files.Sublist fs.files := by
  intro ex
  induction ex with
  | nil => intro fs; exact List.Sublist.refl _
  | cons e ex ih =>
    intro fs
    have hunf : cleanupOrphanedOutputs fs (e :: ex) referenced =
        cleanupOrphanedOutputs
          (if referenced.contains e then fs else fs.removeFile e) ex referenced := by
      unfold cleanupOrphanedOutputs
      rw [List.foldl_cons]
    rw [hunf]
    by_cases hc : referenced.contains e = true
    · rw [if_pos hc]
      exact ih fs
    · rw [if_neg hc]
      exact (ih _).trans (List.filter_sublist _)

/-- No path lies both under `outputs/` and under `inputmaps/`. -/
theorem outputs_inputmaps_disjoint {q : String}
    (h1 : strStartsWith q (outputsDir ++ "/") = true)
    (h2 : strStartsWith q (inputmapsDir ++ "/") = true) : False := by
  unfold strStartsWith at h1 h2
  have e1 := List.prefix_iff_eq_take.mp (List.isPrefixOf_iff_prefix.mp h1)
  have e2 := List.prefix_iff_eq_take.mp (List.isPrefixOf_iff_prefix.mp h2)
  have h19 : (outputsDir ++ "/").data =
      ((inputmapsDir ++ "/").data).take 19 := by
    rw [e1, e2, List.take_take]
    rfl
  revert h19
  decide

/-- Every inputmap reference is a path under `outputs/`. -/
theorem inputmapRefs_under (im : String) :
    ∀ r ∈ inputmapRefs im, strStartsWith r (outputsDir ++ "/") = true := by
  intro r hr
  unfold inputmapRefs at hr
  obtain ⟨h, _, rfl⟩ := List.mem_map.mp hr
  exact startsWith_childPath _ _

/-- A sum over a duplicate-free sublist of keys is bounded by the sum over
the containing duplicate-free key list. -/
theorem sum_le_of_subset {l1 l2 : List String} (f : String → Nat)
    (h1 : l1.Nodup) (h2 : l2.Nodup) (hsub : ∀ x ∈ l1, x ∈ l2) :
    (l1.map f).sum ≤ (l2.map f).sum := by
  rw [← List.sum_toFinset f h1, ← List.sum_toFinset f h2]
  apply Finset.sum_le_sum_of_subset
  intro x hx
  rw [List.mem_toFinset] at hx ⊢
  exact hsub x hx

/-- A small wellformed store, under the GC trigger threshold. -/
def fsC3 : Fs :=
  (Fs.empty.write ".hex/cache/outputs/AB" [7]).write "a.txt" [1, 2]

/-- C3: when `maybe_gc` returns successfully it is the identity on stores
whose `outputs/` total is at or below `MAX_SIZE`; and on stores above the
trigger it brings the `outputs/` total to at most `TARGET_SIZE`, every
surviving inputmap references only surviving output blobs, and every
surviving output blob is referenced by some surviving inputmap. -/
theorem maybe_gc_spec (fs fs' : Fs) (hwf : fs.WF)
    (hgc : maybeGc fs = (.ok, fs')) :
    (outputsTotalSize fs ≤ MAX_SIZE → fs' = fs) ∧
    (MAX_SIZE < outputsTotalSize fs →
      outputsTotalSize fs' ≤ TARGET_SIZE ∧
      (∀ imp ∈ fs'.listDir inputmapsDir, ∀ r ∈ refsOfFile fs' imp,
        fs'.isFile r = true) ∧
      (∀ b ∈ fs'.listDir outputsDir, ∃ imp ∈ fs'.listDir inputmapsDir,
        b ∈ refsOfFile fs' imp)) := by
  have hgc1 : (if MAX_SIZE < outputsTotalSize fs then
      match cleanupOrphanedInputmaps
          (gcDeleteOldest ((gcScan fs).insertionSort fun a b => a.2.2 ≤ b.2.2)
            (outputsTotalSize fs) fs).2
          (gcDeleteOldest ((gcScan fs).insertionSort fun a b => a.2.2 ≤ b.2.2)
            (outputsTotalSize fs) fs).1 with
        | (none, fs2) => (GcRes.invalidUtf8, fs2)
        | (some referenced, fs2) =>
          (GcRes.ok, cleanupOrphanedOutputs fs2
            (gcDeleteOldest ((gcScan fs).insertionSort fun a b => a.2.2 ≤ b.2.2)
              (outputsTotalSize fs) fs).1 referenced)
      else (GcRes.ok, fs)) = (GcRes.ok, fs') := hgc
  by_cases hover : MAX_SIZE < outputsTotalSize fs
  case neg =>
    rw [if_neg hover] at hgc1
    have hfs : fs = fs' := congrArg Prod.snd hgc1
    exact ⟨fun _ => hfs.symm, fun h => absurd h hover⟩
  case pos =>
    rw [if_pos hover] at hgc1
    obtain ⟨sorted, hsorteddef⟩ :
        ∃ s, s = (gcScan fs).insertionSort fun a b => a.2.2 ≤ b.2.2 := ⟨_, rfl⟩
    rw [← hsorteddef] at hgc1
    have hperm : sorted.Perm (gcScan fs) := by
      rw [hsorteddef]
      exact List.perm_insertionSort _ _
    have hscan_fst : ((gcScan fs).map fun e => e.1) = fs.listDir outputsDir := by
      rw [gcScan_eq, List.map_map]
      have hcomp : ((fun e : String × Nat × Nat => e.1) ∘ fun p =>
          (p, (fs.fileSize p).getD 0, (fs.modtimeOf p).getD 0)) = id := rfl
      rw [hcomp, List.map_id]
    have hsorted_fst_iff : ∀ p : String,
        (p ∈ sorted.map fun e => e.1) ↔ p ∈ fs.listDir outputsDir := by
      intro p
      rw [← hscan_fst]
      exact (hperm.map _).mem_iff
    have hsum : (sorted.map fun e => e.2.1).sum ≤ outputsTotalSize fs := by
      rw [outputsTotalSize]
      exact le_of_eq (hperm.map _).sum_eq
    have hentries : ∀ e ∈ sorted, ∃ f : FsFile, fs.lookup e.1 = some f ∧
        e.2.1 = f.contents.length :=
      fun e he => gcScan_entry fs e (hperm.mem_iff.mp he)
    have hndsorted : (sorted.map fun e => e.1).Nodup :=
      ((hperm.map _).nodup_iff).mpr (gcScan_fst_nodup hwf)
    have hunder_sorted : ∀ e ∈ sorted,
        strStartsWith e.1 (outputsDir ++ "/") = true :=
      fun e he => gcScan_under fs e (hperm.mem_iff.mp he)
    have hdel := gcDel_spec sorted (outputsTotalSize fs) fs hsum hentries hndsorted
    have hsubdel := gcDel_files_sublist sorted (outputsTotalSize fs) fs
    obtain ⟨remaining, fs1, hD⟩ :
        ∃ a b, gcDeleteOldest sorted (outputsTotalSize fs) fs = (a, b) :=
      ⟨_, _, rfl⟩
    rw [hD] at hdel hsubdel hgc1
    dsimp only at hdel hsubdel hgc1
    obtain ⟨Fdel, Kdel, Ddel, Sdel, NdK, _, SumT⟩ := hdel
    rcases hclean : cleanupOrphanedInputmaps fs1 remaining with ⟨o, fs2⟩
    rw [hclean] at hgc1
    cases o with
    | none =>
      have hgc2 : (GcRes.invalidUtf8, fs2) = (GcRes.ok, fs') := hgc1
      have hcontra : GcRes.invalidUtf8 = GcRes.ok := congrArg Prod.fst hgc2
      exact absurd hcontra (by decide)
    | some referenced =>
      have hgc2 : (GcRes.ok, cleanupOrphanedOutputs fs2 remaining referenced) =
          (GcRes.ok, fs') := hgc1
      have hfs' : fs' = cleanupOrphanedOutputs fs2 remaining referenced :=
        (congrArg Prod.snd hgc2).symm
      have hloop : cleanupInputmapsLoop remaining (fs1.listDir inputmapsDir)
          fs1 [] = (some referenced, fs2) := hclean
      have hsub1 : fs1.files.Sublist fs.files := hsubdel
      have hnd1 : (fs1.files.map Prod.fst).Nodup :=
        hwf.1.sublist (hsub1.map Prod.fst)
      have hndimps : (fs1.listDir inputmapsDir).Nodup := List.Nodup.filter _ hnd1
      obtain ⟨F2, K2, A2, M1, M2, _⟩ :=
        cleanupLoop_spec remaining (fs1.listDir inputmapsDir) fs1 [] hndimps
          referenced fs2 hloop
      obtain ⟨F3, K3⟩ := cleanupOutputs_spec referenced remaining fs2
      have F3' : ∀ q, q ∉ remaining → fs'.lookup q = fs2.lookup q := by
        rw [hfs']
        exact F3
      have K3' : ∀ q ∈ remaining, fs'.lookup q =
          if q ∈ referenced then fs2.lookup q else none := by
        rw [hfs']
        exact K3
      have hsub2 : fs2.files.Sublist fs1.files := by
        have h := cleanupLoop_files_sublist remaining (fs1.listDir inputmapsDir)
          fs1 []
        rw [hloop] at h
        exact h
      have hsub3 : fs'.files.Sublist fs2.files := by
        rw [hfs']
        exact cleanupOutputs_files_sublist referenced remaining fs2
      have hnd' : (fs'.files.map Prod.fst).Nodup :=
        hwf.1.sublist ((hsub3.trans (hsub2.trans hsub1)).map Prod.fst)
      have himps_under : ∀ imp ∈ fs1.listDir inputmapsDir,
          strStartsWith imp (inputmapsDir ++ "/") = true :=
        fun imp h => (mem_listDir_iff.mp h).2
      have hrem_under : ∀ q ∈ remaining,
          strStartsWith q (outputsDir ++ "/") = true := by
        intro q hq
        obtain ⟨e, he, hfst⟩ := List.mem_map.mp (Sdel q hq)
        rw [← hfst]
        exact hunder_sorted e he
      have hrem_pres : ∀ q ∈ remaining, (fs.lookup q).isSome = true := by
        intro q hq
        obtain ⟨e, he, hfst⟩ := List.mem_map.mp (Sdel q hq)
        obtain ⟨f, hf, _⟩ := hentries e he
        rw [← hfst, hf]
        rfl
      have houtfile : ∀ q, strStartsWith q (outputsDir ++ "/") = true →
          ((fs'.lookup q).isSome = true ↔ (q ∈ remaining ∧ q ∈ referenced)) ∧
          (q ∈ remaining → q ∈ referenced → fs'.lookup q = fs.lookup q) := by
        intro q hq
        have hqimp : q ∉ fs1.listDir inputmapsDir := fun h =>
          outputs_inputmaps_disjoint hq (himps_under q h)
        by_cases hqr : q ∈ remaining
        · have h1 : fs1.lookup q = fs.lookup q := Kdel q hqr
          have h2 : fs2.lookup q = fs.lookup q := (F2 q hqimp).trans h1
          have h3 : fs'.lookup q = if q ∈ referenced then fs.lookup q else none := by
            rw [K3' q hqr]
            by_cases hqref : q ∈ referenced
            · rw [if_pos hqref, if_pos hqref, h2]
            · rw [if_neg hqref, if_neg hqref]
          refine ⟨⟨?_, ?_⟩, ?_⟩
          · intro hsome
            refine ⟨hqr, ?_⟩
            by_contra hqref
            rw [h3, if_neg hqref] at hsome
            simp at hsome
          · intro ⟨_, hqref⟩
            rw [h3, if_pos hqref]
            exact hrem_pres q hqr
          · intro _ hqref
            rw [h3, if_pos hqref]
        · have h4 : fs'.lookup q = fs1.lookup q := (F3' q hqr).trans (F2 q hqimp)
          have h5 : fs1.lookup q = none := by
            by_cases hqs : q ∈ sorted.map fun e => e.1
            · exact Ddel q hqs hqr
            · rw [Fdel q hqs]
              cases hlk : fs.lookup q with
              | none => rfl
              | some f =>
                exfalso
                apply hqs
                rw [hsorted_fst_iff]
                refine mem_listDir_iff.mpr ⟨?_, hq⟩
                rw [hlk]
                rfl
          have h6 : fs'.lookup q = none := h4.trans h5
          refine ⟨⟨?_, ?_⟩, ?_⟩
          · intro hsome
            rw [h6] at hsome
            simp at hsome
          · intro ⟨hqr2, _⟩
            exact absurd hqr2 hqr
          · intro hqr2 _
            exact absurd hqr2 hqr
      have ha : outputsTotalSize fs' ≤ TARGET_SIZE := by
        have hsubset : ∀ q ∈ fs'.listDir outputsDir, q ∈ remaining := by
          intro q hq
          obtain ⟨hpres, hunder⟩ := mem_listDir_iff.mp hq
          exact ((houtfile q hunder).1.mp hpres).1
        have hsame : ∀ q ∈ fs'.listDir outputsDir,
            (fs'.fileSize q).getD 0 = (fs.fileSize q).getD 0 := by
          intro q hq
          obtain ⟨hpres, hunder⟩ := mem_listDir_iff.mp hq
          obtain ⟨hqrem, hqref⟩ := (houtfile q hunder).1.mp hpres
          have heq := (houtfile q hunder).2 hqrem hqref
          unfold Fs.fileSize
          rw [heq]
        have hndlist : (fs'.listDir outputsDir).Nodup := List.Nodup.filter _ hnd'
        rw [outputsTotalSize, gcScan_eq fs', List.map_map]
        have hcomp2 : ((fun e : String × Nat × Nat => e.2.1) ∘ fun p =>
            (p, (fs'.fileSize p).getD 0, (fs'.modtimeOf p).getD 0)) =
            fun p => (fs'.fileSize p).getD 0 := rfl
        rw [hcomp2, List.map_congr_left hsame]
        exact le_trans (sum_le_of_subset _ hndlist NdK hsubset) SumT
      have hb : ∀ imp ∈ fs'.listDir inputmapsDir, ∀ r ∈ refsOfFile fs' imp,
          fs'.isFile r = true := by
        intro imp hmem
        obtain ⟨hpres', hunder_imp⟩ := mem_listDir_iff.mp hmem
        have himp_not_rem : imp ∉ remaining := fun h =>
          outputs_inputmaps_disjoint (hrem_under imp h) hunder_imp
        have heq3 : fs'.lookup imp = fs2.lookup imp := F3' imp himp_not_rem
        by_cases himp : imp ∈ fs1.listDir inputmapsDir
        case neg =>
          exfalso
          have heq : fs'.lookup imp = fs1.lookup imp := heq3.trans (F2 imp himp)
          rw [heq] at hpres'
          exact himp (mem_listDir_iff.mpr ⟨hpres', hunder_imp⟩)
        case pos =>
          by_cases hpres1 : (fs1.lookup imp).isSome = true
          case neg =>
            exfalso
            have hps1 : (fs1.lookup imp).isSome = false :=
              Bool.eq_false_iff.mpr hpres1
            have heq : fs2.lookup imp = fs1.lookup imp := A2 imp himp hps1
            rw [heq3, heq] at hpres'
            exact hpres1 hpres'
          case pos =>
            obtain ⟨Ktrue, Kfalse⟩ := K2 imp himp hpres1
            by_cases hall :
                ((refsOfFile fs1 imp).all fun x => remaining.contains x) = true
            case neg =>
              exfalso
              have heq : fs2.lookup imp = none :=
                Kfalse (Bool.eq_false_iff.mpr hall)
              rw [heq3, heq] at hpres'
              simp at hpres'
            case pos =>
              have heq1 : fs'.lookup imp = fs1.lookup imp :=
                heq3.trans (Ktrue hall)
              have hrefeq : refsOfFile fs' imp = refsOfFile fs1 imp :=
                refsOfFile_congr heq1
              intro r hr
              rw [hrefeq] at hr
              have hr_rem : r ∈ remaining :=
                List.elem_iff.mp (List.all_eq_true.mp hall r hr)
              have hr_ref : r ∈ referenced := M2 imp himp hpres1 hall r hr
              have hr_under : strStartsWith r (outputsDir ++ "/") = true :=
                inputmapRefs_under
                  ((asciiDecode ((fs1.read imp).getD [])).getD "") r hr
              show (fs'.lookup r).isSome = true
              exact (houtfile r hr_under).1.mpr ⟨hr_rem, hr_ref⟩
      have hc : ∀ b ∈ fs'.listDir outputsDir, ∃ imp ∈ fs'.listDir inputmapsDir,
          b ∈ refsOfFile fs' imp := by
        intro b hb2
        obtain ⟨hbpres, hbunder⟩ := mem_listDir_iff.mp hb2
        obtain ⟨hbrem, hbref⟩ := (houtfile b hbunder).1.mp hbpres
        rcases M1 b hbref with hnil | ⟨imp, himp, hpres1, hall, hbrefs⟩
        · simp at hnil
        · have hunder_imp : strStartsWith imp (inputmapsDir ++ "/") = true :=
            himps_under imp himp
          have himp_not_rem : imp ∉ remaining := fun h =>
            outputs_inputmaps_disjoint (hrem_under imp h) hunder_imp
          obtain ⟨Ktrue, _⟩ := K2 imp himp hpres1
          have heq1 : fs'.lookup imp = fs1.lookup imp :=
            (F3' imp himp_not_rem).trans (Ktrue hall)
          have hmem' : imp ∈ fs'.listDir inputmapsDir := by
            rw [mem_listDir_iff]
            refine ⟨?_, hunder_imp⟩
            rw [heq1]
            exact hpres1
          refine ⟨imp, hmem', ?_⟩
          rw [refsOfFile_congr heq1]
          exact hbrefs
      exact ⟨fun hle => absurd hover (not_lt.mpr hle), fun _ => ⟨ha, hb, hc⟩⟩

/-- Witness for the GC specification: on a small wellformed store below the
trigger threshold, `maybe_gc` succeeds and leaves the store unchanged. -/
theorem maybe_gc_spec_witness :
    fsC3.WF ∧ maybeGc fsC3 = (GcRes.ok, fsC3) ∧
      outputsTotalSize fsC3 ≤ MAX_SIZE ∧ fsC3 = fsC3 :=
  ⟨by unfold Fs.WF; decide, rfl, by decide,
    (maybe_gc_spec fsC3 fsC3 (by unfold Fs.WF; decide) rfl).1 (by decide)⟩

set_option maxRecDepth 100000 in
/-- C4 evaluation at the failing input.  With an inputmap that has fewer
hash lines than the rule has outputs, `retrieve_outputs` does not treat the
inputmap as corrupt: it returns a hit (`true`), restores only the prefix of
the outputs (`out/a` but not `out/b`), and leaves the short inputmap file in
place, contradicting the claimed delete-and-miss behaviour. -/
theorem retrieve_truncated_inputmap_eval :
    (retrieveOutputs [] ruleC4 fsC4).1 = .ok true ∧
      ((retrieveOutputs [] ruleC4 fsC4).2).read "out/b" = none ∧
      ((retrieveOutputs [] ruleC4 fsC4).2).read "out/a" = some (strBytes "payload") ∧
      ((retrieveOutputs [] ruleC4 fsC4).2).isFile (childPath inputmapsDir hashC4) = true := by
  decide

/-! ## C5 and C6: generic association-list and measure lemmas -/

/-- Lookup on a cons cell, with a propositional key test. -/
theorem lookup_cons_g {α : Type} (e : String × α) (rest : List (String × α))
    (p : String) :
    ((e :: rest).lookup p) = if p = e.1 then some e.2 else rest.lookup p := by
  rw [List.lookup]
  by_cases hp : p = e.1
  · have hb : (p == e.1) = true := by simp [hp]
    rw [hb, if_pos hp]
  · have hb : (p == e.1) = false := by simp [hp]
    rw [hb, if_neg hp]

/-- A lookup succeeds exactly when the key occurs in the key list. -/
theorem lookupG_isSome_iff {α : Type} (l : List (String × α)) (q : String) :
    (l.lookup q).isSome = true ↔ q ∈ l.map Prod.fst := by
  induction l with
  | nil => simp [List.lookup]
  | cons e rest ih =>
    rw [lookup_cons_g, List.map_cons]
    by_cases hq : q = e.1
    · simp [hq]
    · simp [hq, ih]

/-- A successful lookup yields a pair of the list. -/
theorem lookupG_mem {α : Type} {l : List (String × α)} {p : String} {v : α}
    (h : l.lookup p = some v) : (p, v) ∈ l := by
  induction l with
  | nil => simp [List.lookup] at h
  | cons e rest ih =>
    rw [lookup_cons_g] at h
    by_cases hp : p = e.1
    · rw [if_pos hp] at h
      cases h
      rw [hp]
      exact List.mem_cons_self _ _
    · rw [if_neg hp] at h
      exact List.mem_cons_of_mem _ (ih h)

/-- A key absent from the key list looks up to nothing. -/
theorem lookupG_eq_none {α : Type} {l : List (String × α)} {q : String}
    (h : q ∉ l.map Prod.fst) : l.lookup q = none := by
  cases hl : l.lookup q with
  | none => rfl
  | some v =>
    exact absurd ((lookupG_isSome_iff l q).mp (by rw [hl]; rfl)) h

/-- A successful lookup is stable under appending on the right. -/
theorem lookupG_append_left {α : Type} {l : List (String × α)} {p : String}
    {v : α} (l2 : List (String × α)) (h : l.lookup p = some v) :
    (l ++ l2).lookup p = some v := by
  induction l with
  | nil => simp [List.lookup] at h
  | cons e rest ih =>
    rw [List.cons_append, lookup_cons_g]
    rw [lookup_cons_g] at h
    by_cases hp : p = e.1
    · rw [if_pos hp] at h ⊢
      exact h
    · rw [if_neg hp] at h ⊢
      exact ih h

/-- Looking up a key absent from the first part skips to the second part. -/
theorem lookupG_append_right {α : Type} {l : List (String × α)} {p : String}
    (l2 : List (String × α)) (h : p ∉ l.map Prod.fst) :
    (l ++ l2).lookup p = l2.lookup p := by
  induction l with
  | nil => rfl
  | cons e rest ih =>
    rw [List.map_cons, List.mem_cons, not_or] at h
    rw [List.cons_append, lookup_cons_g, if_neg h.1]
    exact ih h.2

/-- A lookup in an appended list is a lookup in one of the parts. -/
theorem lookupG_append_cases {α : Type} {l l2 : List (String × α)} {p : String}
    {v : α} (h : (l ++ l2).lookup p = some v) :
    l.lookup p = some v ∨ (p ∉ l.map Prod.fst ∧ l2.lookup p = some v) := by
  cases hl : l.lookup p with
  | some w =>
    left
    have h2 : (l ++ l2).lookup p = some w := lookupG_append_left l2 hl
    rw [h2] at h
    exact h
  | none =>
    right
    have hmem : p ∉ l.map Prod.fst := by
      intro hm
      have := (lookupG_isSome_iff l p).mpr hm
      rw [hl] at this
      cases this
    rw [lookupG_append_right l2 hmem] at h
    exact ⟨hmem, h⟩

/-- The position of a fresh key appended after `l1` is the length of `l1`. -/
theorem keyIdx_append_self (l1 l2 : List String) (n : String) (h : n ∉ l1) :
    keyIdx (l1 ++ n :: l2) n = l1.length := by
  induction l1 with
  | nil => simp [keyIdx]
  | cons k rest ih =>
    rw [List.mem_cons, not_or] at h
    rw [List.cons_append, keyIdx, if_neg (fun hk => h.1 hk.symm), ih h.2,
      List.length_cons]

/-- The position of a present key is stable under appending. -/
theorem keyIdx_append_of_mem (l1 l2 : List String) (d : String) (h : d ∈ l1) :
    keyIdx (l1 ++ l2) d = keyIdx l1 d := by
  induction l1 with
  | nil => simp at h
  | cons k rest ih =>
    by_cases hk : k = d
    · rw [List.cons_append, keyIdx, if_pos hk, keyIdx, if_pos hk]
    · have hd : d ∈ rest := by
        rcases List.mem_cons.mp h with h1 | h1
        · exact absurd h1.symm hk
        · exact h1
      rw [List.cons_append, keyIdx, if_neg hk, keyIdx, if_neg hk, ih hd]

/-- The position of a present key is below the list length. -/
theorem keyIdx_lt_length_of_mem (l : List String) (d : String) (h : d ∈ l) :
    keyIdx l d < l.length := by
  induction l with
  | nil => simp at h
  | cons k rest ih =>
    by_cases hk : k = d
    · rw [keyIdx, if_pos hk]
      simp
    · have hd : d ∈ rest := by
        rcases List.mem_cons.mp h with h1 | h1
        · exact absurd h1.symm hk
        · exact h1
      rw [keyIdx, if_neg hk, List.length_cons]
      exact Nat.succ_lt_succ (ih hd)

/-- The negated containment test decides non-membership. -/
theorem notContains_iff (tip : List String) (n : String) :
    (!(tip.contains n)) = true ↔ n ∉ tip := by
  constructor
  · intro hb hm
    have hc : tip.contains n = true := List.elem_iff.mpr hm
    rw [hc] at hb
    simp at hb
  · intro hm
    cases h : tip.contains n with
    | false => rfl
    | true => exact absurd (List.elem_iff.mp h) hm

/-- Filtering with a stronger predicate keeps at most as many elements. -/
theorem filter_length_le (p q : String → Bool)
    (h : ∀ x, p x = true → q x = true) :
    ∀ l : List String, (l.filter p).length ≤ (l.filter q).length := by
  intro l
  induction l with
  | nil => exact Nat.le_refl _
  | cons a l ih =>
    rw [List.filter_cons, List.filter_cons]
    cases hp : p a with
    | true =>
      rw [h a hp]
      simpa using ih
    | false =>
      cases hq : q a with
      | true => simpa using Nat.le_succ_of_le ih
      | false => simpa using ih

/-- Filtering with a strictly stronger predicate (witnessed by a dropped
element) keeps strictly fewer elements. -/
theorem filter_length_lt (p q : String → Bool)
    (h : ∀ x, p x = true → q x = true) (x : String) :
    ∀ l : List String, x ∈ l → p x = false → q x = true →
      (l.filter p).length < (l.filter q).length := by
  intro l
  induction l with
  | nil => intro hx; simp at hx
  | cons a l ih =>
    intro hx hpx hqx
    rw [List.filter_cons, List.filter_cons]
    by_cases hax : a = x
    · rw [hax, hpx, hqx]
      simpa using Nat.lt_succ_of_le (filter_length_le p q h l)
    · have hxl : x ∈ l := by
        rcases List.mem_cons.mp hx with h1 | h1
        · exact absurd h1.symm hax
        · exact h1
      cases hp : p a with
      | true =>
        rw [h a hp]
        simpa using Nat.succ_lt_succ (ih hxl hpx hqx)
      | false =>
        cases hq : q a with
        | true => simpa using Nat.lt_succ_of_lt (ih hxl hpx hqx)
        | false => simpa using ih hxl hpx hqx

/-- Updating a task in place keeps the key list. -/
theorem updateTask_keys (l : List (String × Task)) (k : String)
    (f : Task → Task) : (updateTask l k f).map Prod.fst = l.map Prod.fst := by
  unfold updateTask
  rw [List.map_map]
  apply List.map_congr_left
  intro e _
  by_cases he : e.1 = k
  · simp [he]
  · simp [he]

/-- Lookup through an in-place task update. -/
theorem updateTask_lookup : ∀ (l : List (String × Task)) (k : String)
    (f : Task → Task) (p : String),
    (updateTask l k f).lookup p =
      if p = k then (l.lookup p).map f else l.lookup p := by
  intro l k f
  induction l with
  | nil =>
    intro p
    by_cases hp : p = k <;> simp [updateTask, List.lookup, hp]
  | cons e rest ih =>
    intro p
    by_cases he : e.1 = k
    · have hstep : updateTask (e :: rest) k f =
          (e.1, f e.2) :: updateTask rest k f := by
        simp [updateTask, he]
      rw [hstep, lookup_cons_g, lookup_cons_g]
      by_cases hp : p = e.1
      · rw [if_pos hp, if_pos (hp.trans he), if_pos hp]
        rfl
      · rw [if_neg hp, if_neg hp]
        exact ih p
    · have hstep : updateTask (e :: rest) k f = e :: updateTask rest k f := by
        simp [updateTask, he]
      rw [hstep, lookup_cons_g, lookup_cons_g]
      by_cases hp : p = e.1
      · rw [if_pos hp, if_pos hp, if_neg (fun hpk => he (hp.symm.trans hpk))]
      · rw [if_neg hp, if_neg hp]
        exact ih p

/-- Entries of a rule-table insert are old entries or the inserted pair. -/
theorem insertRuleTable_mem : ∀ (l : List (String × HexRule)) (k : String)
    (v : HexRule) (e : String × HexRule),
    e ∈ insertRuleTable l k v → e ∈ l ∨ e = (k, v) := by
  intro l k v
  induction l with
  | nil =>
    intro e he
    simp [insertRuleTable] at he
    exact Or.inr he
  | cons f rest ih =>
    intro e he
    rw [insertRuleTable] at he
    by_cases hk : f.1 = k
    · rw [if_pos hk] at he
      rcases List.mem_cons.mp he with h1 | h1
      · exact Or.inr h1
      · exact Or.inl (List.mem_cons_of_mem _ h1)
    · rw [if_neg hk] at he
      rcases List.mem_cons.mp he with h1 | h1
      · exact Or.inl (h1 ▸ List.mem_cons_self _ _)
      · rcases ih e h1 with h2 | h2
        · exact Or.inl (List.mem_cons_of_mem _ h2)
        · exact Or.inr h2

/-- A rule-table insert grows the table by at most one entry. -/
theorem insertRuleTable_length : ∀ (l : List (String × HexRule)) (k : String)
    (v : HexRule), (insertRuleTable l k v).length ≤ l.length + 1 := by
  intro l k v
  induction l with
  | nil => simp [insertRuleTable]
  | cons f rest ih =>
    rw [insertRuleTable]
    by_cases hk : f.1 = k
    · rw [if_pos hk]
      simp
    · rw [if_neg hk]
      simpa using ih

/-- Every entry of the planner's precomputed rule table is a rule of the
file, keyed by its name. -/
theorem plannerNew_ruleMap_mem (hexFile : HexmakeFile) :
    ∀ e ∈ (PlannerSt.new hexFile).ruleMap,
      ∃ r ∈ hexFile.rules, e = (r.name, r) := by
  have key : ∀ (rules : List HexRule)
      (acc : List (String × HexRule) × List (String × String)),
      ∀ e ∈ (rules.foldl
          (fun (acc : List (String × HexRule) × List (String × String)) rule =>
            (insertRuleTable acc.1 rule.name rule,
             rule.outputs.foldl (fun m output => insertTable m output rule.name)
               acc.2))
          acc).1,
        e ∈ acc.1 ∨ ∃ r ∈ rules, e = (r.name, r) := by
    intro rules
    induction rules with
    | nil =>
      intro acc e he
      exact Or.inl he
    | cons r rest ih =>
      intro acc e he
      rw [List.foldl_cons] at he
      rcases ih _ e he with h1 | h1
      · rcases insertRuleTable_mem _ _ _ _ h1 with h2 | h2
        · exact Or.inl h2
        · exact Or.inr ⟨r, List.mem_cons_self _ _, h2⟩
      · obtain ⟨r2, hr2, he2⟩ := h1
        exact Or.inr ⟨r2, List.mem_cons_of_mem _ hr2, he2⟩
  intro e he
  rcases key hexFile.rules ([], []) e he with h | h
  · simp at h
  · exact h

/-- The rule table has at most one entry per rule of the file. -/
theorem plannerNew_ruleMap_length (hexFile : HexmakeFile) :
    (PlannerSt.new hexFile).ruleMap.length ≤ hexFile.rules.length := by
  have key : ∀ (rules : List HexRule)
      (acc : List (String × HexRule) × List (String × String)),
      (rules.foldl
          (fun (acc : List (String × HexRule) × List (String × String)) rule =>
            (insertRuleTable acc.1 rule.name rule,
             rule.outputs.foldl (fun m output => insertTable m output rule.name)
               acc.2))
          acc).1.length ≤ acc.1.length + rules.length := by
    intro rules
    induction rules with
    | nil => intro acc; simp
    | cons r rest ih =>
      intro acc
      rw [List.foldl_cons]
      calc _ ≤ (insertRuleTable acc.1 r.name r).length + rest.length := ih _
        _ ≤ (acc.1.length + 1) + rest.length :=
          Nat.add_le_add_right (insertRuleTable_length _ _ _) _
        _ = acc.1.length + (r :: rest).length := by
          rw [List.length_cons]
          omega
  have h := key hexFile.rules ([], [])
  simpa using h

/-- The inputs loop never reports a successful one-target plan through its
error side. -/
theorem planInputsF_ne_inr_ok (pot : PlannerSt → String → List String → PlanRes) :
    ∀ (inputs : List String) (st : PlannerSt) (task : Task) (tip : List String)
      (r : String) (s : PlannerSt),
      planInputsF pot st task inputs tip ≠ .inr (.ok r s) := by
  intro inputs
  induction inputs with
  | nil =>
    intro st task tip r s h
    rw [planInputsF] at h
    cases h
  | cons input rest ih =>
    intro st task tip r s h
    rw [planInputsF] at h
    by_cases hio : isOutput input = true
    · rw [if_pos hio] at h
      cases hres : pot st input tip with
      | ok r1 st1 =>
        rw [hres] at h
        have h2 : (if (st1.taskForRule.lookup r1).isSome = true then
            planInputsF pot
              { st1 with taskForRule := (addDependency task r1 st1.taskForRule).2 }
              (addDependency task r1 st1.taskForRule).1 rest tip
          else .inr .abort) = .inr (.ok r s) := h
        by_cases hs : (st1.taskForRule.lookup r1).isSome = true
        · rw [if_pos hs] at h2
          exact ih _ _ _ _ _ h2
        · rw [if_neg hs] at h2
          cases h2
      | diag msg =>
        rw [hres] at h
        cases h
      | abort =>
        rw [hres] at h
        cases h
      | fuelOut =>
        rw [hres] at h
        cases h
    · rw [if_neg hio] at h
      exact ih _ _ _ _ _ h

/-- The shape of `addDependency`: either the edge is already recorded and
nothing changes, or both directions are pushed and the counter is bumped. -/
theorem addDependency_spec (t : Task) (n : String)
    (tasks : List (String × Task)) :
    (t.dependsOnRule n = true ∧ addDependency t n tasks = (t, tasks)) ∨
    (t.dependsOnRule n = false ∧
      (addDependency t n tasks).1 =
        { t with dependsOn := t.dependsOn ++ [n]
                 unbuiltDependencies := t.unbuiltDependencies + 1 } ∧
      (addDependency t n tasks).2 =
        updateTask tasks n fun td =>
          { td with usedBy := td.usedBy ++ [t.rule.name] }) := by
  unfold addDependency
  by_cases h : t.dependsOnRule n = true
  · rw [if_pos h]
    exact Or.inl ⟨h, rfl⟩
  · rw [if_neg h]
    exact Or.inr ⟨Bool.eq_false_iff.mpr h, rfl, rfl⟩

/-- Adding a dependency does not change the task map's key list. -/
theorem addDependency_keys (t : Task) (n : String)
    (tasks : List (String × Task)) :
    ((addDependency t n tasks).2).map Prod.fst = tasks.map Prod.fst := by
  unfold addDependency
  by_cases h : t.dependsOnRule n = true
  · rw [if_pos h]
  · rw [if_neg h]
    show (updateTask tasks n fun td =>
      { td with usedBy := td.usedBy ++ [t.rule.name] }).map Prod.fst =
        tasks.map Prod.fst
    exact updateTask_keys tasks n _

/-- Inversion of a successful `planOneTarget` call at positive fuel: the
target is a valid path, the resolved rule name is not on the in-progress
stack, and either its task already existed (state unchanged) or the rule was
found, its inputs planned, and the new task appended. -/
theorem planOneTarget_ok_inversion (fuel : Nat) (st : PlannerSt)
    (target : String) (tip : List String) (r : String) (st' : PlannerSt)
    (h : planOneTarget (fuel + 1) st target tip = .ok r st') :
    hexPathValid target = true ∧
    tip.contains r = false ∧
    (((st.taskForRule.lookup r).isSome = true ∧ st' = st) ∨
     ((st.taskForRule.lookup r).isSome = false ∧
      ∃ rule task st1,
        st.ruleMap.lookup r = some rule ∧
        planInputsF (planOneTarget fuel) st (Task.new rule) rule.inputs
          (r :: tip) = .inl (task, st1) ∧
        st' = { st1 with
          taskForRule := st1.taskForRule ++ [(r, task)] })) := by
  rw [planOneTarget] at h
  by_cases hval : hexPathValid target = true
  case neg =>
    rw [if_neg hval] at h
    cases h
  case pos =>
    rw [if_pos hval] at h
    refine ⟨hval, ?_⟩
    have h2 : (match (if isOutput target = true then
          match st.ruleByOutput.lookup target with
          | some ruleName => Sum.inl ruleName
          | none => Sum.inr ("No rule exists to build `" ++ target ++ "`")
        else Sum.inl target : Sum String String) with
      | .inr msg => PlanRes.diag msg
      | .inl ruleName =>
        if tip.contains ruleName = true then
          PlanRes.diag ("Rule cycle involving rule `" ++ ruleName ++ "`")
        else
          if (st.taskForRule.lookup ruleName).isSome = true then
            PlanRes.ok ruleName st
          else
            match st.ruleMap.lookup ruleName with
            | none => PlanRes.diag ("No rule exists named `" ++ ruleName ++ "`")
            | some rule =>
              match planInputsF (planOneTarget fuel) st (Task.new rule)
                  rule.inputs (ruleName :: tip) with
              | .inr res => res
              | .inl (task, st2) =>
                PlanRes.ok ruleName
                  { st2 with
                    taskForRule := st2.taskForRule ++ [(ruleName, task)] }) =
        PlanRes.ok r st' := h
    cases hsum : (if isOutput target = true then
        match st.ruleByOutput.lookup target with
        | some ruleName => Sum.inl ruleName
        | none => Sum.inr ("No rule exists to build `" ++ target ++ "`")
      else Sum.inl target : Sum String String) with
    | inr msg =>
      rw [hsum] at h2
      cases h2
    | inl ruleName =>
      rw [hsum] at h2
      have h3 : (if tip.contains ruleName = true then
          PlanRes.diag ("Rule cycle involving rule `" ++ ruleName ++ "`")
        else
          if (st.taskForRule.lookup ruleName).isSome = true then
            PlanRes.ok ruleName st
          else
            match st.ruleMap.lookup ruleName with
            | none => PlanRes.diag ("No rule exists named `" ++ ruleName ++ "`")
            | some rule =>
              match planInputsF (planOneTarget fuel) st (Task.new rule)
                  rule.inputs (ruleName :: tip) with
              | .inr res => res
              | .inl (task, st2) =>
                PlanRes.ok ruleName
                  { st2 with
                    taskForRule := st2.taskForRule ++ [(ruleName, task)] }) =
          PlanRes.ok r st' := h2
      by_cases hcyc : tip.contains ruleName = true
      · rw [if_pos hcyc] at h3
        cases h3
      · rw [if_neg hcyc] at h3
        by_cases hsome : (st.taskForRule.lookup ruleName).isSome = true
        · rw [if_pos hsome] at h3
          injection h3 with hr hst
          subst hr
          exact ⟨Bool.eq_false_iff.mpr hcyc, Or.inl ⟨hsome, hst.symm⟩⟩
        · rw [if_neg hsome] at h3
          cases hrm : st.ruleMap.lookup ruleName with
          | none =>
            rw [hrm] at h3
            cases h3
          | some rule =>
            rw [hrm] at h3
            have h4 : (match planInputsF (planOneTarget fuel) st (Task.new rule)
                rule.inputs (ruleName :: tip) with
              | .inr res => res
              | .inl (task, st2) =>
                PlanRes.ok ruleName
                  { st2 with
                    taskForRule := st2.taskForRule ++ [(ruleName, task)] }) =
                PlanRes.ok r st' := h3
            cases hpi : planInputsF (planOneTarget fuel) st (Task.new rule)
                rule.inputs (ruleName :: tip) with
            | inr res =>
              rw [hpi] at h4
              have h5 : res = PlanRes.ok r st' := h4
              exact absurd (by rw [hpi, h5] :
                  planInputsF (planOneTarget fuel) st (Task.new rule)
                    rule.inputs (ruleName :: tip) = .inr (.ok r st'))
                (planInputsF_ne_inr_ok (planOneTarget fuel) rule.inputs st
                  (Task.new rule) (ruleName :: tip) r st')
            | inl pr =>
              rw [hpi] at h4
              have h5 : PlanRes.ok ruleName
                  { pr.2 with
                    taskForRule := pr.2.taskForRule ++ [(ruleName, pr.1)] } =
                  PlanRes.ok r st' := h4
              injection h5 with hr hst
              subst hr
              exact ⟨Bool.eq_false_iff.mpr hcyc,
                Or.inr ⟨Bool.eq_false_iff.mpr hsome, rule, pr.1, pr.2, hrm,
                  by rw [hpi], hst.symm⟩⟩

/-- Success of a one-target planner leaves the rule tables unchanged. -/
def PotTables (pot : PlannerSt → String → List String → PlanRes) : Prop :=
  ∀ st target tip r st', pot st target tip = .ok r st' →
    st'.ruleMap = st.ruleMap ∧ st'.ruleByOutput = st.ruleByOutput

/-- The inputs loop preserves the rule tables when its target planner does. -/
theorem planInputsF_tables (pot : PlannerSt → String → List String → PlanRes)
    (hpot : PotTables pot) :
    ∀ (inputs : List String) (st : PlannerSt) (task : Task) (tip : List String)
      (t' : Task) (st' : PlannerSt),
      planInputsF pot st task inputs tip = .inl (t', st') →
      st'.ruleMap = st.ruleMap ∧ st'.ruleByOutput = st.ruleByOutput := by
  intro inputs
  induction inputs with
  | nil =>
    intro st task tip t' st' h
    rw [planInputsF] at h
    injection h with h1
    injection h1 with h2 h3
    rw [← h3]
    exact ⟨rfl, rfl⟩
  | cons input rest ih =>
    intro st task tip t' st' h
    rw [planInputsF] at h
    by_cases hio : isOutput input = true
    · rw [if_pos hio] at h
      cases hres : pot st input tip with
      | ok r1 st1 =>
        rw [hres] at h
        have h2 : (if (st1.taskForRule.lookup r1).isSome = true then
            planInputsF pot
              { st1 with
                taskForRule := (addDependency task r1 st1.taskForRule).2 }
              (addDependency task r1 st1.taskForRule).1 rest tip
          else .inr .abort) = .inl (t', st') := h
        by_cases hs : (st1.taskForRule.lookup r1).isSome = true
        · rw [if_pos hs] at h2
          have hrec := ih _ _ _ _ _ h2
          have htab := hpot _ _ _ _ _ hres
          exact ⟨hrec.1.trans htab.1, hrec.2.trans htab.2⟩
        · rw [if_neg hs] at h2
          cases h2
      | diag msg =>
        rw [hres] at h
        cases h
      | abort =>
        rw [hres] at h
        cases h
      | fuelOut =>
        rw [hres] at h
        cases h
    · rw [if_neg hio] at h
      exact ih _ _ _ _ _ h

/-- `planOneTarget` preserves the rule tables at every fuel level. -/
theorem planOneTarget_tables : ∀ fuel, PotTables (planOneTarget fuel) := by
  intro fuel
  induction fuel with
  | zero =>
    intro st target tip r st' h
    rw [planOneTarget] at h
    cases h
  | succ fuel ih =>
    intro st target tip r st' h
    obtain ⟨-, -, hcase⟩ := planOneTarget_ok_inversion fuel st target tip r st' h
    rcases hcase with ⟨-, rfl⟩ | ⟨-, rule, task, st1, -, hpi, rfl⟩
    · exact ⟨rfl, rfl⟩
    · have hrec := planInputsF_tables (planOneTarget fuel) ih _ _ _ _ _ _ hpi
      exact ⟨hrec.1, hrec.2⟩

/-- Success of a one-target planner creates a task for the returned rule
name, only adds tasks, and adds no task named on the in-progress stack. -/
def PotKeys (pot : PlannerSt → String → List String → PlanRes) : Prop :=
  ∀ st target tip r st', pot st target tip = .ok r st' →
    r ∈ st'.taskForRule.map Prod.fst ∧
    (∀ n ∈ st.taskForRule.map Prod.fst, n ∈ st'.taskForRule.map Prod.fst) ∧
    (∀ n ∈ st'.taskForRule.map Prod.fst,
      n ∈ st.taskForRule.map Prod.fst ∨ n ∉ tip)

/-- The inputs loop only adds tasks, none named on the in-progress stack,
when its target planner does. -/
theorem planInputsF_keys (pot : PlannerSt → String → List String → PlanRes)
    (hpot : PotKeys pot) :
    ∀ (inputs : List String) (st : PlannerSt) (task : Task) (tip : List String)
      (t' : Task) (st' : PlannerSt),
      planInputsF pot st task inputs tip = .inl (t', st') →
      (∀ n ∈ st.taskForRule.map Prod.fst, n ∈ st'.taskForRule.map Prod.fst) ∧
      (∀ n ∈ st'.taskForRule.map Prod.fst,
        n ∈ st.taskForRule.map Prod.fst ∨ n ∉ tip) := by
  intro inputs
  induction inputs with
  | nil =>
    intro st task tip t' st' h
    rw [planInputsF] at h
    injection h with h1
    injection h1 with h2 h3
    rw [← h3]
    exact ⟨fun n hn => hn, fun n hn => Or.inl hn⟩
  | cons input rest ih =>
    intro st task tip t' st' h
    rw [planInputsF] at h
    by_cases hio : isOutput input = true
    · rw [if_pos hio] at h
      cases hres : pot st input tip with
      | ok r1 st1 =>
        rw [hres] at h
        have h2 : (if (st1.taskForRule.lookup r1).isSome = true then
            planInputsF pot
              { st1 with
                taskForRule := (addDependency task r1 st1.taskForRule).2 }
              (addDependency task r1 st1.taskForRule).1 rest tip
          else .inr .abort) = .inl (t', st') := h
        by_cases hs : (st1.taskForRule.lookup r1).isSome = true
        · rw [if_pos hs] at h2
          have hrec := ih _ _ _ _ _ h2
          have hkeys := hpot _ _ _ _ _ hres
          have hupd : ((addDependency task r1 st1.taskForRule).2).map Prod.fst =
              st1.taskForRule.map Prod.fst := addDependency_keys _ _ _
          constructor
          · intro n hn
            apply hrec.1
            show n ∈ ((addDependency task r1 st1.taskForRule).2).map Prod.fst
            rw [hupd]
            exact hkeys.2.1 n hn
          · intro n hn
            rcases hrec.2 n hn with hn1 | hn1
            · have hn2 : n ∈ st1.taskForRule.map Prod.fst := by
                rw [← hupd]
                exact hn1
              exact hkeys.2.2 n hn2
            · exact Or.inr hn1
        · rw [if_neg hs] at h2
          cases h2
      | diag msg =>
        rw [hres] at h
        cases h
      | abort =>
        rw [hres] at h
        cases h
      | fuelOut =>
        rw [hres] at h
        cases h
    · rw [if_neg hio] at h
      exact ih _ _ _ _ _ h

/-- `planOneTarget` satisfies the key discipline at every fuel level. -/
theorem planOneTarget_keys : ∀ fuel, PotKeys (planOneTarget fuel) := by
  intro fuel
  induction fuel with
  | zero =>
    intro st target tip r st' h
    rw [planOneTarget] at h
    cases h
  | succ fuel ih =>
    intro st target tip r st' h
    obtain ⟨-, hcyc, hcase⟩ := planOneTarget_ok_inversion fuel st target tip r st' h
    have hrtip : r ∉ tip := (notContains_iff tip r).mp (by rw [hcyc]; rfl)
    rcases hcase with ⟨hsome, rfl⟩ | ⟨-, rule, task, st1, -, hpi, rfl⟩
    · exact ⟨(lookupG_isSome_iff _ _).mp hsome, fun n hn => hn,
        fun n hn => Or.inl hn⟩
    · have hrec := planInputsF_keys (planOneTarget fuel) ih _ _ _ _ _ _ hpi
      have hkeys' : ({ st1 with
          taskForRule := st1.taskForRule ++ [(r, task)] } :
            PlannerSt).taskForRule.map Prod.fst =
          st1.taskForRule.map Prod.fst ++ [r] := by
        rw [List.map_append]
        rfl
      refine ⟨?_, ?_, ?_⟩
      · rw [hkeys']
        exact List.mem_append_right _ (List.mem_singleton.mpr rfl)
      · intro n hn
        rw [hkeys']
        exact List.mem_append_left _ (hrec.1 n hn)
      · intro n hn
        rw [hkeys'] at hn
        rcases List.mem_append.mp hn with hn1 | hn1
        · rcases hrec.2 n hn1 with hn2 | hn2
          · exact Or.inl hn2
          · exact Or.inr fun hmem => hn2 (List.mem_cons_of_mem _ hmem)
        · rw [List.mem_singleton.mp hn1]
          exact Or.inr hrtip

/-- A singleton lookup pins down the key and value. -/
theorem lookup_singleton {α : Type} {k n : String} {v t : α}
    (h : ([(k, v)] : List (String × α)).lookup n = some t) : n = k ∧ t = v := by
  rw [lookup_cons_g] at h
  by_cases hn : n = k
  · rw [if_pos hn] at h
    injection h with h1
    exact ⟨hn, h1.symm⟩
  · rw [if_neg hn] at h
    simp [List.lookup] at h

/-- A failed dependency test means the name is not among the dependencies. -/
theorem not_mem_of_dependsOnRule_false {t : Task} {n : String}
    (h : t.dependsOnRule n = false) : n ∉ t.dependsOn := by
  intro hm
  have hc : t.dependsOnRule n = true := List.elem_iff.mpr hm
  rw [hc] at h
  cases h

/-- Task-map evolution is reflexive. -/
theorem tasksEvolve_refl (l : List (String × Task)) : TasksEvolve l l :=
  fun _ t h => ⟨t, h, rfl, rfl, rfl, rfl, fun _ hu => hu⟩

/-- Task-map evolution composes. -/
theorem tasksEvolve_trans {a b c : List (String × Task)}
    (h1 : TasksEvolve a b) (h2 : TasksEvolve b c) : TasksEvolve a c := by
  intro n t hl
  obtain ⟨t2, hl2, hr2, hd2, hu2, hb2, hub2⟩ := h1 n t hl
  obtain ⟨t3, hl3, hr3, hd3, hu3, hb3, hub3⟩ := h2 n t2 hl2
  exact ⟨t3, hl3, hr3.trans hr2, hd3.trans hd2, hu3.trans hu2, hb3.trans hb2,
    fun u hu => hub3 u (hub2 u hu)⟩

/-- Entries of an in-place update come from entries of the original map. -/
theorem updateTask_entries {tasks : List (String × Task)} {k : String}
    {f : Task → Task} {e2 : String × Task} (h : e2 ∈ updateTask tasks k f) :
    ∃ e ∈ tasks, e2 = e ∨ e2 = (e.1, f e.2) := by
  unfold updateTask at h
  obtain ⟨e, he, hmap⟩ := List.mem_map.mp h
  by_cases hek : e.1 = k
  · rw [if_pos hek] at hmap
    exact ⟨e, he, Or.inr hmap.symm⟩
  · rw [if_neg hek] at hmap
    exact ⟨e, he, Or.inl hmap.symm⟩

/-- Recording a new dependency edge preserves the task-map invariant (with
the pending task's extra edge set extended accordingly), preserves the
pending task's local wellformedness, and only evolves the map. -/
theorem addDependency_step (tasks : List (String × Task)) (task : Task)
    (r1 : String) (extra : List (String × String))
    (hInv : TasksInv tasks (extra ++ pendEdges task))
    (hPend : PendOK tasks task)
    (hs : (tasks.lookup r1).isSome = true) :
    TasksInv (addDependency task r1 tasks).2
        (extra ++ pendEdges (addDependency task r1 tasks).1) ∧
    PendOK (addDependency task r1 tasks).2 (addDependency task r1 tasks).1 ∧
    (addDependency task r1 tasks).1.rule = task.rule ∧
    TasksEvolve tasks (addDependency task r1 tasks).2 := by
  rcases addDependency_spec task r1 tasks with ⟨-, heq⟩ | ⟨hdep, h1, h2⟩
  · rw [heq]
    exact ⟨hInv, hPend, rfl, tasksEvolve_refl tasks⟩
  · have hr1mem : r1 ∉ task.dependsOn := not_mem_of_dependsOnRule_false hdep
    rw [h1, h2]
    obtain ⟨hnd, hent, hrank, hfwd, hbwd⟩ := hInv
    obtain ⟨hcnt, hnodup, hblt, huse, hnin, hfwdP⟩ := hPend
    have hkeys : (updateTask tasks r1 fun td =>
        { td with usedBy := td.usedBy ++ [task.rule.name] }).map Prod.fst =
        tasks.map Prod.fst := updateTask_keys _ _ _
    have hpe : pendEdges
        { task with
            dependsOn := task.dependsOn ++ [r1]
            unbuiltDependencies := task.unbuiltDependencies + 1 } =
        pendEdges task ++ [(task.rule.name, r1)] := by
      show (task.dependsOn ++ [r1]).map (fun d => (task.rule.name, d)) =
        task.dependsOn.map (fun d => (task.rule.name, d)) ++
          [(task.rule.name, r1)]
      rw [List.map_append]
      rfl
    have hEsub : ∀ x, x ∈ extra ++ pendEdges task →
        x ∈ extra ++ (pendEdges task ++ [(task.rule.name, r1)]) := by
      intro x hx
      rcases List.mem_append.mp hx with hx1 | hx1
      · exact List.mem_append_left _ hx1
      · exact List.mem_append_right _ (List.mem_append_left _ hx1)
    have hlift : ∀ (u : String) (tu : Task), tasks.lookup u = some tu →
        ∃ tu2, (updateTask tasks r1 fun td =>
            { td with usedBy := td.usedBy ++ [task.rule.name] }).lookup u =
          some tu2 ∧ tu2.dependsOn = tu.dependsOn := by
      intro u tu hlu
      rw [updateTask_lookup]
      by_cases hur : u = r1
      · rw [if_pos hur, hlu]
        exact ⟨_, rfl, rfl⟩
      · rw [if_neg hur, hlu]
        exact ⟨tu, rfl, rfl⟩
    rw [hpe]
    refine ⟨⟨?_, ?_, ?_, ?_, ?_⟩, ⟨?_, ?_, ?_, ?_, ?_, ?_⟩, rfl, ?_⟩
    · rw [hkeys]
      exact hnd
    · intro e2 he2
      obtain ⟨e, he, hcase⟩ := updateTask_entries he2
      rcases hcase with hcase | hcase
      · rw [hcase]
        exact hent e he
      · rw [hcase]
        exact hent e he
    · intro n t d hl hd
      rw [updateTask_lookup] at hl
      rw [hkeys]
      by_cases hn : n = r1
      · rw [if_pos hn] at hl
        cases hlr : tasks.lookup n with
        | none =>
          rw [hlr] at hl
          cases hl
        | some t0 =>
          rw [hlr] at hl
          injection hl with hl1
          have hd0 : d ∈ t0.dependsOn := by
            rw [← hl1] at hd
            exact hd
          exact hrank n t0 d hlr hd0
      · rw [if_neg hn] at hl
        exact hrank n t d hl hd
    · intro n t d hl hd
      rw [updateTask_lookup] at hl
      by_cases hn : n = r1
      · rw [if_pos hn] at hl
        cases hlr : tasks.lookup n with
        | none =>
          rw [hlr] at hl
          cases hl
        | some t0 =>
          rw [hlr] at hl
          injection hl with hl1
          have hd0 : d ∈ t0.dependsOn := by
            rw [← hl1] at hd
            exact hd
          obtain ⟨td, hltd, hmem⟩ := hfwd n t0 d hlr hd0
          obtain ⟨td2, hltd2, hdeps2⟩ := hlift d td hltd
          refine ⟨td2, hltd2, ?_⟩
          by_cases hdr : d = r1
          · rw [updateTask_lookup, if_pos hdr, hltd] at hltd2
            injection hltd2 with hltd3
            rw [← hltd3]
            exact List.mem_append_left _ hmem
          · rw [updateTask_lookup, if_neg hdr, hltd] at hltd2
            injection hltd2 with hltd3
            rw [← hltd3]
            exact hmem
      · rw [if_neg hn] at hl
        obtain ⟨td, hltd, hmem⟩ := hfwd n t d hl hd
        by_cases hdr : d = r1
        · refine ⟨_, by rw [updateTask_lookup, if_pos hdr, hltd]; rfl, ?_⟩
          exact List.mem_append_left _ hmem
        · exact ⟨td, by rw [updateTask_lookup, if_neg hdr, hltd], hmem⟩
    · intro n t u hl hu
      rw [updateTask_lookup] at hl
      have hmatch : ∀ tu0, tasks.lookup u = some tu0 → n ∈ tu0.dependsOn →
          (∃ tu, (updateTask tasks r1 fun td =>
              { td with usedBy := td.usedBy ++ [task.rule.name] }).lookup u =
            some tu ∧ n ∈ tu.dependsOn) := by
        intro tu0 hlu hmem
        obtain ⟨tu2, hltu2, hdeps2⟩ := hlift u tu0 hlu
        refine ⟨tu2, hltu2, ?_⟩
        rw [hdeps2]
        exact hmem
      by_cases hn : n = r1
      · rw [if_pos hn] at hl
        cases hlr : tasks.lookup n with
        | none =>
          rw [hlr] at hl
          cases hl
        | some t0 =>
          rw [hlr] at hl
          injection hl with hl1
          have hu0 : u ∈ t0.usedBy ++ [task.rule.name] := by
            rw [← hl1] at hu
            exact hu
          rcases List.mem_append.mp hu0 with hu1 | hu1
          · rcases hbwd n t0 u hlr hu1 with ⟨tu, hlu, hmem⟩ | hex
            · exact Or.inl (hmatch tu hlu hmem)
            · exact Or.inr (hEsub _ hex)
          · right
            rw [List.mem_singleton.mp hu1, hn]
            exact List.mem_append_right _
              (List.mem_append_right _ (List.mem_singleton.mpr rfl))
      · rw [if_neg hn] at hl
        rcases hbwd n t u hl hu with ⟨tu, hlu, hmem⟩ | hex
        · exact Or.inl (hmatch tu hlu hmem)
        · exact Or.inr (hEsub _ hex)
    · show task.unbuiltDependencies + 1 = (task.dependsOn ++ [r1]).length
      rw [hcnt, List.length_append]
      rfl
    · show (task.dependsOn ++ [r1]).Nodup
      rw [List.nodup_append]
      exact ⟨hnodup, List.nodup_singleton _,
        fun a ha hb => hr1mem (by rw [← List.mem_singleton.mp hb]; exact ha)⟩
    · exact hblt
    · exact huse
    · show task.rule.name ∉ (updateTask tasks r1 fun td =>
        { td with usedBy := td.usedBy ++ [task.rule.name] }).map Prod.fst
      rw [hkeys]
      exact hnin
    · intro d hd
      have hd2 : d ∈ task.dependsOn ++ [r1] := hd
      rcases List.mem_append.mp hd2 with hdl | hdl
      · obtain ⟨td, hltd, hmem⟩ := hfwdP d hdl
        have hdne : ¬ d = r1 := fun he => hr1mem (by rw [← he]; exact hdl)
        exact ⟨td, by rw [updateTask_lookup, if_neg hdne, hltd], hmem⟩
      · rw [List.mem_singleton.mp hdl]
        obtain ⟨t0, ht0⟩ := Option.isSome_iff_exists.mp hs
        refine ⟨_, by rw [updateTask_lookup, if_pos rfl, ht0]; rfl, ?_⟩
        show task.rule.name ∈ t0.usedBy ++ [task.rule.name]
        exact List.mem_append_right _ (List.mem_singleton.mpr rfl)
    · intro n t hl
      rw [updateTask_lookup]
      by_cases hn : n = r1
      · rw [if_pos hn, hl]
        exact ⟨_, rfl, rfl, rfl, rfl, rfl, fun u hu => List.mem_append_left _ hu⟩
      · rw [if_neg hn, hl]
        exact ⟨t, rfl, rfl, rfl, rfl, rfl, fun u hu => hu⟩

/-- Appending the completed pending task to the map turns its pending edges
into matched edges and preserves the invariant. -/
theorem insert_step (tasks : List (String × Task)) (task : Task) (r : String)
    (extra : List (String × String))
    (hInv : TasksInv tasks (extra ++ pendEdges task))
    (hPend : PendOK tasks task)
    (hname : task.rule.name = r) :
    TasksInv (tasks ++ [(r, task)]) extra ∧
    TasksEvolve tasks (tasks ++ [(r, task)]) := by
  obtain ⟨hnd, hent, hrank, hfwd, hbwd⟩ := hInv
  obtain ⟨hcnt, hnodup, hblt, huse, hnin, hfwdP⟩ := hPend
  have hnr : r ∉ tasks.map Prod.fst := by
    rw [← hname]
    exact hnin
  have hk : (tasks ++ [(r, task)]).map Prod.fst = tasks.map Prod.fst ++ [r] := by
    rw [List.map_append]
    rfl
  constructor
  · refine ⟨?_, ?_, ?_, ?_, ?_⟩
    · rw [hk]
      exact List.nodup_append.mpr ⟨hnd, List.nodup_singleton _,
        fun a ha hb => hnr (by rw [← List.mem_singleton.mp hb]; exact ha)⟩
    · intro e he
      rcases List.mem_append.mp he with he1 | he1
      · exact hent e he1
      · rw [List.mem_singleton.mp he1]
        exact ⟨hname, hcnt, hnodup, hblt⟩
    · intro n t d hl hd
      rw [hk]
      rcases lookupG_append_cases hl with hl1 | ⟨hnotin, hl2⟩
      · obtain ⟨hdin, hlt⟩ := hrank n t d hl1 hd
        have hnin2 : n ∈ tasks.map Prod.fst :=
          (lookupG_isSome_iff _ _).mp (by rw [hl1]; rfl)
        refine ⟨List.mem_append_left _ hdin, ?_⟩
        rw [keyIdx_append_of_mem _ _ _ hdin, keyIdx_append_of_mem _ _ _ hnin2]
        exact hlt
      · obtain ⟨hn, ht⟩ := lookup_singleton hl2
        subst hn
        rw [ht] at hd
        obtain ⟨td, hltd, -⟩ := hfwdP d hd
        have hdin : d ∈ tasks.map Prod.fst :=
          (lookupG_isSome_iff _ _).mp (by rw [hltd]; rfl)
        refine ⟨List.mem_append_left _ hdin, ?_⟩
        rw [keyIdx_append_of_mem _ _ _ hdin,
          keyIdx_append_self (tasks.map Prod.fst) [] n hnotin]
        exact keyIdx_lt_length_of_mem _ _ hdin
    · intro n t d hl hd
      rcases lookupG_append_cases hl with hl1 | ⟨hnotin, hl2⟩
      · obtain ⟨td, hltd, hmem⟩ := hfwd n t d hl1 hd
        exact ⟨td, lookupG_append_left _ hltd, hmem⟩
      · obtain ⟨hn, ht⟩ := lookup_singleton hl2
        subst hn
        rw [ht] at hd
        obtain ⟨td, hltd, hmem⟩ := hfwdP d hd
        refine ⟨td, lookupG_append_left _ hltd, ?_⟩
        rw [← hname]
        exact hmem
    · intro n t u hl hu
      rcases lookupG_append_cases hl with hl1 | ⟨hnotin, hl2⟩
      · rcases hbwd n t u hl1 hu with ⟨tu, hlu, hmem⟩ | hex
        · exact Or.inl ⟨tu, lookupG_append_left _ hlu, hmem⟩
        · rcases List.mem_append.mp hex with hex1 | hpend
          · exact Or.inr hex1
          · obtain ⟨d, hd, heq⟩ := List.mem_map.mp hpend
            injection heq with he1 he2
            left
            have hur : u = r := he1.symm.trans hname
            have hlu2 : (tasks ++ [(r, task)]).lookup u = some task := by
              rw [hur, lookupG_append_right _ hnr, lookup_cons_g, if_pos rfl]
            refine ⟨task, hlu2, ?_⟩
            rw [← he2]
            exact hd
      · obtain ⟨hn, ht⟩ := lookup_singleton hl2
        rw [ht, huse] at hu
        simp at hu
  · intro n t hl
    exact ⟨t, lookupG_append_left _ hl, rfl, rfl, rfl, rfl, fun u hu => hu⟩

/-- Success of a one-target planner preserves the task-map invariant for any
extra edge set, and evolves the map monotonically. -/
def PotInv (pot : PlannerSt → String → List String → PlanRes) : Prop :=
  ∀ st target tip r st' extra, pot st target tip = .ok r st' →
    RuleMapOK st → TasksInv st.taskForRule extra →
    TasksInv st'.taskForRule extra ∧
    TasksEvolve st.taskForRule st'.taskForRule

/-- The inputs loop preserves the invariant, the pending task's local
wellformedness, and the pending task's rule, when its target planner
preserves tables, keys, and the invariant. -/
theorem planInputsF_inv (pot : PlannerSt → String → List String → PlanRes)
    (hpotTab : PotTables pot) (hpotKeys : PotKeys pot) (hpot : PotInv pot) :
    ∀ (inputs : List String) (st : PlannerSt) (task : Task) (tip : List String)
      (t' : Task) (st' : PlannerSt) (extra : List (String × String)),
      planInputsF pot st task inputs tip = .inl (t', st') →
      RuleMapOK st →
      task.rule.name ∈ tip →
      TasksInv st.taskForRule (extra ++ pendEdges task) →
      PendOK st.taskForRule task →
      TasksInv st'.taskForRule (extra ++ pendEdges t') ∧
      PendOK st'.taskForRule t' ∧
      t'.rule = task.rule ∧
      TasksEvolve st.taskForRule st'.taskForRule := by
  intro inputs
  induction inputs with
  | nil =>
    intro st task tip t' st' extra h hRM htip hInv hPend
    rw [planInputsF] at h
    injection h with h1
    injection h1 with h2 h3
    rw [← h2, ← h3]
    exact ⟨hInv, hPend, rfl, tasksEvolve_refl _⟩
  | cons input rest ih =>
    intro st task tip t' st' extra h hRM htip hInv hPend
    rw [planInputsF] at h
    by_cases hio : isOutput input = true
    · rw [if_pos hio] at h
      cases hres : pot st input tip with
      | ok r1 st1 =>
        rw [hres] at h
        have h2 : (if (st1.taskForRule.lookup r1).isSome = true then
            planInputsF pot
              { st1 with
                taskForRule := (addDependency task r1 st1.taskForRule).2 }
              (addDependency task r1 st1.taskForRule).1 rest tip
          else .inr .abort) = .inl (t', st') := h
        by_cases hs : (st1.taskForRule.lookup r1).isSome = true
        · rw [if_pos hs] at h2
          have htab := hpotTab _ _ _ _ _ hres
          have hkeysP := hpotKeys _ _ _ _ _ hres
          obtain ⟨hInv1, hEv1⟩ := hpot _ _ _ _ _ _ hres hRM hInv
          have hRM1 : RuleMapOK st1 := by
            unfold RuleMapOK
            rw [htab.1]
            exact hRM
          have hPend1 : PendOK st1.taskForRule task := by
            obtain ⟨hc, hn, hb, hu, hnm, hf⟩ := hPend
            refine ⟨hc, hn, hb, hu, ?_, ?_⟩
            · intro hmem
              rcases hkeysP.2.2 _ hmem with hin | hout
              · exact hnm hin
              · exact hout htip
            · intro d hd
              obtain ⟨td, hltd, hmemu⟩ := hf d hd
              obtain ⟨td2, hltd2, -, -, -, -, husub⟩ := hEv1 _ _ hltd
              exact ⟨td2, hltd2, husub _ hmemu⟩
          obtain ⟨hInv2, hPend2, hrule2, hEv2⟩ :=
            addDependency_step st1.taskForRule task r1 extra hInv1 hPend1 hs
          have htip2 : (addDependency task r1 st1.taskForRule).1.rule.name ∈
              tip := by
            rw [hrule2]
            exact htip
          have hRM2 : RuleMapOK { st1 with
              taskForRule := (addDependency task r1 st1.taskForRule).2 } := hRM1
          obtain ⟨hInvR, hPendR, hruleR, hEvR⟩ :=
            ih _ _ _ _ _ _ h2 hRM2 htip2 hInv2 hPend2
          exact ⟨hInvR, hPendR, hruleR.trans hrule2,
            tasksEvolve_trans hEv1 (tasksEvolve_trans hEv2 hEvR)⟩
        · rw [if_neg hs] at h2
          cases h2
      | diag msg =>
        rw [hres] at h
        cases h
      | abort =>
        rw [hres] at h
        cases h
      | fuelOut =>
        rw [hres] at h
        cases h
    · rw [if_neg hio] at h
      exact ih _ _ _ _ _ _ h hRM htip hInv hPend

/-- `planOneTarget` preserves the task-map invariant at every fuel level. -/
theorem planOneTarget_inv : ∀ fuel, PotInv (planOneTarget fuel) := by
  intro fuel
  induction fuel with
  | zero =>
    intro st target tip r st' extra h
    rw [planOneTarget] at h
    cases h
  | succ fuel ih =>
    intro st target tip r st' extra h hRM hInv
    obtain ⟨-, -, hcase⟩ := planOneTarget_ok_inversion fuel st target tip r st' h
    rcases hcase with ⟨-, rfl⟩ | ⟨hsome, rule, task, st1, hrm, hpi, rfl⟩
    · exact ⟨hInv, tasksEvolve_refl _⟩
    · have hname : rule.name = r := hRM _ (lookupG_mem hrm)
      have happ : extra ++ pendEdges (Task.new rule) = extra :=
        List.append_nil extra
      have hInv0 : TasksInv st.taskForRule
          (extra ++ pendEdges (Task.new rule)) := by
        rw [happ]
        exact hInv
      have hPend0 : PendOK st.taskForRule (Task.new rule) := by
        refine ⟨rfl, List.nodup_nil, rfl, rfl, ?_, ?_⟩
        · show rule.name ∉ st.taskForRule.map Prod.fst
          rw [hname]
          intro hmem
          have hsome2 := (lookupG_isSome_iff _ _).mpr hmem
          rw [hsome2] at hsome
          cases hsome
        · intro d hd
          simp [Task.new] at hd
      have htip0 : (Task.new rule).rule.name ∈ r :: tip := by
        show rule.name ∈ r :: tip
        rw [hname]
        exact List.mem_cons_self _ _
      obtain ⟨hInv1, hPend1, hrule1, hEv1⟩ :=
        planInputsF_inv (planOneTarget fuel) (planOneTarget_tables fuel)
          (planOneTarget_keys fuel) ih rule.inputs st (Task.new rule)
          (r :: tip) task st1 extra hpi hRM htip0 hInv0 hPend0
      have hname2 : task.rule.name = r := by
        rw [hrule1]
        exact hname
      obtain ⟨hInvIns, hEvIns⟩ :=
        insert_step st1.taskForRule task r extra hInv1 hPend1 hname2
      exact ⟨hInvIns, tasksEvolve_trans hEv1 hEvIns⟩

/-- The empty task map satisfies the invariant. -/
theorem tasksInv_nil : TasksInv [] [] := by
  refine ⟨List.nodup_nil, ?_, ?_, ?_, ?_⟩
  · intro e he
    simp at he
  · intro n t d hl
    simp [List.lookup] at hl
  · intro n t d hl
    simp [List.lookup] at hl
  · intro n t u hl
    simp [List.lookup] at hl

/-- The planner's initial rule table keys each rule by its name. -/
theorem plannerNew_ruleMapOK (hexFile : HexmakeFile) :
    RuleMapOK (PlannerSt.new hexFile) := by
  intro e he
  obtain ⟨r, -, rfl⟩ := plannerNew_ruleMap_mem hexFile e he
  rfl

/-- The loop of `Planner::plan` preserves the task-map invariant into the
returned plan. -/
theorem planTargets_inv : ∀ (targets : List String) (fuel : Nat)
    (st : PlannerSt) (targetRules : List String) (p : BuildPlan),
    planTargets fuel st targetRules targets = .plan p →
    RuleMapOK st → TasksInv st.taskForRule [] →
    TasksInv p.tasks [] := by
  intro targets
  induction targets with
  | nil =>
    intro fuel st targetRules p h hRM hInv
    rw [planTargets] at h
    injection h with h1
    rw [← h1]
    exact hInv
  | cons target rest ih =>
    intro fuel st targetRules p h hRM hInv
    rw [planTargets] at h
    cases hres : planOneTarget fuel st target [] with
    | ok r1 st1 =>
      rw [hres] at h
      have h2 : planTargets fuel st1 (targetRules ++ [r1]) rest = .plan p := h
      have hRM1 : RuleMapOK st1 := by
        unfold RuleMapOK
        rw [(planOneTarget_tables fuel _ _ _ _ _ hres).1]
        exact hRM
      obtain ⟨hInv1, -⟩ := planOneTarget_inv fuel _ _ _ _ _ [] hres hRM hInv
      exact ih fuel st1 _ p h2 hRM1 hInv1
    | diag msg =>
      rw [hres] at h
      have h2 : BuildRes.diag msg = .plan p := h
      cases h2
    | abort =>
      rw [hres] at h
      have h2 : BuildRes.abort = .plan p := h
      cases h2
    | fuelOut =>
      rw [hres] at h
      have h2 : BuildRes.fuelOut = .plan p := h
      cases h2

/-- A dependency edge strictly decreases the insertion rank. -/
theorem taskDep_lt {tasks : List (String × Task)} (hrank : RankOK tasks)
    {a b : String} (h : taskDep tasks a b) :
    keyIdx (tasks.map Prod.fst) b < keyIdx (tasks.map Prod.fst) a := by
  obtain ⟨t, hl, hb⟩ := h
  exact (hrank a t b hl hb).2

/-- A chain of dependency edges strictly decreases the insertion rank. -/
theorem transGen_taskDep_lt {tasks : List (String × Task)}
    (hrank : RankOK tasks) :
    ∀ a b, Relation.TransGen (taskDep tasks) a b →
      keyIdx (tasks.map Prod.fst) b < keyIdx (tasks.map Prod.fst) a := by
  intro a b h
  induction h with
  | single h1 => exact taskDep_lt hrank h1
  | tail h1 h2 ih => exact lt_trans (taskDep_lt hrank h2) ih

/-- C5: whenever `plan_build` returns a plan, the task graph is acyclic (no
rule name reaches itself through `depends_on` edges), every task's
`unbuilt_dependencies` counter equals the length of its `depends_on` list,
and the edge lists are mutually consistent: `d` is in `n`'s `depends_on`
exactly when `n` is in `d`'s `used_by`. -/
theorem plan_build_dag_and_edges (hexFile : HexmakeFile)
    (targets : List String) (p : BuildPlan)
    (h : planBuild hexFile targets = .plan p) :
    (∀ a, ¬ Relation.TransGen (taskDep p.tasks) a a) ∧
    (∀ e ∈ p.tasks, e.2.unbuiltDependencies = e.2.dependsOn.length) ∧
    (∀ n t d, p.tasks.lookup n = some t → d ∈ t.dependsOn →
      ∃ td, p.tasks.lookup d = some td ∧ n ∈ td.usedBy) ∧
    (∀ n t u, p.tasks.lookup n = some t → u ∈ t.usedBy →
      ∃ tu, p.tasks.lookup u = some tu ∧ n ∈ tu.dependsOn) := by
  have hInv : TasksInv p.tasks [] :=
    planTargets_inv targets (hexFile.rules.length + 1) (PlannerSt.new hexFile)
      [] p h (plannerNew_ruleMapOK hexFile) tasksInv_nil
  obtain ⟨-, hent, hrank, hfwd, hbwd⟩ := hInv
  refine ⟨?_, ?_, hfwd, ?_⟩
  · intro a hcyc
    exact lt_irrefl _ (transGen_taskDep_lt hrank a a hcyc)
  · intro e he
    exact (hent e he).2.1
  · intro n t u hl hu
    rcases hbwd n t u hl hu with hok | hex
    · exact hok
    · simp at hex

set_option maxRecDepth 40000 in
/-- Witness for the plan-graph properties at a concrete two-rule file. -/
theorem plan_build_dag_and_edges_witness :
    planBuild fileC5w ["out/foo"] =
      .plan (planOf (planBuild fileC5w ["out/foo"])) ∧
    (∀ e ∈ (planOf (planBuild fileC5w ["out/foo"])).tasks,
      e.2.unbuiltDependencies = e.2.dependsOn.length) :=
  ⟨rfl, (plan_build_dag_and_edges fileC5w ["out/foo"]
    (planOf (planBuild fileC5w ["out/foo"])) rfl).2.1⟩

/-- The inputs loop neither panics nor runs out of fuel when its target
planner (for the loop's fixed in-progress stack, over states with the fixed
rule table) neither panics nor runs out of fuel, all inputs are valid paths,
and the rules' recorded inputs are valid paths. -/
theorem planInputsF_safe (pot : PlannerSt → String → List String → PlanRes)
    (hpotTab : PotTables pot) (hpotKeys : PotKeys pot) (tip : List String)
    (RM : List (String × HexRule))
    (hpotSafe : ∀ st input, st.ruleMap = RM → RulesValid st →
      hexPathValid input = true →
      pot st input tip ≠ .abort ∧ pot st input tip ≠ .fuelOut) :
    ∀ (inputs : List String) (st : PlannerSt) (task : Task),
      st.ruleMap = RM → RulesValid st →
      (∀ i ∈ inputs, hexPathValid i = true) →
      planInputsF pot st task inputs tip ≠ .inr .abort ∧
      planInputsF pot st task inputs tip ≠ .inr .fuelOut := by
  intro inputs
  induction inputs with
  | nil =>
    intro st task _ _ _
    rw [planInputsF]
    exact ⟨fun h => Sum.noConfusion h, fun h => Sum.noConfusion h⟩
  | cons input rest ih =>
    intro st task hrm hRV hvals
    by_cases hio : isOutput input = true
    case neg =>
      have hunf : planInputsF pot st task (input :: rest) tip =
          planInputsF pot st task rest tip := by
        rw [planInputsF, if_neg hio]
      rw [hunf]
      exact ih st task hrm hRV fun i hi => hvals i (List.mem_cons_of_mem _ hi)
    case pos =>
      have hvalin : hexPathValid input = true :=
        hvals input (List.mem_cons_self _ _)
      cases hres : pot st input tip with
      | ok r1 st1 =>
        have hs : (st1.taskForRule.lookup r1).isSome = true :=
          (lookupG_isSome_iff _ _).mpr (hpotKeys _ _ _ _ _ hres).1
        have hunf : planInputsF pot st task (input :: rest) tip =
            (if (st1.taskForRule.lookup r1).isSome = true then
              planInputsF pot
                { st1 with
                  taskForRule := (addDependency task r1 st1.taskForRule).2 }
                (addDependency task r1 st1.taskForRule).1 rest tip
            else .inr .abort) := by
          rw [planInputsF, if_pos hio, hres]
        rw [hunf, if_pos hs]
        have hrm1 : st1.ruleMap = RM := (hpotTab _ _ _ _ _ hres).1.trans hrm
        have hRV1 : RulesValid st1 := by
          unfold RulesValid
          rw [(hpotTab _ _ _ _ _ hres).1]
          exact hRV
        exact ih _ _ hrm1 hRV1 fun i hi => hvals i (List.mem_cons_of_mem _ hi)
      | diag msg =>
        have hunf : planInputsF pot st task (input :: rest) tip =
            .inr (.diag msg) := by
          rw [planInputsF, if_pos hio, hres]
        rw [hunf]
        exact ⟨by simp, by simp⟩
      | abort =>
        exact absurd hres (hpotSafe st input hrm hRV hvalin).1
      | fuelOut =>
        exact absurd hres (hpotSafe st input hrm hRV hvalin).2

/-- With valid target and rule-input paths and fuel above the number of
rules not yet in progress, `planOneTarget` neither panics nor runs out of
fuel. -/
theorem planOneTarget_safe : ∀ (fuel : Nat) (st : PlannerSt) (target : String)
    (tip : List String),
    RulesValid st → hexPathValid target = true → freeRules st tip < fuel →
    planOneTarget fuel st target tip ≠ .abort ∧
    planOneTarget fuel st target tip ≠ .fuelOut := by
  intro fuel
  induction fuel with
  | zero =>
    intro st target tip _ _ hfuel
    exact absurd hfuel (Nat.not_lt_zero _)
  | succ fuel ih =>
    intro st target tip hRV hval hfuel
    have hE : planOneTarget (fuel + 1) st target tip =
        (if hexPathValid target = true then
          match (if isOutput target = true then
              match st.ruleByOutput.lookup target with
              | some ruleName => Sum.inl ruleName
              | none => Sum.inr ("No rule exists to build `" ++ target ++ "`")
            else Sum.inl target : Sum String String) with
          | .inr msg => PlanRes.diag msg
          | .inl ruleName =>
            if tip.contains ruleName = true then
              PlanRes.diag ("Rule cycle involving rule `" ++ ruleName ++ "`")
            else
              if (st.taskForRule.lookup ruleName).isSome = true then
                PlanRes.ok ruleName st
              else
                match st.ruleMap.lookup ruleName with
                | none =>
                  PlanRes.diag ("No rule exists named `" ++ ruleName ++ "`")
                | some rule =>
                  match planInputsF (planOneTarget fuel) st (Task.new rule)
                      rule.inputs (ruleName :: tip) with
                  | .inr res => res
                  | .inl (task, st2) =>
                    PlanRes.ok ruleName
                      { st2 with
                        taskForRule := st2.taskForRule ++ [(ruleName, task)] }
        else PlanRes.abort) := by
      rw [planOneTarget]
    rw [if_pos hval] at hE
    cases hsum : (if isOutput target = true then
        match st.ruleByOutput.lookup target with
        | some ruleName => Sum.inl ruleName
        | none => Sum.inr ("No rule exists to build `" ++ target ++ "`")
      else Sum.inl target : Sum String String) with
    | inr msg =>
      rw [hsum] at hE
      have hE2 : planOneTarget (fuel + 1) st target tip = PlanRes.diag msg := hE
      rw [hE2]
      exact ⟨fun hx => PlanRes.noConfusion hx, fun hx => PlanRes.noConfusion hx⟩
    | inl ruleName =>
      rw [hsum] at hE
      have hE2 : planOneTarget (fuel + 1) st target tip =
          (if tip.contains ruleName = true then
            PlanRes.diag ("Rule cycle involving rule `" ++ ruleName ++ "`")
          else
            if (st.taskForRule.lookup ruleName).isSome = true then
              PlanRes.ok ruleName st
            else
              match st.ruleMap.lookup ruleName with
              | none => PlanRes.diag ("No rule exists named `" ++ ruleName ++ "`")
              | some rule =>
                match planInputsF (planOneTarget fuel) st (Task.new rule)
                    rule.inputs (ruleName :: tip) with
                | .inr res => res
                | .inl (task, st2) =>
                  PlanRes.ok ruleName
                    { st2 with
                      taskForRule := st2.taskForRule ++ [(ruleName, task)] }) :=
        hE
      by_cases hcyc : tip.contains ruleName = true
      · rw [if_pos hcyc] at hE2
        rw [hE2]
        exact ⟨fun hx => PlanRes.noConfusion hx, fun hx => PlanRes.noConfusion hx⟩
      · rw [if_neg hcyc] at hE2
        by_cases hsome : (st.taskForRule.lookup ruleName).isSome = true
        · rw [if_pos hsome] at hE2
          rw [hE2]
          exact ⟨fun hx => PlanRes.noConfusion hx,
            fun hx => PlanRes.noConfusion hx⟩
        · rw [if_neg hsome] at hE2
          cases hrm : st.ruleMap.lookup ruleName with
          | none =>
            rw [hrm] at hE2
            rw [hE2]
            exact ⟨fun hx => PlanRes.noConfusion hx,
              fun hx => PlanRes.noConfusion hx⟩
          | some rule =>
            rw [hrm] at hE2
            have hE3 : planOneTarget (fuel + 1) st target tip =
                (match planInputsF (planOneTarget fuel) st (Task.new rule)
                    rule.inputs (ruleName :: tip) with
                  | .inr res => res
                  | .inl (task, st2) =>
                    PlanRes.ok ruleName
                      { st2 with
                        taskForRule := st2.taskForRule ++ [(ruleName, task)] }) :=
              hE2
            have hrmem : ruleName ∈ st.ruleMap.map Prod.fst :=
              (lookupG_isSome_iff _ _).mp (by rw [hrm]; rfl)
            have hcycF : tip.contains ruleName = false :=
              Bool.eq_false_iff.mpr hcyc
            have hrtip : ruleName ∉ tip :=
              (notContains_iff _ _).mp (by rw [hcycF]; rfl)
            have hfuel2 : freeRules st (ruleName :: tip) < fuel := by
              have hmono : ∀ x, (!((ruleName :: tip).contains x)) = true →
                  (!(tip.contains x)) = true := by
                intro x hx
                have hx2 := (notContains_iff _ x).mp hx
                exact (notContains_iff tip x).mpr
                  fun hm => hx2 (List.mem_cons_of_mem _ hm)
              have hpf : (!((ruleName :: tip).contains ruleName)) = false := by
                have hc : (ruleName :: tip).contains ruleName = true :=
                  List.elem_iff.mpr (List.mem_cons_self _ _)
                rw [hc]
                rfl
              have hqt : (!(tip.contains ruleName)) = true :=
                (notContains_iff tip ruleName).mpr hrtip
              have hlt := filter_length_lt
                (fun n => !((ruleName :: tip).contains n))
                (fun n => !(tip.contains n)) hmono ruleName
                (st.ruleMap.map Prod.fst) hrmem hpf hqt
              unfold freeRules at hfuel ⊢
              omega
            have hinputsvalid : ∀ i ∈ rule.inputs, hexPathValid i = true :=
              hRV _ (lookupG_mem hrm)
            have hsafePI := planInputsF_safe (planOneTarget fuel)
              (planOneTarget_tables fuel) (planOneTarget_keys fuel)
              (ruleName :: tip) st.ruleMap
              (fun st0 input hrm0 hRV0 hval0 => by
                have hmeas : freeRules st0 (ruleName :: tip) =
                    freeRules st (ruleName :: tip) := by
                  unfold freeRules
                  rw [hrm0]
                exact ih st0 input (ruleName :: tip) hRV0 hval0
                  (by rw [hmeas]; exact hfuel2))
              rule.inputs st (Task.new rule) rfl hRV hinputsvalid
            obtain ⟨hA, hF⟩ := hsafePI
            cases hpi : planInputsF (planOneTarget fuel) st (Task.new rule)
                rule.inputs (ruleName :: tip) with
            | inl pr =>
              rw [hpi] at hE3
              have hE4 : planOneTarget (fuel + 1) st target tip =
                  PlanRes.ok ruleName
                    { pr.2 with
                      taskForRule := pr.2.taskForRule ++ [(ruleName, pr.1)] } :=
                hE3
              rw [hE4]
              exact ⟨fun hx => PlanRes.noConfusion hx,
                fun hx => PlanRes.noConfusion hx⟩
            | inr res =>
              rw [hpi] at hE3
              have hE4 : planOneTarget (fuel + 1) st target tip = res := hE3
              rw [hE4]
              cases res with
              | ok r2 s2 =>
                exact absurd hpi
                  (planInputsF_ne_inr_ok (planOneTarget fuel) rule.inputs st
                    (Task.new rule) (ruleName :: tip) r2 s2)
              | diag msg =>
                exact ⟨fun hx => PlanRes.noConfusion hx,
                  fun hx => PlanRes.noConfusion hx⟩
              | abort => exact absurd hpi hA
              | fuelOut => exact absurd hpi hF

/-- The loop of `Planner::plan` returns a plan or a diagnostic when all
targets and rule inputs are valid paths and the fuel bound is sufficient. -/
theorem planTargets_total : ∀ (targets : List String) (fuel : Nat)
    (st : PlannerSt) (targetRules : List String),
    RulesValid st → (∀ t ∈ targets, hexPathValid t = true) →
    freeRules st [] < fuel →
    (∃ p, planTargets fuel st targetRules targets = .plan p) ∨
    (∃ msg, planTargets fuel st targetRules targets = .diag msg) := by
  intro targets
  induction targets with
  | nil =>
    intro fuel st targetRules _ _ _
    rw [planTargets]
    exact Or.inl ⟨_, rfl⟩
  | cons target rest ih =>
    intro fuel st targetRules hRV hvals hfuel
    rw [planTargets]
    cases hres : planOneTarget fuel st target [] with
    | ok r1 st1 =>
      have hRV1 : RulesValid st1 := by
        unfold RulesValid
        rw [(planOneTarget_tables fuel _ _ _ _ _ hres).1]
        exact hRV
      have hfuel1 : freeRules st1 [] < fuel := by
        unfold freeRules
        rw [(planOneTarget_tables fuel _ _ _ _ _ hres).1]
        exact hfuel
      exact ih fuel st1 (targetRules ++ [r1]) hRV1
        (fun t ht => hvals t (List.mem_cons_of_mem _ ht)) hfuel1
    | diag msg =>
      exact Or.inr ⟨msg, rfl⟩
    | abort =>
      exact absurd hres (planOneTarget_safe fuel st target [] hRV
        (hvals target (List.mem_cons_self _ _)) hfuel).1
    | fuelOut =>
      exact absurd hres (planOneTarget_safe fuel st target [] hRV
        (hvals target (List.mem_cons_self _ _)) hfuel).2

/-- C6 counterexample: the empty string is not a valid path shape, and
`plan_build` on it reaches `HexPath::try_from(target).unwrap()`, a panic
(modelled as `abort`) rather than a plan or an error diagnostic. -/
theorem plan_build_panics_on_invalid_path :
    planBuild { environ := [], rules := [] } [""] = .abort := rfl

/-- C6 (amended): `plan_build` is total — it returns either a plan or an
error diagnostic and never panics — provided every raw target string and
every rule input is a valid path shape; an invalid target string instead
hits the `unwrap` panic exhibited by the counterexample. -/
theorem plan_build_total_on_valid_paths (hexFile : HexmakeFile)
    (targets : List String)
    (htargets : ∀ t ∈ targets, hexPathValid t = true)
    (hinputs : ∀ rule ∈ hexFile.rules, ∀ i ∈ rule.inputs,
      hexPathValid i = true) :
    (∃ p, planBuild hexFile targets = .plan p) ∨
    (∃ msg, planBuild hexFile targets = .diag msg) := by
  have hRV : RulesValid (PlannerSt.new hexFile) := by
    intro e he
    obtain ⟨r, hr, rfl⟩ := plannerNew_ruleMap_mem hexFile e he
    exact hinputs r hr
  have hfuel : freeRules (PlannerSt.new hexFile) [] <
      hexFile.rules.length + 1 := by
    have hlen := plannerNew_ruleMap_length hexFile
    have hle : freeRules (PlannerSt.new hexFile) [] ≤
        (PlannerSt.new hexFile).ruleMap.length := by
      unfold freeRules
      calc ((((PlannerSt.new hexFile).ruleMap.map Prod.fst).filter
            fun n => !(([] : List String).contains n)).length)
          ≤ ((PlannerSt.new hexFile).ruleMap.map Prod.fst).length :=
            List.length_filter_le _ _
        _ = (PlannerSt.new hexFile).ruleMap.length := by
            rw [List.length_map]
    omega
  exact planTargets_total targets (hexFile.rules.length + 1)
    (PlannerSt.new hexFile) [] hRV htargets hfuel

set_option maxRecDepth 40000 in
/-- Witness for the amended totality statement at a concrete file. -/
theorem plan_build_total_on_valid_paths_witness :
    (∀ t ∈ ["out/foo"], hexPathValid t = true) ∧
    (∀ rule ∈ fileC5w.rules, ∀ i ∈ rule.inputs, hexPathValid i = true) ∧
    ((∃ p, planBuild fileC5w ["out/foo"] = .plan p) ∨
     (∃ msg, planBuild fileC5w ["out/foo"] = .diag msg)) :=
  ⟨by decide, by decide,
    plan_build_total_on_valid_paths fileC5w ["out/foo"] (by decide) (by decide)⟩

end Hexmake
